import Mathlib

/-!
Verification of the docpipe pattern-matching / markup engine and HTML
structural transforms (laws-africa/docpipe).

The Python source is embedded shallowly:

* strings are Lean `String`s, indexed by code points via their `data`
  (`List Char`) field, matching Python's code-point indexing;
* machine integers are `Int` (Python integers);
* document trees (lxml elements) are a rose tree `Elem`; each node carries
  a numeric id `eid` modelling lxml object identity (lxml code holds
  references to nodes across mutations; the embedding looks nodes up by id);
* absent text (`None` in lxml) is represented by `""`: every operation in
  the embedded code treats `None` and `""` identically (both are falsy and
  both serialise to nothing), so the two are observationally equal;
* in-place mutation becomes explicit state passing; unbounded loops become
  fueled recursion, with fuel proved sufficient where theorems need it.

`docpipe/xmlutils.py` (wrap_text, unwrap_element, merge_adjacent) is not
part of the available source; those three functions are modelled from the
specification and from their test suite, and are marked as such.
-/

/-! ## Code-point string primitives (Python slicing semantics) -/

/-- Length of a string in code points (Python `len`). -/
def slen (s : String) : Nat := s.data.length

/-- `ssub s a b` is Python `s[a:b]` for `0 ≤ a ≤ b` (code-point indices). -/
def ssub (s : String) (a b : Nat) : String := ⟨(s.data.drop a).take (b - a)⟩

/-- `ssubI` is `ssub` on integer indices (used where Python holds `int`s;
the embedded code only reaches it with non-negative indices). -/
def ssubI (s : String) (a b : Int) : String := ssub s a.toNat b.toNat

theorem slen_ssub (s : String) (a b : Nat) :
    slen (ssub s a b) = min (b - a) (slen s - a) := by
  simp [slen, ssub]

theorem ssub_zero_slen (s : String) : ssub s 0 (slen s) = s := by
  cases s with
  | mk data => simp [ssub, slen]

/-- Splitting a string at positions `a ≤ b` loses nothing:
`s[0:a] ++ s[a:b] ++ s[b:len] = s`. -/
theorem ssub_append_three (s : String) (a b : Nat) (hab : a ≤ b) :
    ssub s 0 a ++ ssub s a b ++ ssub s b (slen s) = s := by
  apply String.ext
  simp only [String.data_append, ssub, slen, Nat.sub_zero, List.drop_zero]
  rw [List.take_drop, show a + (b - a) = b by omega]
  rw [List.take_of_length_le (l := s.data.drop b) (by simp)]
  rw [show s.data.take a = (s.data.take b).take a by
    rw [List.take_take]; congr 1; omega]
  rw [List.take_append_drop, List.take_append_drop]

/-! ## Matches

`ExtractedMatch` (docpipe/matchers.py lines 9-25): a match in a text
string. Python's field `end` is a Lean keyword, so it is named `stop`;
`original_match` is a reference to the underlying `re.Match`, kept here as
the fields the code reads from it. Offsets are `Int` (Python integers). -/

structure EMatch where
  text : String
  start : Int
  stop : Int
  groups : List (String × String)
deriving Repr, DecidableEq

/-- The fields the code reads from a Python `re.Match` object `m`:
`m.group()`, `m.start()`, `m.end()`, `m.groupdict()`. -/
structure ReMatch where
  group0 : String
  start : Int
  stop : Int
  groupdict : List (String × String)
deriving Repr, DecidableEq

/-- What Python's `re` guarantees for a match found in `s`:
offsets in range and `group()` equal to the matched slice of `s`. -/
def ReMatch.WF (s : String) (m : ReMatch) : Prop :=
  0 ≤ m.start ∧ m.start ≤ m.stop ∧ m.stop ≤ (slen s : Int) ∧
    m.group0 = ssubI s m.start m.stop

/-- `TextPatternMatcher.make_extracted_match` (matchers.py lines 127-134). -/
def makeExtractedMatch (m : ReMatch) : EMatch :=
  ⟨m.group0, m.start, m.stop, m.groupdict⟩

/-- Python `em.text.endswith(')')`. -/
def endsWithCloseParen (t : String) : Bool :=
  match t.data.getLast? with
  | some c => c = ')'
  | none => false

/-- Python `'(' in em.text`. -/
def containsOpenParen (t : String) : Bool := t.data.contains '('

/-- `ActMatcher.make_extracted_match` (citations.py lines 72-78): if the
matched text ends with `)` and contains no `(`, drop the trailing
character from the text and decrement the end offset. -/
def actMakeExtractedMatch (m : ReMatch) : EMatch :=
  let em := makeExtractedMatch m
  if endsWithCloseParen em.text && !containsOpenParen em.text then
    { em with text := ssub em.text 0 (slen em.text - 1), stop := em.stop - 1 }
  else
    em

/-- Bounds invariant for a produced match relative to the scanned string. -/
def EMatch.InBounds (s : String) (em : EMatch) : Prop :=
  0 ≤ em.start ∧ em.start ≤ em.stop ∧ em.stop ≤ (slen s : Int)

/-- C7 -- For every raw Act-citation match whose matched text ends with `)`
and contains no `(`, the stored match text is the raw text with the final
character removed and the stored end offset is one less than the raw
match's end offset; every other match is stored unchanged. -/
theorem act_trailing_paren_correction (m : ReMatch) :
    ((endsWithCloseParen m.group0 && !containsOpenParen m.group0) = true →
      actMakeExtractedMatch m =
        { text := ssub m.group0 0 (slen m.group0 - 1), start := m.start,
          stop := m.stop - 1, groups := m.groupdict }) ∧
    ((endsWithCloseParen m.group0 && !containsOpenParen m.group0) = false →
      actMakeExtractedMatch m = makeExtractedMatch m) := by
  constructor
  · intro h
    simp [actMakeExtractedMatch, makeExtractedMatch, h]
  · intro h
    simp [actMakeExtractedMatch, makeExtractedMatch, h]

/-- Witness for C7 on the spec's example: raw text `"Act No. 58 of 1962)"`
is stored as `"Act No. 58 of 1962"` with the end offset decremented; a raw
text with both parentheses is stored unchanged. -/
theorem act_trailing_paren_correction_witness :
    ((endsWithCloseParen "Act No. 58 of 1962)" &&
        !containsOpenParen "Act No. 58 of 1962)") = true ∧
      actMakeExtractedMatch ⟨"Act No. 58 of 1962)", 10, 29, []⟩ =
        { text := "Act No. 58 of 1962", start := 10, stop := 28, groups := [] }) ∧
    ((endsWithCloseParen "Act, 2004 (No. 39 of 2004)" &&
        !containsOpenParen "Act, 2004 (No. 39 of 2004)") = false ∧
      actMakeExtractedMatch ⟨"Act, 2004 (No. 39 of 2004)", 0, 26, []⟩ =
        makeExtractedMatch ⟨"Act, 2004 (No. 39 of 2004)", 0, 26, []⟩) := by
  refine ⟨⟨by decide, ?_⟩, ⟨by decide, ?_⟩⟩
  · have h := (act_trailing_paren_correction ⟨"Act No. 58 of 1962)", 10, 29, []⟩).1
      (by decide)
    rw [h]
    decide
  · exact (act_trailing_paren_correction ⟨"Act, 2004 (No. 39 of 2004)", 0, 26, []⟩).2
      (by decide)

/-- C8 -- Every `ExtractedMatch` produced by the base matcher or by the Act
matcher (after the trailing-parenthesis decrement) satisfies
`0 ≤ start ≤ end ≤ length(scanned_string)`. -/
theorem extracted_match_in_bounds (s : String) (m : ReMatch) (h : m.WF s) :
    (makeExtractedMatch m).InBounds s ∧ (actMakeExtractedMatch m).InBounds s := by
  obtain ⟨h0, h1, h2, h3⟩ := h
  constructor
  · exact ⟨h0, h1, h2⟩
  · unfold actMakeExtractedMatch
    simp only [makeExtractedMatch]
    split
    · next hcond =>
      -- the text ends with ')' so it is nonempty, hence stop - start ≥ 1
      have hne : m.group0.data ≠ [] := by
        intro hnil
        rw [Bool.and_eq_true] at hcond
        have := hcond.1
        unfold endsWithCloseParen at this
        rw [hnil] at this
        simp at this
      have hlen : 1 ≤ slen m.group0 := by
        unfold slen
        cases hd : m.group0.data with
        | nil => exact absurd hd hne
        | cons a l => simp
      have hsub : slen m.group0 = min (m.stop.toNat - m.start.toNat) (slen s - m.start.toNat) := by
        rw [h3]
        unfold ssubI
        rw [slen_ssub]
      exact ⟨h0, by show m.start ≤ m.stop - 1; omega,
        by show m.stop - 1 ≤ (slen s : Int); omega⟩
    · exact ⟨h0, h1, h2⟩

/-- Witness for C8 at a concrete well-formed match. -/
theorem extracted_match_in_bounds_witness :
    ReMatch.WF " Act No. 58 of 1962); x" ⟨"Act No. 58 of 1962)", 1, 20, []⟩ ∧
    (makeExtractedMatch ⟨"Act No. 58 of 1962)", 1, 20, []⟩).InBounds
      " Act No. 58 of 1962); x" ∧
    (actMakeExtractedMatch ⟨"Act No. 58 of 1962)", 1, 20, []⟩).InBounds
      " Act No. 58 of 1962); x" := by
  have hwf : ReMatch.WF " Act No. 58 of 1962); x" ⟨"Act No. 58 of 1962)", 1, 20, []⟩ := by
    refine ⟨by decide, by decide, by decide, by decide⟩
  have h := extracted_match_in_bounds " Act No. 58 of 1962); x"
    ⟨"Act No. 58 of 1962)", 1, 20, []⟩ hwf
  exact ⟨hwf, h.1, h.2⟩

/-! ## Document trees

`Elem` models an lxml element node: tag, ordered attributes, own text,
owned children, tail text. `eid` models lxml object identity: the Python
code holds references to element objects across tree mutations, which the
embedding renders as lookups by id. Theorems assume ids are unique
(`Nodup`), which is what object identity gives. -/

inductive Elem where
  | mk (eid : Nat) (tag : String) (attrs : List (String × String))
      (text : String) (children : List Elem) (tail : String)
deriving Repr

def Elem.eid : Elem → Nat | .mk i _ _ _ _ _ => i
def Elem.tag : Elem → String | .mk _ t _ _ _ _ => t
def Elem.attrs : Elem → List (String × String) | .mk _ _ a _ _ _ => a
def Elem.text : Elem → String | .mk _ _ _ t _ _ => t
def Elem.children : Elem → List Elem | .mk _ _ _ _ k _ => k
def Elem.tail : Elem → String | .mk _ _ _ _ _ t => t

@[simp] theorem Elem.eid_mk (i tg a tx k tl) : (Elem.mk i tg a tx k tl).eid = i := rfl
@[simp] theorem Elem.tag_mk (i tg a tx k tl) : (Elem.mk i tg a tx k tl).tag = tg := rfl
@[simp] theorem Elem.attrs_mk (i tg a tx k tl) : (Elem.mk i tg a tx k tl).attrs = a := rfl
@[simp] theorem Elem.text_mk (i tg a tx k tl) : (Elem.mk i tg a tx k tl).text = tx := rfl
@[simp] theorem Elem.children_mk (i tg a tx k tl) : (Elem.mk i tg a tx k tl).children = k := rfl
@[simp] theorem Elem.tail_mk (i tg a tx k tl) : (Elem.mk i tg a tx k tl).tail = tl := rfl

def Elem.setText : Elem → String → Elem
  | .mk i tg a _ k tl, s => .mk i tg a s k tl
def Elem.setTail : Elem → String → Elem
  | .mk i tg a tx k _, s => .mk i tg a tx k s
def Elem.setChildren : Elem → List Elem → Elem
  | .mk i tg a tx _ tl, k => .mk i tg a tx k tl

@[simp] theorem Elem.setText_mk (i tg a tx k tl s) :
    (Elem.mk i tg a tx k tl).setText s = .mk i tg a s k tl := rfl
@[simp] theorem Elem.setTail_mk (i tg a tx k tl s) :
    (Elem.mk i tg a tx k tl).setTail s = .mk i tg a tx k s := rfl
@[simp] theorem Elem.setChildren_mk (i tg a tx k tl k') :
    (Elem.mk i tg a tx k tl).setChildren k' = .mk i tg a tx k' tl := rfl

mutual
/-- All text content inside an element, in document order (own text, then
each child's content followed by its tail): `''.join(e.itertext())`. -/
def innerText : Elem → String
  | .mk _ _ _ tx kids _ => tx ++ innerTextL kids
def innerTextL : List Elem → String
  | [] => ""
  | c :: cs => innerText c ++ c.tail ++ innerTextL cs
end

mutual
/-- Ids of all nodes of a subtree, in document order. -/
def elemIds : Elem → List Nat
  | .mk i _ _ _ kids _ => i :: elemIdsL kids
def elemIdsL : List Elem → List Nat
  | [] => []
  | c :: cs => elemIds c ++ elemIdsL cs
end

mutual
/-- Number of nodes with the given tag. -/
def countTag (tg : String) : Elem → Nat
  | .mk _ t _ _ kids _ => (if t = tg then 1 else 0) + countTagL tg kids
def countTagL (tg : String) : List Elem → Nat
  | [] => 0
  | c :: cs => countTag tg c + countTagL tg cs
end

mutual
/-- Look a node up by id (first match in document order). -/
def findById : Elem → Nat → Option Elem
  | .mk i tg a tx kids tl, x =>
    if i = x then some (.mk i tg a tx kids tl) else findByIdL kids x
def findByIdL : List Elem → Nat → Option Elem
  | [], _ => none
  | c :: cs, x =>
    match findById c x with
    | some r => some r
    | none => findByIdL cs x
end

mutual
/-- Largest id occurring in the tree. -/
def maxId : Elem → Nat
  | .mk i _ _ _ kids _ => max i (maxIdL kids)
def maxIdL : List Elem → Nat
  | [] => 0
  | c :: cs => max (maxId c) (maxIdL cs)
end

mutual
/-- Rewrite every node with id `x` by `f` (under unique ids: the one such
node); models mutating the lxml element object held by reference. -/
def mapById (f : Elem → Elem) : Elem → Nat → Elem
  | .mk i tg a tx kids tl, x =>
    if i = x then f (.mk i tg a tx kids tl)
    else .mk i tg a tx (mapByIdL f kids x) tl
def mapByIdL (f : Elem → Elem) : List Elem → Nat → List Elem
  | [], _ => []
  | c :: cs, x => mapById f c x :: mapByIdL f cs x
end

mutual
/-- Set the tail of the node with id `x` to `newTail` and insert the
elements `ins` immediately after it, as its next siblings. A root-level
`x` is left unchanged (an element cannot be added next to the lxml root;
the embedded code never does). -/
def spliceAfter (x : Nat) (newTail : String) (ins : List Elem) : Elem → Elem
  | .mk i tg a tx kids tl => .mk i tg a tx (spliceAfterL x newTail ins kids) tl
def spliceAfterL (x : Nat) (newTail : String) (ins : List Elem) :
    List Elem → List Elem
  | [] => []
  | c :: cs =>
    if c.eid = x then c.setTail newTail :: (ins ++ cs)
    else spliceAfter x newTail ins c :: spliceAfterL x newTail ins cs
end

mutual
/-- Boolean structural equality on trees (`DecidableEq` cannot be derived
for a nested inductive automatically). -/
def Elem.beq : Elem → Elem → Bool
  | .mk i tg a tx k tl, .mk i' tg' a' tx' k' tl' =>
    decide (i = i') && decide (tg = tg') && decide (a = a') &&
      decide (tx = tx') && Elem.beqL k k' && decide (tl = tl')
def Elem.beqL : List Elem → List Elem → Bool
  | [], [] => true
  | c :: cs, d :: ds => Elem.beq c d && Elem.beqL cs ds
  | [], _ :: _ => false
  | _ :: _, [] => false
end

mutual
theorem Elem.beq_iff : ∀ a b : Elem, Elem.beq a b = true ↔ a = b
  | .mk i tg a tx k tl, .mk i' tg' a' tx' k' tl' => by
    simp only [Elem.beq, Bool.and_eq_true, decide_eq_true_eq, Elem.mk.injEq]
    constructor
    · rintro ⟨⟨⟨⟨⟨h1, h2⟩, h3⟩, h4⟩, h5⟩, h6⟩
      exact ⟨h1, h2, h3, h4, (Elem.beqL_iff k k').mp h5, h6⟩
    · rintro ⟨h1, h2, h3, h4, h5, h6⟩
      exact ⟨⟨⟨⟨⟨h1, h2⟩, h3⟩, h4⟩, (Elem.beqL_iff k k').mpr h5⟩, h6⟩
theorem Elem.beqL_iff : ∀ a b : List Elem, Elem.beqL a b = true ↔ a = b
  | [], [] => by simp [Elem.beqL]
  | c :: cs, d :: ds => by
    simp only [Elem.beqL, Bool.and_eq_true, List.cons.injEq]
    exact and_congr (Elem.beq_iff c d) (Elem.beqL_iff cs ds)
  | [], _ :: _ => by simp [Elem.beqL]
  | _ :: _, [] => by simp [Elem.beqL]
end

instance : DecidableEq Elem := fun a b => decidable_of_iff _ (Elem.beq_iff a b)

/-! ## Citations and the CitationMatcher configuration -/

/-- `ExtractedCitation` (matchers.py lines 227-236). The field Python
names `end` is `stop`; `target_id` is the dataclass's fifth field, which
the plain-text path fills with the page number; `prefix`/`suffix` are
`pfx`/`sfx` (Lean keyword / reserved token). -/
structure ExtractedCitation where
  text : String
  start : Int
  stop : Int
  href : String
  target_id : Option Nat
  pfx : Option String
  sfx : Option String
deriving Repr, DecidableEq

/-- The per-flavor data a `CitationMatcher` subclass supplies: the
compiled pattern together with `make_extracted_match` (as the composite
`findM = match stream of find_text_matches`), `make_href`, the document's
`frbr_uri.work_uri()`, and the marker tag. -/
structure CitCfg where
  findM : String → List EMatch
  makeHref : EMatch → String
  workUri : String
  markerTag : String

/-- `CitationMatcher.is_node_match_valid` / `is_text_match_valid`
(matchers.py lines 274-280): Python `href and href != work_uri()`
(`""` and `None` are both falsy, modelled as `""`). -/
def CitCfg.valid (cfg : CitCfg) (m : EMatch) : Bool :=
  !(cfg.makeHref m == "") && !(cfg.makeHref m == cfg.workUri)

/-! ### Plain-text extraction (matchers.py lines 100-125, 257-272) -/

/-- `CitationMatcher.handle_text_match` (lines 257-272): append a citation
with page number and 30-character context windows, if the href is truthy. -/
def handleTextMatch (cfg : CitCfg) (pagenum : Nat) (page : String)
    (cits : List ExtractedCitation) (m : EMatch) : List ExtractedCitation :=
  let href := cfg.makeHref m
  if href = "" then cits
  else
    cits ++ [⟨m.text, m.start, m.stop, href, some pagenum,
      some (ssubI page (max (m.start - 30) 0) m.start),
      some (ssubI page m.stop (min (m.stop + 30) (slen page)))⟩]

/-- `TextPatternMatcher.run_text_extraction` (lines 111-114): each match
that passes `is_text_match_valid` is handled. -/
def runTextExtraction (cfg : CitCfg) (pagenum : Nat) (page : String)
    (cits : List ExtractedCitation) : List ExtractedCitation :=
  (cfg.findM page).foldl
    (fun acc m => if cfg.valid m then handleTextMatch cfg pagenum page acc m else acc)
    cits

/-- `extract_text_matches` / `extract_paged_text_matches` (lines 100-109):
split on form feed, scan each page with its zero-based index. -/
def extractTextMatches (cfg : CitCfg) (text : String) : List ExtractedCitation :=
  ((text.data.splitOn '\x0C').map (fun l => (⟨l⟩ : String))).enum.foldl
    (fun acc (p : Nat × String) => runTextExtraction cfg p.1 p.2 acc) []

/-! ### The wrap_text splice primitive (not in the available source) -/

/-- Modelled from the spec: `docpipe.xmlutils.wrap_text` (section 4.3 of
the specification; behaviour pinned by docpipe/tests/test_xmlutils.py).
Splits the target string (own text, or tail when `inTail`) of the node
with id `xid` at `[start, stop)` (defaulting to the whole string): the
prefix stays on the original holder, the matched substring becomes the
factory-made element's own text, the suffix becomes its tail. The new
element is inserted immediately after the node when splicing the tail,
else as the node's new first child with the pre-existing children
re-parented after it. Returns the new element. (lxml cannot insert a
sibling of the root: the embedding leaves the tree unchanged in that
unreachable case, though it still reports the built element.) -/
def wrapText (t : Elem) (xid : Nat) (inTail : Bool) (factory : String → Elem)
    (startPos stopPos : Option Nat) : Elem × Option Elem :=
  match findById t xid with
  | none => (t, none)
  | some x =>
    let tgt := if inTail then x.tail else x.text
    let a := startPos.getD 0
    let b := stopPos.getD (slen tgt)
    let pre := ssub tgt 0 a
    let mid := ssub tgt a b
    let suf := ssub tgt b (slen tgt)
    let newE := ((factory mid).setText mid).setTail suf
    if inTail then
      (spliceAfter xid pre [newE] t, some newE)
    else
      (mapById (fun y => (y.setText pre).setChildren (newE :: y.children)) t xid,
        some newE)

/-! ### DOM matching (matchers.py lines 156-224, 282-293) -/

structure DomState where
  tree : Elem
  cits : List ExtractedCitation
  nextId : Nat

/-- `CitationMatcher.markup_node_match` (lines 282-293): build the marker
element carrying the match text, set its `href` attribute, and append an
`ExtractedCitation` (no page number, no context); reject a falsy or
self-referential href. -/
def markupNodeMatch (cfg : CitCfg) (st : DomState) (m : EMatch) :
    Option Elem × DomState :=
  let href := cfg.makeHref m
  if href = "" ∨ href = cfg.workUri then (none, st)
  else
    (some (.mk st.nextId cfg.markerTag [("href", href)] m.text [] ""),
      { st with
        cits := st.cits ++ [⟨m.text, m.start, m.stop, href, none, none, none⟩],
        nextId := st.nextId + 1 })

/-- `TextPatternMatcher.handle_node_match` (lines 191-199): validate,
mark up, then splice with `wrap_text`; `none` when the match is invalid
(no mutation). Returns the newly inserted element and the new state. -/
def handleNodeMatch (cfg : CitCfg) (st : DomState) (xid : Nat) (m : EMatch)
    (inTail : Bool) : Option (Elem × DomState) :=
  if cfg.valid m then
    match markupNodeMatch cfg st m with
    | (some marker, st') =>
      match wrapText st'.tree xid inTail (fun _ => marker)
          (some m.start.toNat) (some m.stop.toNat) with
      | (t', some newE) => some (newE, { st' with tree := t' })
      | (_, none) => none
    | (none, _) => none
  else none

/-- The inner `for match in self.find_text_matches(...)` loops of
`run_dom_matching` (lines 169-176 and 179-186): try each match in order,
stopping at the first one that mutates the tree. -/
def wrapFirstValid (cfg : CitCfg) (st : DomState) (xid : Nat) (inTail : Bool) :
    List EMatch → Option (Elem × DomState)
  | [] => none
  | m :: ms =>
    match handleNodeMatch cfg st xid m inTail with
    | some r => some r
    | none => wrapFirstValid cfg st xid inTail ms

/-- The `while node is not None and node.tail:` loop of `run_dom_matching`
(lines 178-189): keep scanning the current node's tail, moving to each
newly inserted element. `v` is the running value of the `node` variable
(no other code mutates it between iterations). Fuel bounds the iteration
count; callers pass enough (each splice strictly shortens the tail). -/
def tailLoop (cfg : CitCfg) : Nat → DomState → Elem → DomState
  | 0, st, _ => st
  | fuel + 1, st, v =>
    if v.tail = "" then st
    else
      match wrapFirstValid cfg st v.eid true (cfg.findM v.tail) with
      | some (newE, st') => tailLoop cfg fuel st' newE
      | none => st

/-- One iteration of the candidate loop in `run_dom_matching` (lines
163-189): look up the candidate's holder, scan its own text first when the
candidate is not a tail (splicing moves scanning to the new element), then
run the tail-scanning loop. -/
def processCandidate (cfg : CitCfg) (st : DomState) (slot : Nat × Bool) :
    DomState :=
  match findById st.tree slot.1 with
  | none => st
  | some v =>
    if slot.2 then
      tailLoop cfg (slen v.tail + 1) st v
    else
      match wrapFirstValid cfg st v.eid false (cfg.findM v.text) with
      | some (newE, st') => tailLoop cfg (slen v.text + slen v.tail + 1) st' newE
      | none => tailLoop cfg (slen v.text + slen v.tail + 1) st v

mutual
/-- The candidate text nodes of the default `.//text()` xpath, in document
order, as (holder id, is_tail) pairs: a node's own text (when nonempty),
then, per child, the child's candidates followed by the child's tail (when
nonempty). `candidate.getparent()` of a text node is its holder; of a tail
text node, the element it follows. -/
def slotsOf : Elem → List (Nat × Bool)
  | .mk i _ _ tx kids _ =>
    (if tx = "" then [] else [(i, false)]) ++ slotsOfKids kids
def slotsOfKids : List Elem → List (Nat × Bool)
  | [] => []
  | c :: cs =>
    slotsOf c ++ (if c.tail = "" then [] else [(c.eid, true)]) ++ slotsOfKids cs
end

/-- `markup_dom_matches` / `run_dom_matching` (lines 156-189) with the
default configuration (the whole root as the single ancestor region, all
text nodes as candidates): the candidate list is computed up front, then
each candidate is processed. Fresh marker ids start above every tree id. -/
def runDomMatching (cfg : CitCfg) (root : Elem) : DomState :=
  (slotsOf root).foldl (processCandidate cfg) ⟨root, [], maxId root + 1⟩

/-! ## C2, C10: validity and markup bookkeeping -/

theorem CitCfg.valid_iff (cfg : CitCfg) (m : EMatch) :
    cfg.valid m = true ↔ ¬(cfg.makeHref m = "" ∨ cfg.makeHref m = cfg.workUri) := by
  simp [CitCfg.valid]

theorem noself_markup (cfg : CitCfg) (st : DomState) (m : EMatch)
    (h : ∀ c ∈ st.cits, c.href ≠ cfg.workUri) :
    ∀ c ∈ (markupNodeMatch cfg st m).2.cits, c.href ≠ cfg.workUri := by
  by_cases hcond : cfg.makeHref m = "" ∨ cfg.makeHref m = cfg.workUri
  · simpa [markupNodeMatch, hcond] using h
  · intro c hc
    simp only [markupNodeMatch, hcond, if_false] at hc
    rcases List.mem_append.mp hc with h1 | h1
    · exact h c h1
    · rcases List.mem_singleton.mp h1 with rfl
      simpa using fun he => hcond (Or.inr he)

theorem noself_handle (cfg : CitCfg) (st : DomState) (xid : Nat) (m : EMatch)
    (b : Bool) (r : Elem × DomState) (hr : handleNodeMatch cfg st xid m b = some r)
    (h : ∀ c ∈ st.cits, c.href ≠ cfg.workUri) :
    ∀ c ∈ r.2.cits, c.href ≠ cfg.workUri := by
  unfold handleNodeMatch at hr
  by_cases hv : cfg.valid m = true
  · rw [if_pos hv] at hr
    have hmk := noself_markup cfg st m h
    rcases hmark : markupNodeMatch cfg st m with ⟨mk?, st'⟩
    rw [hmark] at hr hmk
    cases mk? with
    | none => simp at hr
    | some marker =>
      simp only at hr
      rcases hwrap : wrapText st'.tree xid b (fun _ => marker)
          (some m.start.toNat) (some m.stop.toNat) with ⟨t', n?⟩
      rw [hwrap] at hr
      cases n? with
      | none => simp at hr
      | some newE =>
        simp only [Option.some.injEq] at hr
        subst hr
        simpa using hmk
  · rw [if_neg hv] at hr
    simp at hr

theorem noself_wrapFirstValid (cfg : CitCfg) (st : DomState) (xid : Nat)
    (b : Bool) (ms : List EMatch) (r : Elem × DomState)
    (hr : wrapFirstValid cfg st xid b ms = some r)
    (h : ∀ c ∈ st.cits, c.href ≠ cfg.workUri) :
    ∀ c ∈ r.2.cits, c.href ≠ cfg.workUri := by
  induction ms with
  | nil => simp [wrapFirstValid] at hr
  | cons m ms ih =>
    unfold wrapFirstValid at hr
    rcases hh : handleNodeMatch cfg st xid m b with _ | r'
    · rw [hh] at hr
      exact ih hr
    · rw [hh] at hr
      simp only [Option.some.injEq] at hr
      subst hr
      exact noself_handle cfg st xid m b r' hh h

theorem noself_tailLoop (cfg : CitCfg) (fuel : Nat) :
    ∀ (st : DomState) (v : Elem), (∀ c ∈ st.cits, c.href ≠ cfg.workUri) →
      ∀ c ∈ (tailLoop cfg fuel st v).cits, c.href ≠ cfg.workUri := by
  induction fuel with
  | zero => intro st v h; simpa [tailLoop] using h
  | succ fuel ih =>
    intro st v h
    unfold tailLoop
    by_cases ht : v.tail = ""
    · simpa [ht] using h
    · rw [if_neg ht]
      rcases hw : wrapFirstValid cfg st v.eid true (cfg.findM v.tail) with _ | ⟨newE, st'⟩
      · simpa using h
      · exact ih st' newE (noself_wrapFirstValid cfg st v.eid true _ _ hw h)

theorem noself_processCandidate (cfg : CitCfg) (st : DomState) (slot : Nat × Bool)
    (h : ∀ c ∈ st.cits, c.href ≠ cfg.workUri) :
    ∀ c ∈ (processCandidate cfg st slot).cits, c.href ≠ cfg.workUri := by
  unfold processCandidate
  rcases hf : findById st.tree slot.1 with _ | v
  · simpa using h
  · by_cases hb : slot.2
    · simp only [hb, if_true]
      exact noself_tailLoop cfg _ st v h
    · simp only [hb, if_false]
      rcases hw : wrapFirstValid cfg st v.eid false (cfg.findM v.text) with _ | ⟨newE, st'⟩
      · exact noself_tailLoop cfg _ st v h
      · exact noself_tailLoop cfg _ st' newE
          (noself_wrapFirstValid cfg st v.eid false _ _ hw h)

theorem noself_fold (cfg : CitCfg) (slots : List (Nat × Bool)) :
    ∀ (st : DomState), (∀ c ∈ st.cits, c.href ≠ cfg.workUri) →
      ∀ c ∈ (slots.foldl (processCandidate cfg) st).cits, c.href ≠ cfg.workUri := by
  induction slots with
  | nil => intro st h; simpa using h
  | cons s ss ih =>
    intro st h
    exact ih (processCandidate cfg st s) (noself_processCandidate cfg st s h)

theorem noself_runTextExtraction (cfg : CitCfg) (pagenum : Nat) (page : String) :
    ∀ (cits : List ExtractedCitation), (∀ c ∈ cits, c.href ≠ cfg.workUri) →
      ∀ c ∈ runTextExtraction cfg pagenum page cits, c.href ≠ cfg.workUri := by
  unfold runTextExtraction
  induction cfg.findM page with
  | nil => intro cits h; simpa using h
  | cons m ms ih =>
    intro cits h
    simp only [List.foldl_cons]
    by_cases hv : cfg.valid m = true
    · rw [if_pos hv]
      apply ih
      unfold handleTextMatch
      by_cases he : cfg.makeHref m = ""
      · simpa [he] using h
      · rw [if_neg he]
        intro c hc
        rcases List.mem_append.mp hc with h1 | h1
        · exact h c h1
        · rcases List.mem_singleton.mp h1 with rfl
          have := (cfg.valid_iff m).mp hv
          simpa using fun hcontra => this (Or.inr hcontra)
    · rw [if_neg hv]
      exact ih cits h

/-- C2 -- A match whose constructed href equals the document's work uri is
invalid: DOM matching performs no splice and appends nothing for it; and
after a plain-text extraction or a DOM markup call, no accumulated
`ExtractedCitation` carries the document's own identifier as href. -/
theorem no_self_citation (cfg : CitCfg) :
    (∀ (st : DomState) (xid : Nat) (m : EMatch) (b : Bool),
      cfg.makeHref m = cfg.workUri →
        cfg.valid m = false ∧ handleNodeMatch cfg st xid m b = none) ∧
    (∀ (text : String) (c : ExtractedCitation),
      c ∈ extractTextMatches cfg text → c.href ≠ cfg.workUri) ∧
    (∀ (root : Elem) (c : ExtractedCitation),
      c ∈ (runDomMatching cfg root).cits → c.href ≠ cfg.workUri) := by
  refine ⟨?_, ?_, ?_⟩
  · intro st xid m b hm
    have hv : cfg.valid m = false := by
      simp [CitCfg.valid, hm]
    exact ⟨hv, by simp [handleNodeMatch, hv]⟩
  · intro text c hc
    unfold extractTextMatches at hc
    revert hc
    have hgen : ∀ (l : List (Nat × String)) (cits : List ExtractedCitation),
        (∀ c ∈ cits, c.href ≠ cfg.workUri) →
        ∀ c ∈ l.foldl (fun acc p => runTextExtraction cfg p.1 p.2 acc) cits,
          c.href ≠ cfg.workUri := by
      intro l
      induction l with
      | nil => intro cits h; simpa using h
      | cons p ps ih =>
        intro cits h
        exact ih _ (noself_runTextExtraction cfg p.1 p.2 cits h)
    intro hc
    exact hgen _ [] (by simp) c hc
  · intro root c hc
    exact noself_fold cfg (slotsOf root) ⟨root, [], maxId root + 1⟩ (by simp) c hc

@[simp] theorem Elem.eid_setText (e : Elem) (s) : (e.setText s).eid = e.eid := by cases e; rfl
@[simp] theorem Elem.eid_setTail (e : Elem) (s) : (e.setTail s).eid = e.eid := by cases e; rfl
@[simp] theorem Elem.eid_setChildren (e : Elem) (k) : (e.setChildren k).eid = e.eid := by cases e; rfl
@[simp] theorem Elem.tag_setText (e : Elem) (s) : (e.setText s).tag = e.tag := by cases e; rfl
@[simp] theorem Elem.tag_setTail (e : Elem) (s) : (e.setTail s).tag = e.tag := by cases e; rfl
@[simp] theorem Elem.tag_setChildren (e : Elem) (k) : (e.setChildren k).tag = e.tag := by cases e; rfl
@[simp] theorem Elem.attrs_setText (e : Elem) (s) : (e.setText s).attrs = e.attrs := by cases e; rfl
@[simp] theorem Elem.attrs_setTail (e : Elem) (s) : (e.setTail s).attrs = e.attrs := by cases e; rfl
@[simp] theorem Elem.attrs_setChildren (e : Elem) (k) : (e.setChildren k).attrs = e.attrs := by cases e; rfl
@[simp] theorem Elem.text_setText (e : Elem) (s) : (e.setText s).text = s := by cases e; rfl
@[simp] theorem Elem.text_setTail (e : Elem) (s) : (e.setTail s).text = e.text := by cases e; rfl
@[simp] theorem Elem.text_setChildren (e : Elem) (k) : (e.setChildren k).text = e.text := by cases e; rfl
@[simp] theorem Elem.tail_setText (e : Elem) (s) : (e.setText s).tail = e.tail := by cases e; rfl
@[simp] theorem Elem.tail_setTail (e : Elem) (s) : (e.setTail s).tail = s := by cases e; rfl
@[simp] theorem Elem.tail_setChildren (e : Elem) (k) : (e.setChildren k).tail = e.tail := by cases e; rfl
@[simp] theorem Elem.children_setText (e : Elem) (s) : (e.setText s).children = e.children := by cases e; rfl
@[simp] theorem Elem.children_setTail (e : Elem) (s) : (e.setTail s).children = e.children := by cases e; rfl
@[simp] theorem Elem.children_setChildren (e : Elem) (k) : (e.setChildren k).children = k := by cases e; rfl

theorem wrapText_none (t : Elem) (xid : Nat) (b : Bool) (f : String → Elem)
    (sp ep : Option Nat) (hfind : findById t xid = none) :
    wrapText t xid b f sp ep = (t, none) := by
  unfold wrapText; rw [hfind]

theorem wrapText_some (t : Elem) (xid : Nat) (b : Bool) (f : String → Elem)
    (sp ep : Option Nat) (x : Elem) (hfind : findById t xid = some x) :
    wrapText t xid b f sp ep =
      (let tgt := if b then x.tail else x.text
       let a := sp.getD 0
       let bb := ep.getD (slen tgt)
       let mid := ssub tgt a bb
       let newE := ((f mid).setText mid).setTail (ssub tgt bb (slen tgt))
       if b then (spliceAfter xid (ssub tgt 0 a) [newE] t, some newE)
       else (mapById (fun y => (y.setText (ssub tgt 0 a)).setChildren
           (newE :: y.children)) t xid, some newE)) := by
  unfold wrapText; rw [hfind]

/-- C10 -- Whenever a valid match is marked up in DOM mode, the `href`
attribute on the newly spliced annotation element is the one stored in the
`ExtractedCitation` appended for that match, whose text, start and end are
the (possibly corrected) match's, and whose page number, prefix and suffix
are all absent. -/
theorem markup_href_citation_agreement (cfg : CitCfg) (st : DomState) (xid : Nat)
    (m : EMatch) (b : Bool) (newE : Elem) (st' : DomState)
    (h : handleNodeMatch cfg st xid m b = some (newE, st')) :
    newE.attrs = [("href", cfg.makeHref m)] ∧
    newE.tag = cfg.markerTag ∧
    st'.cits = st.cits ++
      [⟨m.text, m.start, m.stop, cfg.makeHref m, none, none, none⟩] := by
  unfold handleNodeMatch at h
  by_cases hv : cfg.valid m = true
  · rw [if_pos hv] at h
    have hcond := (cfg.valid_iff m).mp hv
    unfold markupNodeMatch at h
    rw [if_neg hcond] at h
    simp only at h
    rcases hfind : findById st.tree xid with _ | x
    · rw [wrapText_none _ _ _ _ _ _ hfind] at h
      simp at h
    · rw [wrapText_some _ _ _ _ _ _ x hfind] at h
      rcases b with _ | _ <;>
        simp only [Bool.false_eq_true, if_true, if_false, ite_true, ite_false,
          Option.some.injEq, Prod.mk.injEq] at h <;>
        obtain ⟨rfl, rfl⟩ := h <;>
        exact ⟨by simp, by simp, by simp⟩
  · rw [if_neg hv] at h
    simp at h

def cfgSelf : CitCfg := ⟨fun _ => [], fun _ => "/akn/me", "/akn/me", "a"⟩

def cfgAct : CitCfg :=
  ⟨fun s => if s = "Act 5 of 2019" then [⟨"Act 5 of 2019", 0, 13, []⟩] else [],
    fun _ => "/akn/za/act/2019/5", "/akn/za/act/2021/509", "a"⟩

def demoRoot : Elem := .mk 0 "div" [] "Act 5 of 2019" [] ""

/-- Witness for C2: a self-referential match is skipped entirely, and the
citations of concrete text and DOM runs avoid the document's own uri. -/
theorem no_self_citation_witness :
    (CitCfg.valid cfgSelf ⟨"x", 0, 1, []⟩ = false ∧
      handleNodeMatch cfgSelf ⟨demoRoot, [], 1⟩ 0 ⟨"x", 0, 1, []⟩ false = none) ∧
    ((⟨"Act 5 of 2019", 0, 13, "/akn/za/act/2019/5", some 0, some "", some ""⟩ :
        ExtractedCitation) ∈ extractTextMatches cfgAct "Act 5 of 2019" ∧
      ("/akn/za/act/2019/5" : String) ≠ cfgAct.workUri) ∧
    ((⟨"Act 5 of 2019", 0, 13, "/akn/za/act/2019/5", none, none, none⟩ :
        ExtractedCitation) ∈ (runDomMatching cfgAct demoRoot).cits ∧
      ("/akn/za/act/2019/5" : String) ≠ cfgAct.workUri) := by
  have hmem1 : (⟨"Act 5 of 2019", 0, 13, "/akn/za/act/2019/5", some 0, some "", some ""⟩ :
      ExtractedCitation) ∈ extractTextMatches cfgAct "Act 5 of 2019" := by decide
  have hmem2 : (⟨"Act 5 of 2019", 0, 13, "/akn/za/act/2019/5", none, none, none⟩ :
      ExtractedCitation) ∈ (runDomMatching cfgAct demoRoot).cits := by decide
  refine ⟨(no_self_citation cfgSelf).1 ⟨demoRoot, [], 1⟩ 0 ⟨"x", 0, 1, []⟩ false rfl,
    ⟨hmem1, (no_self_citation cfgAct).2.1 "Act 5 of 2019" _ hmem1⟩,
    ⟨hmem2, (no_self_citation cfgAct).2.2 demoRoot _ hmem2⟩⟩

/-- Witness for C10 on a concrete valid match. -/
theorem markup_href_citation_agreement_witness :
    (∃ r, handleNodeMatch cfgAct ⟨demoRoot, [], 1⟩ 0 ⟨"Act 5 of 2019", 0, 13, []⟩
        false = some r) ∧
    ∀ newE st', handleNodeMatch cfgAct ⟨demoRoot, [], 1⟩ 0
        ⟨"Act 5 of 2019", 0, 13, []⟩ false = some (newE, st') →
      newE.attrs = [("href", "/akn/za/act/2019/5")] ∧
      st'.cits = [⟨"Act 5 of 2019", 0, 13, "/akn/za/act/2019/5", none, none, none⟩] := by
  constructor
  · exact ⟨_, rfl⟩
  · intro newE st' h
    have := markup_href_citation_agreement cfgAct ⟨demoRoot, [], 1⟩ 0
      ⟨"Act 5 of 2019", 0, 13, []⟩ false newE st' h
    refine ⟨this.1, ?_⟩
    rw [this.2.2]
    rfl

/-! ## Lookup and surgery lemmas -/

mutual
theorem findById_eid : ∀ (t : Elem) (i : Nat) (n : Elem),
    findById t i = some n → n.eid = i
  | .mk j tg a tx kids tl, i, n => by
    unfold findById
    by_cases hj : j = i
    · rw [if_pos hj]
      intro h
      cases h
      simpa using hj
    · rw [if_neg hj]
      exact findByIdL_eid kids i n
theorem findByIdL_eid : ∀ (l : List Elem) (i : Nat) (n : Elem),
    findByIdL l i = some n → n.eid = i
  | [], _, _ => by simp [findByIdL]
  | c :: cs, i, n => by
    unfold findByIdL
    rcases hc : findById c i with _ | r
    · exact findByIdL_eid cs i n
    · intro h
      cases h
      exact findById_eid c i n hc
end

mutual
theorem findById_isSome_iff : ∀ (t : Elem) (i : Nat),
    (findById t i).isSome = true ↔ i ∈ elemIds t
  | .mk j tg a tx kids tl, i => by
    unfold findById elemIds
    by_cases hj : j = i
    · simp [hj]
    · rw [if_neg hj]
      simp only [List.mem_cons]
      rw [findByIdL_isSome_iff kids i]
      constructor
      · exact fun h => Or.inr h
      · rintro (h | h)
        · exact absurd h.symm hj
        · exact h
theorem findByIdL_isSome_iff : ∀ (l : List Elem) (i : Nat),
    (findByIdL l i).isSome = true ↔ i ∈ elemIdsL l
  | [], i => by simp [findByIdL, elemIdsL]
  | c :: cs, i => by
    unfold findByIdL elemIdsL
    rcases hc : findById c i with _ | r
    · rw [findByIdL_isSome_iff cs i]
      simp only [List.mem_append]
      constructor
      · exact fun h => Or.inr h
      · rintro (h | h)
        · have := (findById_isSome_iff c i).mpr h
          rw [hc] at this
          simp at this
        · exact h
    · simp only [Option.isSome_some, List.mem_append, true_iff]
      have := (findById_isSome_iff c i).mp (by rw [hc]; rfl)
      exact Or.inl this
end

mutual
theorem findById_sub_mem : ∀ (t : Elem) (i : Nat) (n : Elem),
    findById t i = some n → ∀ z ∈ elemIds n, z ∈ elemIds t
  | .mk j tg a tx kids tl, i, n => by
    unfold findById
    by_cases hj : j = i
    · rw [if_pos hj]
      intro h
      cases h
      exact fun z hz => hz
    · rw [if_neg hj]
      intro h z hz
      unfold elemIds
      exact List.mem_cons_of_mem _ (findByIdL_sub_mem kids i n h z hz)
theorem findByIdL_sub_mem : ∀ (l : List Elem) (i : Nat) (n : Elem),
    findByIdL l i = some n → ∀ z ∈ elemIds n, z ∈ elemIdsL l
  | [], _, _ => by simp [findByIdL]
  | c :: cs, i, n => by
    unfold findByIdL
    rcases hc : findById c i with _ | r
    · intro h z hz
      unfold elemIdsL
      exact List.mem_append.mpr (Or.inr (findByIdL_sub_mem cs i n h z hz))
    · intro h z hz
      cases h
      unfold elemIdsL
      exact List.mem_append.mpr (Or.inl (findById_sub_mem c i n hc z hz))
end

mutual
/-- Looking up the rewritten id after `mapById` yields the rewritten node,
for any rewrite that keeps the node's id. -/
theorem findById_mapById_self : ∀ (t : Elem) (x : Nat) (f : Elem → Elem),
    (∀ e, (f e).eid = e.eid) →
    findById (mapById f t x) x = (findById t x).map f
  | .mk j tg a tx kids tl, x, f => fun hf => by
    by_cases hj : j = x
    · subst hj
      rw [show mapById f (.mk j tg a tx kids tl) j = f (.mk j tg a tx kids tl) by
        simp [mapById]]
      rw [show findById (.mk j tg a tx kids tl) j = some (.mk j tg a tx kids tl) by
        simp [findById]]
      have hj' := hf (.mk j tg a tx kids tl)
      rcases hfe : f (.mk j tg a tx kids tl) with ⟨j', tg', a', tx', kids', tl'⟩
      rw [hfe] at hj'
      simp only [Elem.eid_mk] at hj'
      simp [findById, hj', hfe]
    · rw [show mapById f (.mk j tg a tx kids tl) x =
          .mk j tg a tx (mapByIdL f kids x) tl by simp [mapById, hj]]
      rw [show findById (.mk j tg a tx (mapByIdL f kids x) tl) x =
          findByIdL (mapByIdL f kids x) x by simp [findById, hj]]
      rw [show findById (.mk j tg a tx kids tl) x = findByIdL kids x by
        simp [findById, hj]]
      exact findByIdL_mapById_self kids x f hf
theorem findByIdL_mapById_self : ∀ (l : List Elem) (x : Nat) (f : Elem → Elem),
    (∀ e, (f e).eid = e.eid) →
    findByIdL (mapByIdL f l x) x = (findByIdL l x).map f
  | [], _, _ => fun _ => by simp [mapByIdL, findByIdL]
  | c :: cs, x, f => fun hf => by
    have hc' := findById_mapById_self c x f hf
    have hcs' := findByIdL_mapById_self cs x f hf
    simp only [mapByIdL, findByIdL]
    rw [hc']
    rcases findById c x with _ | r
    · simpa using hcs'
    · simp
end

/-- The non-structural fields of a node (everything but the children). -/
def Elem.shallow (n : Elem) : Nat × String × List (String × String) × String × String :=
  (n.eid, n.tag, n.attrs, n.text, n.tail)

mutual
/-- A rewrite at `x` leaves every other node's shallow fields intact,
provided lookups inside the rewritten node are unchanged. -/
theorem shallow_mapById : ∀ (t : Elem) (x y : Nat) (f : Elem → Elem),
    y ≠ x →
    (∀ e, e.eid = x → findById (f e) y = findById e y) →
    (findById (mapById f t x) y).map Elem.shallow =
      (findById t y).map Elem.shallow
  | .mk j tg a tx kids tl, x, y, f => fun hyx hf => by
    by_cases hj : j = x
    · rw [show mapById f (.mk j tg a tx kids tl) x = f (.mk j tg a tx kids tl) by
        simp [mapById, hj]]
      rw [hf _ (by simpa using hj)]
    · rw [show mapById f (.mk j tg a tx kids tl) x =
          .mk j tg a tx (mapByIdL f kids x) tl by simp [mapById, hj]]
      by_cases hjy : j = y
      · rw [show findById (.mk j tg a tx (mapByIdL f kids x) tl) y =
            some (.mk j tg a tx (mapByIdL f kids x) tl) by simp [findById, hjy]]
        rw [show findById (.mk j tg a tx kids tl) y =
            some (.mk j tg a tx kids tl) by simp [findById, hjy]]
        simp [Elem.shallow]
      · rw [show findById (.mk j tg a tx (mapByIdL f kids x) tl) y =
            findByIdL (mapByIdL f kids x) y by simp [findById, hjy]]
        rw [show findById (.mk j tg a tx kids tl) y = findByIdL kids y by
          simp [findById, hjy]]
        exact shallowL_mapById kids x y f hyx hf
theorem shallowL_mapById : ∀ (l : List Elem) (x y : Nat) (f : Elem → Elem),
    y ≠ x →
    (∀ e, e.eid = x → findById (f e) y = findById e y) →
    (findByIdL (mapByIdL f l x) y).map Elem.shallow =
      (findByIdL l y).map Elem.shallow
  | [], _, _, _ => fun _ _ => by simp [mapByIdL, findByIdL]
  | c :: cs, x, y, f => fun hyx hf => by
    have hc := shallow_mapById c x y f hyx hf
    have hcs := shallowL_mapById cs x y f hyx hf
    simp only [mapByIdL, findByIdL]
    rcases h1 : findById (mapById f c x) y with _ | r1 <;>
      rcases h2 : findById c y with _ | r2 <;>
      rw [h1, h2] at hc <;> simp at hc ⊢
    · exact hcs
    · exact hc
end

mutual
/-- `mapById` at an id absent from the tree changes nothing. -/
theorem mapById_absent : ∀ (t : Elem) (x : Nat) (f : Elem → Elem),
    x ∉ elemIds t → mapById f t x = t
  | .mk j tg a tx kids tl, x, f => fun hx => by
    unfold elemIds at hx
    simp only [List.mem_cons, not_or] at hx
    simp only [mapById]
    rw [if_neg (fun h => hx.1 h.symm), mapByIdL_absent kids x f hx.2]
theorem mapByIdL_absent : ∀ (l : List Elem) (x : Nat) (f : Elem → Elem),
    x ∉ elemIdsL l → mapByIdL f l x = l
  | [], _, _ => fun _ => by simp [mapByIdL]
  | c :: cs, x, f => fun hx => by
    unfold elemIdsL at hx
    simp only [List.mem_append, not_or] at hx
    unfold mapByIdL
    rw [mapById_absent c x f hx.1, mapByIdL_absent cs x f hx.2]
end

mutual
/-- `spliceAfter` at an id absent from the tree changes nothing. -/
theorem spliceAfter_absent : ∀ (t : Elem) (x : Nat) (tl' : String)
    (ins : List Elem), x ∉ elemIds t → spliceAfter x tl' ins t = t
  | .mk j tg a tx kids tl, x, tl', ins => fun hx => by
    unfold elemIds at hx
    simp only [List.mem_cons, not_or] at hx
    unfold spliceAfter
    rw [spliceAfterL_absent kids x tl' ins hx.2]
theorem spliceAfterL_absent : ∀ (l : List Elem) (x : Nat) (tl' : String)
    (ins : List Elem), x ∉ elemIdsL l → spliceAfterL x tl' ins l = l
  | [], _, _, _ => fun _ => by simp [spliceAfterL]
  | c :: cs, x, tl', ins => fun hx => by
    unfold elemIdsL at hx
    simp only [List.mem_append, not_or] at hx
    unfold spliceAfterL
    have hcx : ¬(c.eid = x) := by
      intro h
      apply hx.1
      rcases c with ⟨j, tg, a, tx, kids, tl⟩
      simp only [Elem.eid_mk] at h
      unfold elemIds
      exact List.mem_cons.mpr (Or.inl h.symm)
    rw [if_neg hcx, spliceAfter_absent c x tl' ins hx.1,
      spliceAfterL_absent cs x tl' ins hx.2]
end

theorem findById_setTail_ne (c : Elem) (s : String) (y : Nat) (h : c.eid ≠ y) :
    findById (c.setTail s) y = findById c y := by
  rcases c with ⟨j, tg, a, tx, kids, tl⟩
  simp only [Elem.eid_mk] at h
  simp [findById, h]

theorem findByIdL_eq_none (l : List Elem) (y : Nat) (h : y ∉ elemIdsL l) :
    findByIdL l y = none := by
  rcases ho : findByIdL l y with _ | r
  · rfl
  · exact absurd ((findByIdL_isSome_iff l y).mp (by rw [ho]; rfl)) h

mutual
theorem findById_spliceAfter_self : ∀ (t : Elem) (x : Nat) (tl' : String)
    (ins : List Elem), x ∉ elemIdsL ins → t.eid ≠ x →
    findById (spliceAfter x tl' ins t) x = (findById t x).map (·.setTail tl')
  | .mk j tg a tx kids tl, x, tl', ins => fun hins hj => by
    simp only [Elem.eid_mk] at hj
    unfold spliceAfter
    rw [show findById (.mk j tg a tx (spliceAfterL x tl' ins kids) tl) x =
        findByIdL (spliceAfterL x tl' ins kids) x by simp [findById, hj]]
    rw [show findById (.mk j tg a tx kids tl) x = findByIdL kids x by
      simp [findById, hj]]
    exact findByIdL_spliceAfter_self kids x tl' ins hins
theorem findByIdL_spliceAfter_self : ∀ (l : List Elem) (x : Nat) (tl' : String)
    (ins : List Elem), x ∉ elemIdsL ins →
    findByIdL (spliceAfterL x tl' ins l) x = (findByIdL l x).map (·.setTail tl')
  | [], _, _, _ => fun _ => by simp [spliceAfterL, findByIdL]
  | c :: cs, x, tl', ins => fun hins => by
    unfold spliceAfterL
    by_cases hcx : c.eid = x
    · rw [if_pos hcx]
      have h1 : findById (c.setTail tl') x = some (c.setTail tl') := by
        rcases c with ⟨j, tg, a, tx, kids, tl⟩
        simp only [Elem.eid_mk] at hcx
        simp [findById, hcx]
      have h2 : findById c x = some c := by
        rcases c with ⟨j, tg, a, tx, kids, tl⟩
        simp only [Elem.eid_mk] at hcx
        simp [findById, hcx]
      unfold findByIdL
      rw [h1, h2]
      simp
    · rw [if_neg hcx]
      have hc := findById_spliceAfter_self c x tl' ins hins hcx
      unfold findByIdL
      rw [hc]
      rcases findById c x with _ | r
      · simp only [Option.map_none']
        exact findByIdL_spliceAfter_self cs x tl' ins hins
      · simp
end

theorem findByIdL_cons (c : Elem) (cs : List Elem) (y : Nat) :
    findByIdL (c :: cs) y =
      match findById c y with
      | some r => some r
      | none => findByIdL cs y := by
  conv_lhs => unfold findByIdL

theorem findByIdL_append (l1 l2 : List Elem) (y : Nat) :
    findByIdL (l1 ++ l2) y =
      match findByIdL l1 y with
      | some r => some r
      | none => findByIdL l2 y := by
  induction l1 with
  | nil => simp [findByIdL]
  | cons c cs ih =>
    simp only [List.cons_append, findByIdL_cons]
    rcases findById c y with _ | r
    · exact ih
    · rfl

mutual
theorem shallow_spliceAfter : ∀ (t : Elem) (x y : Nat) (tl' : String)
    (ins : List Elem), y ≠ x → y ∉ elemIdsL ins →
    (findById (spliceAfter x tl' ins t) y).map Elem.shallow =
      (findById t y).map Elem.shallow
  | .mk j tg a tx kids tl, x, y, tl', ins => fun hyx hins => by
    unfold spliceAfter
    by_cases hjy : j = y
    · rw [show findById (.mk j tg a tx (spliceAfterL x tl' ins kids) tl) y =
          some (.mk j tg a tx (spliceAfterL x tl' ins kids) tl) by
        simp [findById, hjy]]
      rw [show findById (.mk j tg a tx kids tl) y =
          some (.mk j tg a tx kids tl) by simp [findById, hjy]]
      simp [Elem.shallow]
    · rw [show findById (.mk j tg a tx (spliceAfterL x tl' ins kids) tl) y =
          findByIdL (spliceAfterL x tl' ins kids) y by simp [findById, hjy]]
      rw [show findById (.mk j tg a tx kids tl) y = findByIdL kids y by
        simp [findById, hjy]]
      exact shallowL_spliceAfter kids x y tl' ins hyx hins
theorem shallowL_spliceAfter : ∀ (l : List Elem) (x y : Nat) (tl' : String)
    (ins : List Elem), y ≠ x → y ∉ elemIdsL ins →
    (findByIdL (spliceAfterL x tl' ins l) y).map Elem.shallow =
      (findByIdL l y).map Elem.shallow
  | [], _, _, _, _ => fun _ _ => by simp [spliceAfterL, findByIdL]
  | c :: cs, x, y, tl', ins => fun hyx hins => by
    unfold spliceAfterL
    by_cases hcx : c.eid = x
    · rw [if_pos hcx]
      have h1 : findById (c.setTail tl') y = findById c y :=
        findById_setTail_ne c tl' y (by rw [hcx]; exact fun h => hyx h.symm)
      unfold findByIdL
      rw [h1]
      rcases findById c y with _ | r
      · rw [findByIdL_append, findByIdL_eq_none ins y hins]
      · rfl
    · rw [if_neg hcx]
      have hc := shallow_spliceAfter c x y tl' ins hyx hins
      unfold findByIdL
      rcases h1 : findById (spliceAfter x tl' ins c) y with _ | r1 <;>
        rcases h2 : findById c y with _ | r2 <;> rw [h1, h2] at hc <;>
        simp at hc ⊢
      · exact shallowL_spliceAfter cs x y tl' ins hyx hins
      · exact hc
end

mutual
/-- A node whose subtree avoids the rewritten id is looked up entirely
unchanged by `mapById`. -/
theorem findById_mapById_disjoint : ∀ (t : Elem) (x y : Nat) (f : Elem → Elem),
    y ≠ x → (∀ e, e.eid = x → findById (f e) y = findById e y) →
    ∀ n, findById t y = some n → x ∉ elemIds n →
    findById (mapById f t x) y = some n
  | .mk j tg a tx kids tl, x, y, f => fun hyx hf n hn hxn => by
    by_cases hj : j = x
    · rw [show mapById f (.mk j tg a tx kids tl) x = f (.mk j tg a tx kids tl) by
        simp [mapById, hj]]
      rw [hf _ (by simpa using hj), hn]
    · rw [show mapById f (.mk j tg a tx kids tl) x =
          .mk j tg a tx (mapByIdL f kids x) tl by simp [mapById, hj]]
      by_cases hjy : j = y
      · rw [show findById (.mk j tg a tx kids tl) y =
            some (.mk j tg a tx kids tl) by simp [findById, hjy]] at hn
        cases hn
        have hk : x ∉ elemIdsL kids := by
          intro hx
          exact hxn (by unfold elemIds; exact List.mem_cons_of_mem _ hx)
        rw [mapByIdL_absent kids x f hk]
        simp [findById, hjy]
      · rw [show findById (.mk j tg a tx (mapByIdL f kids x) tl) y =
            findByIdL (mapByIdL f kids x) y by simp [findById, hjy]]
        rw [show findById (.mk j tg a tx kids tl) y = findByIdL kids y by
          simp [findById, hjy]] at hn
        exact findByIdL_mapById_disjoint kids x y f hyx hf n hn hxn
theorem findByIdL_mapById_disjoint : ∀ (l : List Elem) (x y : Nat)
    (f : Elem → Elem),
    y ≠ x → (∀ e, e.eid = x → findById (f e) y = findById e y) →
    ∀ n, findByIdL l y = some n → x ∉ elemIds n →
    findByIdL (mapByIdL f l x) y = some n
  | [], _, _, _ => fun _ _ n hn _ => by simp [findByIdL] at hn
  | c :: cs, x, y, f => fun hyx hf n hn hxn => by
    rw [findByIdL_cons] at hn
    unfold mapByIdL
    rw [findByIdL_cons]
    rcases h2 : findById c y with _ | r
    · rw [h2] at hn
      have hsh := shallow_mapById c x y f hyx hf
      rw [h2] at hsh
      simp only [Option.map_none'] at hsh
      rcases h1 : findById (mapById f c x) y with _ | r1
      · exact findByIdL_mapById_disjoint cs x y f hyx hf n hn hxn
      · rw [h1] at hsh
        simp at hsh
    · rw [h2] at hn
      simp only [Option.some.injEq] at hn
      subst hn
      rw [findById_mapById_disjoint c x y f hyx hf r h2 hxn]
end

mutual
/-- A node whose subtree avoids the splice id is looked up entirely
unchanged by `spliceAfter`. -/
theorem findById_spliceAfter_disjoint : ∀ (t : Elem) (x y : Nat) (tl' : String)
    (ins : List Elem), y ≠ x → y ∉ elemIdsL ins →
    ∀ n, findById t y = some n → x ∉ elemIds n →
    findById (spliceAfter x tl' ins t) y = some n
  | .mk j tg a tx kids tl, x, y, tl', ins => fun hyx hins n hn hxn => by
    unfold spliceAfter
    by_cases hjy : j = y
    · rw [show findById (.mk j tg a tx kids tl) y =
          some (.mk j tg a tx kids tl) by simp [findById, hjy]] at hn
      cases hn
      have hk : x ∉ elemIdsL kids := by
        intro hx
        exact hxn (by unfold elemIds; exact List.mem_cons_of_mem _ hx)
      rw [spliceAfterL_absent kids x tl' ins hk]
      simp [findById, hjy]
    · rw [show findById (.mk j tg a tx (spliceAfterL x tl' ins kids) tl) y =
          findByIdL (spliceAfterL x tl' ins kids) y by simp [findById, hjy]]
      rw [show findById (.mk j tg a tx kids tl) y = findByIdL kids y by
        simp [findById, hjy]] at hn
      exact findByIdL_spliceAfter_disjoint kids x y tl' ins hyx hins n hn hxn
theorem findByIdL_spliceAfter_disjoint : ∀ (l : List Elem) (x y : Nat)
    (tl' : String) (ins : List Elem), y ≠ x → y ∉ elemIdsL ins →
    ∀ n, findByIdL l y = some n → x ∉ elemIds n →
    findByIdL (spliceAfterL x tl' ins l) y = some n
  | [], _, _, _, _ => fun _ _ n hn _ => by simp [findByIdL] at hn
  | c :: cs, x, y, tl', ins => fun hyx hins n hn hxn => by
    rw [findByIdL_cons] at hn
    unfold spliceAfterL
    by_cases hcx : c.eid = x
    · rw [if_pos hcx]
      rw [findByIdL_cons]
      rw [findById_setTail_ne c tl' y (by rw [hcx]; exact fun h => hyx h.symm)]
      rcases h2 : findById c y with _ | r
      · rw [h2] at hn
        rw [findByIdL_append, findByIdL_eq_none ins y hins]
        exact hn
      · rw [h2] at hn
        exact hn
    · rw [if_neg hcx]
      rw [findByIdL_cons]
      rcases h2 : findById c y with _ | r
      · rw [h2] at hn
        have hsh := shallow_spliceAfter c x y tl' ins hyx hins
        rw [h2] at hsh
        simp only [Option.map_none'] at hsh
        rcases h1 : findById (spliceAfter x tl' ins c) y with _ | r1
        · exact findByIdL_spliceAfter_disjoint cs x y tl' ins hyx hins n hn hxn
        · rw [h1] at hsh
          simp at hsh
      · rw [h2] at hn
        simp only [Option.some.injEq] at hn
        subst hn
        rw [findById_spliceAfter_disjoint c x y tl' ins hyx hins r h2 hxn]
end

theorem innerText_setTail (c : Elem) (s : String) :
    innerText (c.setTail s) = innerText c := by
  rcases c with ⟨j, tg, a, tx, kids, tl⟩
  simp [innerText]

theorem tail_mapById (c : Elem) (x : Nat) (f : Elem → Elem)
    (h2 : ∀ e, e.eid = x → (f e).tail = e.tail) :
    (mapById f c x).tail = c.tail := by
  rcases c with ⟨j, tg, a, tx, kids, tl⟩
  by_cases hj : j = x
  · rw [show mapById f (.mk j tg a tx kids tl) x = f (.mk j tg a tx kids tl) by
      simp [mapById, hj]]
    rw [h2 _ (by simpa using hj)]
  · rw [show mapById f (.mk j tg a tx kids tl) x =
        .mk j tg a tx (mapByIdL f kids x) tl by simp [mapById, hj]]
    simp

theorem innerTextL_cons (c : Elem) (cs : List Elem) :
    innerTextL (c :: cs) = innerText c ++ c.tail ++ innerTextL cs := by
  conv_lhs => unfold innerTextL

theorem innerTextL_append (l1 l2 : List Elem) :
    innerTextL (l1 ++ l2) = innerTextL l1 ++ innerTextL l2 := by
  induction l1 with
  | nil =>
    have h0 : innerTextL ([] : List Elem) = "" := by
      unfold innerTextL
      rfl
    rw [List.nil_append, h0, String.empty_append]
  | cons c cs ih =>
    rw [List.cons_append, innerTextL_cons, innerTextL_cons, ih]
    simp [String.append_assoc]

mutual
/-- `mapById` preserves the tree's text content when the rewrite preserves
the node's inner text and its tail. -/
theorem innerText_mapById : ∀ (t : Elem) (x : Nat) (f : Elem → Elem),
    (∀ e, e.eid = x → innerText (f e) = innerText e) →
    (∀ e, e.eid = x → (f e).tail = e.tail) →
    innerText (mapById f t x) = innerText t
  | .mk j tg a tx kids tl, x, f => fun h1 h2 => by
    by_cases hj : j = x
    · rw [show mapById f (.mk j tg a tx kids tl) x = f (.mk j tg a tx kids tl) by
        simp [mapById, hj]]
      exact h1 _ (by simpa using hj)
    · rw [show mapById f (.mk j tg a tx kids tl) x =
          .mk j tg a tx (mapByIdL f kids x) tl by simp [mapById, hj]]
      unfold innerText
      rw [innerTextL_mapById kids x f h1 h2]
theorem innerTextL_mapById : ∀ (l : List Elem) (x : Nat) (f : Elem → Elem),
    (∀ e, e.eid = x → innerText (f e) = innerText e) →
    (∀ e, e.eid = x → (f e).tail = e.tail) →
    innerTextL (mapByIdL f l x) = innerTextL l
  | [], _, _ => fun _ _ => rfl
  | c :: cs, x, f => fun h1 h2 => by
    unfold mapByIdL
    rw [innerTextL_cons, innerTextL_cons]
    rw [innerText_mapById c x f h1 h2, tail_mapById c x f h2,
      innerTextL_mapById cs x f h1 h2]
end

mutual
/-- `spliceAfter` preserves the tree's text content when the new tail
followed by the inserted elements' content reassembles the old tail. -/
theorem innerText_spliceAfter : ∀ (t : Elem) (x : Nat) (tl' : String)
    (ins : List Elem),
    (∀ e : Elem, e.eid = x → tl' ++ innerTextL ins = e.tail) →
    innerText (spliceAfter x tl' ins t) = innerText t
  | .mk j tg a tx kids tl, x, tl', ins => fun hsp => by
    unfold spliceAfter innerText
    rw [innerTextL_spliceAfter kids x tl' ins hsp]
theorem innerTextL_spliceAfter : ∀ (l : List Elem) (x : Nat) (tl' : String)
    (ins : List Elem),
    (∀ e : Elem, e.eid = x → tl' ++ innerTextL ins = e.tail) →
    innerTextL (spliceAfterL x tl' ins l) = innerTextL l
  | [], _, _, _ => fun _ => rfl
  | c :: cs, x, tl', ins => fun hsp => by
    unfold spliceAfterL
    by_cases hcx : c.eid = x
    · rw [if_pos hcx]
      rw [innerTextL_cons, innerTextL_cons, innerText_setTail, innerTextL_append]
      rw [show (c.setTail tl').tail = tl' by simp]
      rw [show c.tail = tl' ++ innerTextL ins from (hsp c hcx).symm]
      simp [String.append_assoc]
    · rw [if_neg hcx]
      rw [innerTextL_cons, innerTextL_cons]
      rw [innerText_spliceAfter c x tl' ins hsp,
        innerTextL_spliceAfter cs x tl' ins hsp]
      rw [show (spliceAfter x tl' ins c).tail = c.tail by
        rcases c with ⟨j, tg, a, tx, kids, tl⟩; simp [spliceAfter]]
end

theorem elemIds_setText (c : Elem) (s : String) :
    elemIds (c.setText s) = elemIds c := by
  rcases c with ⟨j, tg, a, tx, kids, tl⟩
  simp [elemIds]

theorem elemIds_setTail (c : Elem) (s : String) :
    elemIds (c.setTail s) = elemIds c := by
  rcases c with ⟨j, tg, a, tx, kids, tl⟩
  simp [elemIds]

theorem countTag_setTail (tg' : String) (c : Elem) (s : String) :
    countTag tg' (c.setTail s) = countTag tg' c := by
  rcases c with ⟨j, tg, a, tx, kids, tl⟩
  simp [countTag]

theorem eid_spliceAfter (x : Nat) (tl' : String) (ins : List Elem) (t : Elem) :
    (spliceAfter x tl' ins t).eid = t.eid := by
  rcases t with ⟨j, tg, a, tx, kids, tl⟩
  simp [spliceAfter]

theorem tag_spliceAfter (x : Nat) (tl' : String) (ins : List Elem) (t : Elem) :
    (spliceAfter x tl' ins t).tag = t.tag := by
  rcases t with ⟨j, tg, a, tx, kids, tl⟩
  simp [spliceAfter]

theorem tail_spliceAfter (x : Nat) (tl' : String) (ins : List Elem) (t : Elem) :
    (spliceAfter x tl' ins t).tail = t.tail := by
  rcases t with ⟨j, tg, a, tx, kids, tl⟩
  simp [spliceAfter]

theorem elemIdsL_nil : elemIdsL ([] : List Elem) = [] := by
  unfold elemIdsL
  rfl

theorem elemIdsL_cons (c : Elem) (cs : List Elem) :
    elemIdsL (c :: cs) = elemIds c ++ elemIdsL cs := by
  conv_lhs => unfold elemIdsL

theorem elemIdsL_append (l1 l2 : List Elem) :
    elemIdsL (l1 ++ l2) = elemIdsL l1 ++ elemIdsL l2 := by
  induction l1 with
  | nil => rw [List.nil_append, elemIdsL_nil, List.nil_append]
  | cons c cs ih =>
    simp only [List.cons_append]
    rw [elemIdsL_cons, elemIdsL_cons, ih, List.append_assoc]

theorem eid_mem_elemIds (c : Elem) : c.eid ∈ elemIds c := by
  rcases c with ⟨j, tg, a, tx, kids, tl⟩
  unfold elemIds
  exact List.mem_cons_self _ _

mutual
theorem mem_elemIds_spliceAfter : ∀ (t : Elem) (x : Nat) (tl' : String)
    (ins : List Elem) (z : Nat),
    z ∈ elemIds (spliceAfter x tl' ins t) → z ∈ elemIds t ∨ z ∈ elemIdsL ins
  | .mk j tg a tx kids tl, x, tl', ins, z => fun hz => by
    unfold spliceAfter elemIds at hz
    unfold elemIds
    rcases List.mem_cons.mp hz with h | h
    · exact Or.inl (List.mem_cons.mpr (Or.inl h))
    · rcases mem_elemIdsL_spliceAfterL kids x tl' ins z h with h' | h'
      · exact Or.inl (List.mem_cons.mpr (Or.inr h'))
      · exact Or.inr h'
theorem mem_elemIdsL_spliceAfterL : ∀ (l : List Elem) (x : Nat) (tl' : String)
    (ins : List Elem) (z : Nat),
    z ∈ elemIdsL (spliceAfterL x tl' ins l) → z ∈ elemIdsL l ∨ z ∈ elemIdsL ins
  | [], _, _, _, _ => fun hz => by
    unfold spliceAfterL at hz
    rw [elemIdsL_nil] at hz
    simp at hz
  | c :: cs, x, tl', ins, z => fun hz => by
    unfold spliceAfterL at hz
    by_cases hcx : c.eid = x
    · rw [if_pos hcx] at hz
      rw [elemIdsL_cons, elemIds_setTail, elemIdsL_append] at hz
      rw [elemIdsL_cons]
      rcases List.mem_append.mp hz with h | h
      · exact Or.inl (List.mem_append.mpr (Or.inl h))
      · rcases List.mem_append.mp h with h' | h'
        · exact Or.inr h'
        · exact Or.inl (List.mem_append.mpr (Or.inr h'))
    · rw [if_neg hcx] at hz
      rw [elemIdsL_cons] at hz
      rw [elemIdsL_cons]
      rcases List.mem_append.mp hz with h | h
      · rcases mem_elemIds_spliceAfter c x tl' ins z h with h' | h'
        · exact Or.inl (List.mem_append.mpr (Or.inl h'))
        · exact Or.inr h'
      · rcases mem_elemIdsL_spliceAfterL cs x tl' ins z h with h' | h'
        · exact Or.inl (List.mem_append.mpr (Or.inr h'))
        · exact Or.inr h'
end

mutual
/-- Number of nodes of the tree satisfying a (shallow) predicate. -/
def countNodes (p : Elem → Bool) : Elem → Nat
  | .mk i tg a tx kids tl =>
    (if p (.mk i tg a tx kids tl) then 1 else 0) + countNodesL p kids
def countNodesL (p : Elem → Bool) : List Elem → Nat
  | [] => 0
  | c :: cs => countNodes p c + countNodesL p cs
end

theorem countNodesL_nil (p : Elem → Bool) : countNodesL p [] = 0 := by
  unfold countNodesL
  rfl

theorem countNodesL_cons (p : Elem → Bool) (c : Elem) (cs : List Elem) :
    countNodesL p (c :: cs) = countNodes p c + countNodesL p cs := by
  conv_lhs => unfold countNodesL

theorem countNodesL_append (p : Elem → Bool) (l1 l2 : List Elem) :
    countNodesL p (l1 ++ l2) = countNodesL p l1 + countNodesL p l2 := by
  induction l1 with
  | nil => rw [List.nil_append, countNodesL_nil]; omega
  | cons c cs ih =>
    rw [List.cons_append, countNodesL_cons, countNodesL_cons, ih]
    omega

/-- Predicates that ignore a node's tail and children (such as "has this
tag" or "has this tag and text"). -/
def StructBlind (p : Elem → Bool) : Prop :=
  (∀ (e : Elem) (s : String), p (e.setTail s) = p e) ∧
  (∀ (e : Elem) (k : List Elem), p (e.setChildren k) = p e)

theorem countNodes_setTail (p : Elem → Bool) (hp : StructBlind p) (c : Elem)
    (s : String) : countNodes p (c.setTail s) = countNodes p c := by
  rcases c with ⟨j, tg, a, tx, kids, tl⟩
  have := hp.1 (.mk j tg a tx kids tl) s
  unfold countNodes
  simp only [Elem.setTail_mk] at this ⊢
  rw [this]

mutual
theorem countNodes_spliceAfter : ∀ (t : Elem) (x : Nat) (tl' : String)
    (ins : List Elem) (p : Elem → Bool), StructBlind p →
    List.Nodup (elemIds t) → x ∈ elemIds t → x ≠ t.eid →
    countNodes p (spliceAfter x tl' ins t) =
      countNodes p t + countNodesL p ins
  | .mk j tg a tx kids tl, x, tl', ins, p => fun hp hnd hx hxj => by
    unfold spliceAfter
    unfold countNodes
    have hxk : x ∈ elemIdsL kids := by
      unfold elemIds at hx
      rcases List.mem_cons.mp hx with h | h
      · exact absurd (by simpa using h) hxj
      · exact h
    have hndk : List.Nodup (elemIdsL kids) := by
      unfold elemIds at hnd
      exact (List.nodup_cons.mp hnd).2
    rw [countNodesL_spliceAfterL kids x tl' ins p hp hndk hxk]
    have hph : p (.mk j tg a tx (spliceAfterL x tl' ins kids) tl) =
        p (.mk j tg a tx kids tl) := by
      have := hp.2 (.mk j tg a tx kids tl) (spliceAfterL x tl' ins kids)
      simpa using this
    rw [hph]
    omega
theorem countNodesL_spliceAfterL : ∀ (l : List Elem) (x : Nat) (tl' : String)
    (ins : List Elem) (p : Elem → Bool), StructBlind p →
    List.Nodup (elemIdsL l) → x ∈ elemIdsL l →
    countNodesL p (spliceAfterL x tl' ins l) =
      countNodesL p l + countNodesL p ins
  | [], _, _, _, _ => fun _ _ hx => by rw [elemIdsL_nil] at hx; simp at hx
  | c :: cs, x, tl', ins, p => fun hp hnd hx => by
    rw [elemIdsL_cons] at hnd hx
    have hndc : List.Nodup (elemIds c) := (List.nodup_append.mp hnd).1
    have hndcs : List.Nodup (elemIdsL cs) := (List.nodup_append.mp hnd).2.1
    have hdisj := (List.nodup_append.mp hnd).2.2
    unfold spliceAfterL
    by_cases hcx : c.eid = x
    · rw [if_pos hcx]
      rw [countNodesL_cons, countNodesL_cons, countNodesL_append,
        countNodes_setTail p hp]
      omega
    · rw [if_neg hcx]
      rw [countNodesL_cons, countNodesL_cons]
      rcases List.mem_append.mp hx with hxc | hxcs
      · have hxcs' : x ∉ elemIdsL cs := fun hc => hdisj hxc hc
        rw [spliceAfterL_absent cs x tl' ins hxcs']
        rw [countNodes_spliceAfter c x tl' ins p hp hndc hxc
          (fun h => hcx h.symm)]
        omega
      · have hxc' : x ∉ elemIds c := fun hc => hdisj hc hxcs
        rw [spliceAfter_absent c x tl' ins hxc']
        rw [countNodesL_spliceAfterL cs x tl' ins p hp hndcs hxcs]
        omega
end

mutual
theorem countNodes_mapById : ∀ (t : Elem) (x : Nat) (f : Elem → Elem)
    (p : Elem → Bool) (k : Nat), StructBlind p →
    (∀ e, e.eid = x → countNodes p (f e) = countNodes p e + k) →
    List.Nodup (elemIds t) → x ∈ elemIds t →
    countNodes p (mapById f t x) = countNodes p t + k
  | .mk j tg a tx kids tl, x, f, p, k => fun hp hf hnd hx => by
    by_cases hj : j = x
    · rw [show mapById f (.mk j tg a tx kids tl) x = f (.mk j tg a tx kids tl) by
        simp [mapById, hj]]
      exact hf _ (by simpa using hj)
    · rw [show mapById f (.mk j tg a tx kids tl) x =
          .mk j tg a tx (mapByIdL f kids x) tl by simp [mapById, hj]]
      unfold elemIds at hx hnd
      have hxk : x ∈ elemIdsL kids := by
        rcases List.mem_cons.mp hx with h | h
        · exact absurd h.symm hj
        · exact h
      unfold countNodes
      rw [countNodesL_mapByIdL kids x f p k hp hf (List.nodup_cons.mp hnd).2 hxk]
      have hph : p (.mk j tg a tx (mapByIdL f kids x) tl) =
          p (.mk j tg a tx kids tl) := by
        have := hp.2 (.mk j tg a tx kids tl) (mapByIdL f kids x)
        simpa using this
      rw [hph]
      omega
theorem countNodesL_mapByIdL : ∀ (l : List Elem) (x : Nat) (f : Elem → Elem)
    (p : Elem → Bool) (k : Nat), StructBlind p →
    (∀ e, e.eid = x → countNodes p (f e) = countNodes p e + k) →
    List.Nodup (elemIdsL l) → x ∈ elemIdsL l →
    countNodesL p (mapByIdL f l x) = countNodesL p l + k
  | [], _, _, _, _ => fun _ _ _ hx => by rw [elemIdsL_nil] at hx; simp at hx
  | c :: cs, x, f, p, k => fun hp hf hnd hx => by
    rw [elemIdsL_cons] at hnd hx
    have hndc : List.Nodup (elemIds c) := (List.nodup_append.mp hnd).1
    have hndcs : List.Nodup (elemIdsL cs) := (List.nodup_append.mp hnd).2.1
    have hdisj := (List.nodup_append.mp hnd).2.2
    unfold mapByIdL
    rw [countNodesL_cons, countNodesL_cons]
    rcases List.mem_append.mp hx with hxc | hxcs
    · have hxcs' : x ∉ elemIdsL cs := fun hc => hdisj hxc hc
      rw [mapByIdL_absent cs x f hxcs']
      rw [countNodes_mapById c x f p k hp hf hndc hxc]
      omega
    · have hxc' : x ∉ elemIds c := fun hc => hdisj hc hxcs
      rw [mapById_absent c x f hxc']
      rw [countNodesL_mapByIdL cs x f p k hp hf hndcs hxcs]
      omega
end

mutual
theorem mem_elemIds_mapById : ∀ (t : Elem) (x : Nat) (f : Elem → Elem)
    (fresh : List Nat) (z : Nat),
    (∀ e, e.eid = x → ∀ w ∈ elemIds (f e), w ∈ elemIds e ∨ w ∈ fresh) →
    z ∈ elemIds (mapById f t x) → z ∈ elemIds t ∨ z ∈ fresh
  | .mk j tg a tx kids tl, x, f, fresh, z => fun hf hz => by
    by_cases hj : j = x
    · rw [show mapById f (.mk j tg a tx kids tl) x = f (.mk j tg a tx kids tl) by
        simp [mapById, hj]] at hz
      exact hf _ (by simpa using hj) z hz
    · rw [show mapById f (.mk j tg a tx kids tl) x =
          .mk j tg a tx (mapByIdL f kids x) tl by simp [mapById, hj]] at hz
      unfold elemIds at hz ⊢
      rcases List.mem_cons.mp hz with h | h
      · exact Or.inl (List.mem_cons.mpr (Or.inl h))
      · rcases mem_elemIdsL_mapByIdL kids x f fresh z hf h with h' | h'
        · exact Or.inl (List.mem_cons.mpr (Or.inr h'))
        · exact Or.inr h'
theorem mem_elemIdsL_mapByIdL : ∀ (l : List Elem) (x : Nat) (f : Elem → Elem)
    (fresh : List Nat) (z : Nat),
    (∀ e, e.eid = x → ∀ w ∈ elemIds (f e), w ∈ elemIds e ∨ w ∈ fresh) →
    z ∈ elemIdsL (mapByIdL f l x) → z ∈ elemIdsL l ∨ z ∈ fresh
  | [], x, f, fresh, z => fun _ hz => by
    rw [show mapByIdL f ([] : List Elem) x = [] by unfold mapByIdL; rfl] at hz
    rw [elemIdsL_nil] at hz
    simp at hz
  | c :: cs, x, f, fresh, z => fun hf hz => by
    unfold mapByIdL at hz
    rw [elemIdsL_cons] at hz
    rw [elemIdsL_cons]
    rcases List.mem_append.mp hz with h | h
    · rcases mem_elemIds_mapById c x f fresh z hf h with h' | h'
      · exact Or.inl (List.mem_append.mpr (Or.inl h'))
      · exact Or.inr h'
    · rcases mem_elemIdsL_mapByIdL cs x f fresh z hf h with h' | h'
      · exact Or.inl (List.mem_append.mpr (Or.inr h'))
      · exact Or.inr h'
end

mutual
theorem nodup_elemIds_spliceAfter : ∀ (t : Elem) (x : Nat) (tl' : String)
    (ins : List Elem),
    List.Nodup (elemIds t) → List.Nodup (elemIdsL ins) →
    (∀ z ∈ elemIdsL ins, z ∉ elemIds t) →
    List.Nodup (elemIds (spliceAfter x tl' ins t))
  | .mk j tg a tx kids tl, x, tl', ins => fun hnd hins hdisj => by
    unfold spliceAfter elemIds
    unfold elemIds at hnd
    rw [List.nodup_cons] at hnd ⊢
    refine ⟨?_, ?_⟩
    · intro hj
      rcases mem_elemIdsL_spliceAfterL kids x tl' ins j hj with h | h
      · exact hnd.1 h
      · exact hdisj j h (by unfold elemIds; exact List.mem_cons_self _ _)
    · exact nodupL_elemIds_spliceAfterL kids x tl' ins hnd.2 hins
        (fun z hz hzt => hdisj z hz
          (by unfold elemIds; exact List.mem_cons_of_mem _ hzt))
theorem nodupL_elemIds_spliceAfterL : ∀ (l : List Elem) (x : Nat) (tl' : String)
    (ins : List Elem),
    List.Nodup (elemIdsL l) → List.Nodup (elemIdsL ins) →
    (∀ z ∈ elemIdsL ins, z ∉ elemIdsL l) →
    List.Nodup (elemIdsL (spliceAfterL x tl' ins l))
  | [], x, tl', ins => fun _ _ _ => by
    rw [show spliceAfterL x tl' ins ([] : List Elem) = [] by
      unfold spliceAfterL; rfl]
    rw [elemIdsL_nil]
    exact List.nodup_nil
  | c :: cs, x, tl', ins => fun hnd hins hdisj => by
    rw [elemIdsL_cons] at hnd hdisj
    rw [List.nodup_append] at hnd
    obtain ⟨hndc, hndcs, hdj⟩ := hnd
    unfold spliceAfterL
    by_cases hcx : c.eid = x
    · rw [if_pos hcx]
      rw [elemIdsL_cons, elemIds_setTail, elemIdsL_append]
      rw [List.nodup_append, List.nodup_append]
      refine ⟨hndc, ⟨hins, hndcs, ?_⟩, ?_⟩
      · intro z hz hzcs
        exact hdisj z hz (List.mem_append.mpr (Or.inr hzcs))
      · intro z hzc hz
        rcases List.mem_append.mp hz with h | h
        · exact hdisj z h (List.mem_append.mpr (Or.inl hzc))
        · exact hdj hzc h
    · rw [if_neg hcx]
      rw [elemIdsL_cons, List.nodup_append]
      by_cases hxc : x ∈ elemIds c
      · have hxcs : x ∉ elemIdsL cs := fun h => hdj hxc h
        rw [spliceAfterL_absent cs x tl' ins hxcs]
        refine ⟨nodup_elemIds_spliceAfter c x tl' ins hndc hins
          (fun z hz hzc => hdisj z hz (List.mem_append.mpr (Or.inl hzc))),
          hndcs, ?_⟩
        intro z hz hzcs
        rcases mem_elemIds_spliceAfter c x tl' ins z hz with h | h
        · exact hdj h hzcs
        · exact hdisj z h (List.mem_append.mpr (Or.inr hzcs))
      · rw [spliceAfter_absent c x tl' ins hxc]
        refine ⟨hndc, nodupL_elemIds_spliceAfterL cs x tl' ins hndcs hins
          (fun z hz hzcs => hdisj z hz (List.mem_append.mpr (Or.inr hzcs))), ?_⟩
        intro z hzc hz
        rcases mem_elemIdsL_spliceAfterL cs x tl' ins z hz with h | h
        · exact hdj hzc h
        · exact hdisj z h (List.mem_append.mpr (Or.inl hzc))
end

mutual
theorem nodup_elemIds_mapById : ∀ (t : Elem) (x : Nat) (f : Elem → Elem)
    (fresh : List Nat),
    (∀ e, e.eid = x → ∀ w ∈ elemIds (f e), w ∈ elemIds e ∨ w ∈ fresh) →
    (∀ e, e.eid = x → List.Nodup (elemIds e) → List.Nodup (elemIds (f e))) →
    List.Nodup (elemIds t) → (∀ z ∈ fresh, z ∉ elemIds t) →
    List.Nodup (elemIds (mapById f t x))
  | .mk j tg a tx kids tl, x, f, fresh => fun hmem hfnd hnd hdisj => by
    by_cases hj : j = x
    · rw [show mapById f (.mk j tg a tx kids tl) x = f (.mk j tg a tx kids tl) by
        simp [mapById, hj]]
      exact hfnd _ (by simpa using hj) hnd
    · rw [show mapById f (.mk j tg a tx kids tl) x =
          .mk j tg a tx (mapByIdL f kids x) tl by simp [mapById, hj]]
      unfold elemIds
      unfold elemIds at hnd
      rw [List.nodup_cons] at hnd ⊢
      refine ⟨?_, ?_⟩
      · intro hjm
        rcases mem_elemIdsL_mapByIdL kids x f fresh j hmem hjm with h | h
        · exact hnd.1 h
        · exact hdisj j h (by unfold elemIds; exact List.mem_cons_self _ _)
      · exact nodupL_elemIds_mapByIdL kids x f fresh hmem hfnd hnd.2
          (fun z hz hzk => hdisj z hz
            (by unfold elemIds; exact List.mem_cons_of_mem _ hzk))
theorem nodupL_elemIds_mapByIdL : ∀ (l : List Elem) (x : Nat) (f : Elem → Elem)
    (fresh : List Nat),
    (∀ e, e.eid = x → ∀ w ∈ elemIds (f e), w ∈ elemIds e ∨ w ∈ fresh) →
    (∀ e, e.eid = x → List.Nodup (elemIds e) → List.Nodup (elemIds (f e))) →
    List.Nodup (elemIdsL l) → (∀ z ∈ fresh, z ∉ elemIdsL l) →
    List.Nodup (elemIdsL (mapByIdL f l x))
  | [], x, f, fresh => fun _ _ _ _ => by
    rw [show mapByIdL f ([] : List Elem) x = [] by unfold mapByIdL; rfl]
    rw [elemIdsL_nil]
    exact List.nodup_nil
  | c :: cs, x, f, fresh => fun hmem hfnd hnd hdisj => by
    rw [elemIdsL_cons] at hnd hdisj
    rw [List.nodup_append] at hnd
    obtain ⟨hndc, hndcs, hdj⟩ := hnd
    unfold mapByIdL
    rw [elemIdsL_cons, List.nodup_append]
    by_cases hxc : x ∈ elemIds c
    · have hxcs : x ∉ elemIdsL cs := fun h => hdj hxc h
      rw [mapByIdL_absent cs x f hxcs]
      refine ⟨nodup_elemIds_mapById c x f fresh hmem hfnd hndc
        (fun z hz hzc => hdisj z hz (List.mem_append.mpr (Or.inl hzc))),
        hndcs, ?_⟩
      intro z hz hzcs
      rcases mem_elemIds_mapById c x f fresh z hmem hz with h | h
      · exact hdj h hzcs
      · exact hdisj z h (List.mem_append.mpr (Or.inr hzcs))
    · rw [mapById_absent c x f hxc]
      refine ⟨hndc, nodupL_elemIds_mapByIdL cs x f fresh hmem hfnd hndcs
        (fun z hz hzcs => hdisj z hz (List.mem_append.mpr (Or.inr hzcs))), ?_⟩
      intro z hzc hz
      rcases mem_elemIdsL_mapByIdL cs x f fresh z hmem hz with h | h
      · exact hdj hzc h
      · exact hdisj z h (List.mem_append.mpr (Or.inl hzc))
end

theorem findById_self (E : Elem) : findById E E.eid = some E := by
  rcases E with ⟨j, tg, a, tx, kids, tl⟩
  simp [findById]

theorem findById_eq_none (t : Elem) (y : Nat) (h : y ∉ elemIds t) :
    findById t y = none := by
  rcases ho : findById t y with _ | r
  · rfl
  · exact absurd ((findById_isSome_iff t y).mp (by rw [ho]; rfl)) h

theorem eid_mapById (t : Elem) (x : Nat) (f : Elem → Elem)
    (hf : ∀ e, (f e).eid = e.eid) : (mapById f t x).eid = t.eid := by
  rcases t with ⟨j, tg, a, tx, kids, tl⟩
  by_cases hj : j = x
  · rw [show mapById f (.mk j tg a tx kids tl) x = f (.mk j tg a tx kids tl) by
      simp [mapById, hj]]
    rw [hf]
  · rw [show mapById f (.mk j tg a tx kids tl) x =
        .mk j tg a tx (mapByIdL f kids x) tl by simp [mapById, hj]]
    rfl

theorem spliceAfterL_nil (x : Nat) (tl' : String) (ins : List Elem) :
    spliceAfterL x tl' ins ([] : List Elem) = [] := by
  unfold spliceAfterL
  rfl

theorem spliceAfterL_cons (x : Nat) (tl' : String) (ins : List Elem)
    (c : Elem) (cs : List Elem) :
    spliceAfterL x tl' ins (c :: cs) =
      if c.eid = x then c.setTail tl' :: (ins ++ cs)
      else spliceAfter x tl' ins c :: spliceAfterL x tl' ins cs := by
  conv_lhs => unfold spliceAfterL

theorem spliceAfter_mk (x : Nat) (tl' : String) (ins : List Elem)
    (j : Nat) (tg : String) (a : List (String × String)) (tx : String)
    (kids : List Elem) (tl : String) :
    spliceAfter x tl' ins (.mk j tg a tx kids tl) =
      .mk j tg a tx (spliceAfterL x tl' ins kids) tl := by
  unfold spliceAfter
  rfl

mutual
theorem findById_spliceAfter_ins : ∀ (t : Elem) (x : Nat) (tl' : String)
    (E : Elem), x ∈ elemIds t → x ≠ t.eid → E.eid ∉ elemIds t →
    findById (spliceAfter x tl' [E] t) E.eid = some E
  | .mk j tg a tx kids tl, x, tl', E => fun hx hxj hE => by
    have hjE : ¬(j = E.eid) := fun h =>
      hE (by unfold elemIds; exact List.mem_cons.mpr (Or.inl h.symm))
    rw [spliceAfter_mk]
    rw [show findById (.mk j tg a tx (spliceAfterL x tl' [E] kids) tl) E.eid =
        findByIdL (spliceAfterL x tl' [E] kids) E.eid by simp [findById, hjE]]
    have hxk : x ∈ elemIdsL kids := by
      unfold elemIds at hx
      rcases List.mem_cons.mp hx with h | h
      · have hxj' : ¬x = j := by simpa using hxj
        exact absurd h hxj'
      · exact h
    have hEk : E.eid ∉ elemIdsL kids := fun hk =>
      hE (by unfold elemIds; exact List.mem_cons_of_mem _ hk)
    exact findByIdL_spliceAfter_ins kids x tl' E hxk hEk
theorem findByIdL_spliceAfter_ins : ∀ (l : List Elem) (x : Nat) (tl' : String)
    (E : Elem), x ∈ elemIdsL l → E.eid ∉ elemIdsL l →
    findByIdL (spliceAfterL x tl' [E] l) E.eid = some E
  | [], x, tl', E => fun hx _ => by rw [elemIdsL_nil] at hx; simp at hx
  | c :: cs, x, tl', E => fun hx hE => by
    rw [elemIdsL_cons] at hx hE
    simp only [List.mem_append, not_or] at hE
    rw [spliceAfterL_cons]
    by_cases hcx : c.eid = x
    · rw [if_pos hcx]
      rw [findByIdL_cons]
      rw [findById_eq_none (c.setTail tl') E.eid
        (by rw [elemIds_setTail]; exact hE.1)]
      rw [List.singleton_append, findByIdL_cons, findById_self E]
    · rw [if_neg hcx]
      rw [findByIdL_cons]
      by_cases hxc : x ∈ elemIds c
      · rw [findById_spliceAfter_ins c x tl' E hxc (fun h => hcx h.symm) hE.1]
      · rw [spliceAfter_absent c x tl' [E] hxc]
        rw [findById_eq_none c E.eid hE.1]
        have hxcs : x ∈ elemIdsL cs := by
          rcases List.mem_append.mp hx with h | h
          · exact absurd h hxc
          · exact h
        exact findByIdL_spliceAfter_ins cs x tl' E hxcs hE.2
end

mutual
theorem findById_mapPrepend_ins : ∀ (t : Elem) (x : Nat) (px : String)
    (E : Elem), x ∈ elemIds t → E.eid ∉ elemIds t →
    findById (mapById (fun v => (v.setText px).setChildren (E :: v.children))
      t x) E.eid = some E
  | .mk j tg a tx kids tl, x, px, E => fun hx hE => by
    have hjE : ¬(j = E.eid) := fun h =>
      hE (by unfold elemIds; exact List.mem_cons.mpr (Or.inl h.symm))
    by_cases hj : j = x
    · rw [show mapById (fun v => (v.setText px).setChildren (E :: v.children))
          (.mk j tg a tx kids tl) x =
          .mk j tg a px (E :: kids) tl by simp [mapById, hj]]
      rw [show findById (.mk j tg a px (E :: kids) tl) E.eid =
          findByIdL (E :: kids) E.eid by simp [findById, hjE]]
      rw [findByIdL_cons, findById_self E]
    · rw [show mapById (fun v => (v.setText px).setChildren (E :: v.children))
          (.mk j tg a tx kids tl) x =
          .mk j tg a tx (mapByIdL (fun v =>
            (v.setText px).setChildren (E :: v.children)) kids x) tl by
        simp [mapById, hj]]
      rw [show findById (.mk j tg a tx (mapByIdL (fun v =>
          (v.setText px).setChildren (E :: v.children)) kids x) tl) E.eid =
          findByIdL (mapByIdL (fun v =>
            (v.setText px).setChildren (E :: v.children)) kids x) E.eid by
        simp [findById, hjE]]
      have hxk : x ∈ elemIdsL kids := by
        unfold elemIds at hx
        rcases List.mem_cons.mp hx with h | h
        · exact absurd h.symm hj
        · exact h
      have hEk : E.eid ∉ elemIdsL kids := fun hk =>
        hE (by unfold elemIds; exact List.mem_cons_of_mem _ hk)
      exact findByIdL_mapPrepend_ins kids x px E hxk hEk
theorem findByIdL_mapPrepend_ins : ∀ (l : List Elem) (x : Nat) (px : String)
    (E : Elem), x ∈ elemIdsL l → E.eid ∉ elemIdsL l →
    findByIdL (mapByIdL (fun v => (v.setText px).setChildren (E :: v.children))
      l x) E.eid = some E
  | [], x, px, E => fun hx _ => by rw [elemIdsL_nil] at hx; simp at hx
  | c :: cs, x, px, E => fun hx hE => by
    rw [elemIdsL_cons] at hx hE
    simp only [List.mem_append, not_or] at hE
    unfold mapByIdL
    rw [findByIdL_cons]
    by_cases hxc : x ∈ elemIds c
    · rw [findById_mapPrepend_ins c x px E hxc hE.1]
    · rw [mapById_absent c x _ hxc]
      rw [findById_eq_none c E.eid hE.1]
      have hxcs : x ∈ elemIdsL cs := by
        rcases List.mem_append.mp hx with h | h
        · exact absurd h hxc
        · exact h
      exact findByIdL_mapPrepend_ins cs x px E hxcs hE.2
end

mutual
/-- Splicing after a freshly inserted element composes into one splice:
the element's tail is updated and the chain grows. -/
theorem spliceAfter_spliceAfter : ∀ (t : Elem) (x y : Nat) (px py : String)
    (E : Elem) (ch : List Elem), E.eid = y → y ∉ elemIds t →
    spliceAfter y py ch (spliceAfter x px [E] t) =
      spliceAfter x px (E.setTail py :: ch) t
  | .mk j tg a tx kids tl, x, y, px, py, E, ch => fun hEy hy => by
    rw [spliceAfter_mk, spliceAfter_mk, spliceAfter_mk]
    have hyk : y ∉ elemIdsL kids := fun hk =>
      hy (by unfold elemIds; exact List.mem_cons_of_mem _ hk)
    rw [spliceAfterL_spliceAfterL kids x y px py E ch hEy hyk]
theorem spliceAfterL_spliceAfterL : ∀ (l : List Elem) (x y : Nat)
    (px py : String) (E : Elem) (ch : List Elem), E.eid = y → y ∉ elemIdsL l →
    spliceAfterL y py ch (spliceAfterL x px [E] l) =
      spliceAfterL x px (E.setTail py :: ch) l
  | [], x, y, px, py, E, ch => fun _ _ => by
    rw [spliceAfterL_nil, spliceAfterL_nil, spliceAfterL_nil]
  | c :: cs, x, y, px, py, E, ch => fun hEy hy => by
    rw [elemIdsL_cons] at hy
    simp only [List.mem_append, not_or] at hy
    have hcy : ¬(c.eid = y) := fun h => hy.1 (h ▸ eid_mem_elemIds c)
    rw [spliceAfterL_cons, spliceAfterL_cons]
    by_cases hcx : c.eid = x
    · rw [if_pos hcx, if_pos hcx]
      rw [List.singleton_append]
      rw [spliceAfterL_cons]
      rw [if_neg (by simpa using hcy)]
      rw [spliceAfter_absent (c.setTail px) y py ch
        (by rw [elemIds_setTail]; exact hy.1)]
      rw [spliceAfterL_cons]
      rw [if_pos (by simpa using hEy)]
      simp
    · rw [if_neg hcx, if_neg hcx]
      rw [spliceAfterL_cons]
      rw [if_neg (by rw [eid_spliceAfter]; exact hcy)]
      rw [spliceAfter_spliceAfter c x y px py E ch hEy hy.1,
        spliceAfterL_spliceAfterL cs x y px py E ch hEy hy.2]
end

mutual
/-- Splicing after the element freshly prepended by the own-text wrap
composes into one prepend with a longer chain. -/
theorem spliceAfter_mapPrepend : ∀ (t : Elem) (x y : Nat) (px py : String)
    (E : Elem) (ch : List Elem), E.eid = y → y ∉ elemIds t →
    spliceAfter y py ch
        (mapById (fun v => (v.setText px).setChildren (E :: v.children)) t x) =
      mapById (fun v => (v.setText px).setChildren
        ((E.setTail py :: ch) ++ v.children)) t x
  | .mk j tg a tx kids tl, x, y, px, py, E, ch => fun hEy hy => by
    have hjy : ¬(j = y) := fun h =>
      hy (by unfold elemIds; exact List.mem_cons.mpr (Or.inl h.symm))
    have hyk : y ∉ elemIdsL kids := fun hk =>
      hy (by unfold elemIds; exact List.mem_cons_of_mem _ hk)
    by_cases hj : j = x
    · rw [show mapById (fun v => (v.setText px).setChildren (E :: v.children))
          (.mk j tg a tx kids tl) x = .mk j tg a px (E :: kids) tl by
        simp [mapById, hj]]
      rw [show mapById (fun v => (v.setText px).setChildren
          ((E.setTail py :: ch) ++ v.children)) (.mk j tg a tx kids tl) x =
          .mk j tg a px ((E.setTail py :: ch) ++ kids) tl by simp [mapById, hj]]
      rw [spliceAfter_mk]
      rw [spliceAfterL_cons]
      rw [if_pos (by simpa using hEy)]
      simp
    · rw [show mapById (fun v => (v.setText px).setChildren (E :: v.children))
          (.mk j tg a tx kids tl) x = .mk j tg a tx (mapByIdL (fun v =>
            (v.setText px).setChildren (E :: v.children)) kids x) tl by
        simp [mapById, hj]]
      rw [show mapById (fun v => (v.setText px).setChildren
          ((E.setTail py :: ch) ++ v.children)) (.mk j tg a tx kids tl) x =
          .mk j tg a tx (mapByIdL (fun v => (v.setText px).setChildren
            ((E.setTail py :: ch) ++ v.children)) kids x) tl by
        simp [mapById, hj]]
      rw [spliceAfter_mk]
      rw [spliceAfterL_mapPrepend kids x y px py E ch hEy hyk]
theorem spliceAfterL_mapPrepend : ∀ (l : List Elem) (x y : Nat)
    (px py : String) (E : Elem) (ch : List Elem), E.eid = y → y ∉ elemIdsL l →
    spliceAfterL y py ch
        (mapByIdL (fun v => (v.setText px).setChildren (E :: v.children)) l x) =
      mapByIdL (fun v => (v.setText px).setChildren
        ((E.setTail py :: ch) ++ v.children)) l x
  | [], x, y, px, py, E, ch => fun _ _ => by
    rw [show mapByIdL (fun v => (v.setText px).setChildren (E :: v.children))
        ([] : List Elem) x = [] by unfold mapByIdL; rfl]
    rw [show mapByIdL (fun v => (v.setText px).setChildren
        ((E.setTail py :: ch) ++ v.children)) ([] : List Elem) x = [] by
      unfold mapByIdL; rfl]
    rw [spliceAfterL_nil]
  | c :: cs, x, y, px, py, E, ch => fun hEy hy => by
    rw [elemIdsL_cons] at hy
    simp only [List.mem_append, not_or] at hy
    have hcy : ¬(c.eid = y) := fun h => hy.1 (h ▸ eid_mem_elemIds c)
    unfold mapByIdL
    rw [spliceAfterL_cons]
    rw [if_neg (by
      rw [eid_mapById c x _ (fun e => by rcases e with ⟨j', tg', a', tx', k', tl'⟩; simp)]
      exact hcy)]
    rw [spliceAfter_mapPrepend c x y px py E ch hEy hy.1,
      spliceAfterL_mapPrepend cs x y px py E ch hEy hy.2]
end

/-! ## The DOM matching engine's behaviour under a well-behaved pattern -/

/-- Shift a match's offsets left by `d` (its position relative to the
suffix exposed after an earlier match). -/
def shiftM (d : Int) (m : EMatch) : EMatch :=
  { m with start := m.start - d, stop := m.stop - d }

/-- What `re.finditer` guarantees, specialised to patterns whose matches
are position-independent (no anchors or boundary assertions): matches are
nonempty, in bounds, left-to-right and non-overlapping; rescanning the
text after a match finds exactly the later matches; and the text before
the first match contains no match. The docpipe citation patterns are of
this kind. -/
def FindOk (findM : String → List EMatch) : Prop :=
  ∀ s : String,
    (∀ m ∈ findM s, 0 ≤ m.start ∧ m.start < m.stop ∧ m.stop ≤ (slen s : Int) ∧
      m.text = ssubI s m.start m.stop) ∧
    (∀ m ms, findM s = m :: ms →
      findM (ssubI s m.stop (slen s)) = ms.map (shiftM m.stop) ∧
      findM (ssubI s 0 m.start) = [])

/-- Every match found in any scanned string is valid (its href is
constructible and is not the document's own identifier). -/
def AllValid (cfg : CitCfg) : Prop :=
  ∀ (s : String), ∀ m ∈ cfg.findM s, cfg.valid m = true

/-- The net effect of the tail-scanning loop on one string `s`: the
prefix kept on the original holder, the chain of marker elements the loop
inserts (each carrying its final tail), and the citations it appends, with
marker ids allocated from `nid`. -/
def chainStuff (cfg : CitCfg) : Nat → List EMatch → String →
    String × List Elem × List ExtractedCitation
  | _, [], s => (s, [], [])
  | nid, m :: ms, s =>
    let suf := ssubI s m.stop (slen s)
    let r := chainStuff cfg (nid + 1) (ms.map (shiftM m.stop)) suf
    (ssubI s 0 m.start,
      Elem.mk nid cfg.markerTag [("href", cfg.makeHref m)] m.text [] r.1 :: r.2.1,
      ⟨m.text, m.start, m.stop, cfg.makeHref m, none, none, none⟩ :: r.2.2)
termination_by nid ms s => ms.length
decreasing_by simp

theorem chainStuff_nil (cfg : CitCfg) (nid : Nat) (s : String) :
    chainStuff cfg nid [] s = (s, [], []) := by
  unfold chainStuff
  rfl

theorem chainStuff_cons (cfg : CitCfg) (nid : Nat) (m : EMatch)
    (ms : List EMatch) (s : String) :
    chainStuff cfg nid (m :: ms) s =
      (ssubI s 0 m.start,
        Elem.mk nid cfg.markerTag [("href", cfg.makeHref m)] m.text []
          (chainStuff cfg (nid + 1) (ms.map (shiftM m.stop))
            (ssubI s m.stop (slen s))).1 ::
          (chainStuff cfg (nid + 1) (ms.map (shiftM m.stop))
            (ssubI s m.stop (slen s))).2.1,
        ⟨m.text, m.start, m.stop, cfg.makeHref m, none, none, none⟩ ::
          (chainStuff cfg (nid + 1) (ms.map (shiftM m.stop))
            (ssubI s m.stop (slen s))).2.2) := by
  conv_lhs => unfold chainStuff

theorem chainStuff_len (cfg : CitCfg) : ∀ (n : Nat) (ms : List EMatch),
    ms.length = n → ∀ (nid : Nat) (s : String),
    (chainStuff cfg nid ms s).2.1.length = n ∧
    (chainStuff cfg nid ms s).2.2.length = n := by
  intro n
  induction n with
  | zero =>
    intro ms hms nid s
    rw [List.length_eq_zero] at hms
    subst hms
    rw [chainStuff_nil]
    exact ⟨rfl, rfl⟩
  | succ k ih =>
    intro ms hms nid s
    rcases ms with _ | ⟨m, ms'⟩
    · simp at hms
    · rw [chainStuff_cons]
      simp only [List.length_cons] at hms
      have := ih (ms'.map (shiftM m.stop)) (by simpa using hms) (nid + 1)
        (ssubI s m.stop (slen s))
      simp only [List.length_cons]
      omega

theorem chainStuff_ids (cfg : CitCfg) : ∀ (n : Nat) (ms : List EMatch),
    ms.length = n → ∀ (nid : Nat) (s : String),
    elemIdsL (chainStuff cfg nid ms s).2.1 = List.range' nid n := by
  intro n
  induction n with
  | zero =>
    intro ms hms nid s
    rw [List.length_eq_zero] at hms
    subst hms
    rw [chainStuff_nil]
    simp [elemIdsL_nil]
  | succ k ih =>
    intro ms hms nid s
    rcases ms with _ | ⟨m, ms'⟩
    · simp at hms
    · rw [chainStuff_cons, elemIdsL_cons]
      simp only [List.length_cons] at hms
      rw [ih (ms'.map (shiftM m.stop)) (by simpa using hms) (nid + 1)
        (ssubI s m.stop (slen s))]
      rw [show elemIds (Elem.mk nid cfg.markerTag [("href", cfg.makeHref m)]
          m.text [] (chainStuff cfg (nid + 1) (ms'.map (shiftM m.stop))
            (ssubI s m.stop (slen s))).1) = [nid] by
        unfold elemIds; rw [elemIdsL_nil]]
      rw [List.range'_succ]
      rfl

theorem innerTextL_nil : innerTextL ([] : List Elem) = "" := by
  unfold innerTextL
  rfl

theorem chainStuff_text (cfg : CitCfg) (hOk : FindOk cfg.findM) :
    ∀ (n : Nat) (ms : List EMatch), ms.length = n →
    ∀ (nid : Nat) (s : String), ms = cfg.findM s →
    (chainStuff cfg nid ms s).1 ++ innerTextL (chainStuff cfg nid ms s).2.1 = s := by
  intro n
  induction n with
  | zero =>
    intro ms hms nid s _
    rw [List.length_eq_zero] at hms
    subst hms
    rw [chainStuff_nil]
    rw [show ((s, ([] : List Elem), ([] : List ExtractedCitation))).2.1 =
      ([] : List Elem) from rfl]
    rw [innerTextL_nil]
    exact String.append_empty s
  | succ k ih =>
    intro ms hms nid s hfind
    rcases ms with _ | ⟨m, ms'⟩
    · simp at hms
    · have hmem : m ∈ cfg.findM s := by
        rw [← hfind]; exact List.mem_cons_self _ _
      obtain ⟨hb0, hb1, hb2, hb3⟩ := (hOk s).1 m hmem
      obtain ⟨h3a, h4⟩ := (hOk s).2 m ms' hfind.symm
      have hlen' : (ms'.map (shiftM m.stop)).length = k := by
        simp only [List.length_cons] at hms
        simpa using hms
      have IH := ih (ms'.map (shiftM m.stop)) hlen' (nid + 1)
        (ssubI s m.stop (slen s)) h3a.symm
      rw [chainStuff_cons]
      dsimp only
      rw [innerTextL_cons]
      rw [show innerText (Elem.mk nid cfg.markerTag [("href", cfg.makeHref m)]
          m.text [] (chainStuff cfg (nid + 1) (ms'.map (shiftM m.stop))
            (ssubI s m.stop (slen s))).1) = m.text by
        unfold innerText
        rw [innerTextL_nil, String.append_empty]]
      rw [Elem.tail_mk]
      rw [String.append_assoc m.text]
      rw [IH]
      rw [hb3]
      have h3 := ssub_append_three s m.start.toNat m.stop.toNat (by omega)
      simp only [ssubI, Int.toNat_zero, Int.toNat_natCast]
      rw [← String.append_assoc]
      exact h3

theorem chainStuff_count (cfg : CitCfg) (p : Elem → Bool)
    (hp : ∀ (i : Nat) (atr : List (String × String)) (txt tlx : String),
      p (Elem.mk i cfg.markerTag atr txt [] tlx) = true) :
    ∀ (n : Nat) (ms : List EMatch), ms.length = n → ∀ (nid : Nat) (s : String),
    countNodesL p (chainStuff cfg nid ms s).2.1 = n := by
  intro n
  induction n with
  | zero =>
    intro ms hms nid s
    rw [List.length_eq_zero] at hms
    subst hms
    rw [chainStuff_nil]
    exact countNodesL_nil p
  | succ k ih =>
    intro ms hms nid s
    rcases ms with _ | ⟨m, ms'⟩
    · simp at hms
    · rw [chainStuff_cons]
      dsimp only
      rw [countNodesL_cons]
      rw [ih (ms'.map (shiftM m.stop)) (by
        simp only [List.length_cons] at hms
        simpa using hms) (nid + 1) (ssubI s m.stop (slen s))]
      rw [show countNodes p (Elem.mk nid cfg.markerTag
          [("href", cfg.makeHref m)] m.text []
          (chainStuff cfg (nid + 1) (ms'.map (shiftM m.stop))
            (ssubI s m.stop (slen s))).1) = 1 by
        unfold countNodes
        rw [hp, countNodesL_nil]
        simp]
      omega

@[simp] theorem shiftM_text (d : Int) (m : EMatch) : (shiftM d m).text = m.text := rfl

theorem chainStuff_text_present (cfg : CitCfg) :
    ∀ (n : Nat) (ms : List EMatch), ms.length = n →
    ∀ (nid : Nat) (s : String) (txt : String),
    txt ∈ ms.map (fun m => m.text) →
    1 ≤ countNodesL (fun e => decide (e.tag = cfg.markerTag ∧ e.text = txt))
        (chainStuff cfg nid ms s).2.1 := by
  intro n
  induction n with
  | zero =>
    intro ms hms nid s txt htxt
    rw [List.length_eq_zero] at hms
    subst hms
    simp at htxt
  | succ k ih =>
    intro ms hms nid s txt htxt
    rcases ms with _ | ⟨m, ms'⟩
    · simp at hms
    · rw [chainStuff_cons]
      dsimp only
      rw [countNodesL_cons]
      rcases List.mem_cons.mp (by simpa using htxt : txt ∈ m.text :: ms'.map (fun m => m.text)) with h | h
      · have : countNodes (fun e => decide (e.tag = cfg.markerTag ∧ e.text = txt))
            (Elem.mk nid cfg.markerTag [("href", cfg.makeHref m)] m.text []
              (chainStuff cfg (nid + 1) (ms'.map (shiftM m.stop))
                (ssubI s m.stop (slen s))).1) = 1 := by
          unfold countNodes
          rw [countNodesL_nil]
          simp [h.symm]
        omega
      · have := ih (ms'.map (shiftM m.stop)) (by
          simp only [List.length_cons] at hms
          simpa using hms) (nid + 1) (ssubI s m.stop (slen s)) txt
          (by simpa using h)
        omega

theorem chainStuff_remnant (cfg : CitCfg) (hOk : FindOk cfg.findM)
    (ms : List EMatch) (s : String) (hfind : ms = cfg.findM s) (nid : Nat) :
    cfg.findM (chainStuff cfg nid ms s).1 = [] := by
  rcases ms with _ | ⟨m, ms'⟩
  · rw [chainStuff_nil]
    exact hfind.symm
  · rw [chainStuff_cons]
    exact ((hOk s).2 m ms' hfind.symm).2

theorem wrapFirstValid_nil (cfg : CitCfg) (st : DomState) (xid : Nat) (b : Bool) :
    wrapFirstValid cfg st xid b [] = none := by
  unfold wrapFirstValid
  rfl

theorem wrapFirstValid_cons (cfg : CitCfg) (st : DomState) (xid : Nat) (b : Bool)
    (m : EMatch) (ms : List EMatch) :
    wrapFirstValid cfg st xid b (m :: ms) =
      match handleNodeMatch cfg st xid m b with
      | some r => some r
      | none => wrapFirstValid cfg st xid b ms := by
  conv_lhs => unfold wrapFirstValid

theorem tailLoop_succ (cfg : CitCfg) (fuel : Nat) (st : DomState) (v : Elem) :
    tailLoop cfg (fuel + 1) st v =
      if v.tail = "" then st
      else
        match wrapFirstValid cfg st v.eid true (cfg.findM v.tail) with
        | some (newE, st') => tailLoop cfg fuel st' newE
        | none => st := by
  conv_lhs => unfold tailLoop

theorem findById_root (t : Elem) : findById t t.eid = some t := findById_self t

theorem slen_pos_ne_empty (s : String) (h : 1 ≤ slen s) : s ≠ "" := by
  intro he
  rw [he] at h
  simp [slen] at h

/-- The tail-scanning while loop, characterised: starting at a node `v`
whose tail is `s`, it splices the `chainStuff` marker chain right after
`v` (keeping the pre-first-match prefix as `v`'s tail), appends the
corresponding citations, and allocates one fresh id per match. -/
theorem tailLoop_spec (cfg : CitCfg) (hOk : FindOk cfg.findM)
    (hAV : AllValid cfg) :
    ∀ (n : Nat) (ms : List EMatch), ms.length = n →
    ∀ (fuel : Nat) (st : DomState) (v : Elem) (s : String),
    ms = cfg.findM s → v.tail = s →
    findById st.tree v.eid = some v →
    st.tree.tail = "" →
    (∀ z ∈ elemIds st.tree, z < st.nextId) →
    n + 1 ≤ fuel →
    tailLoop cfg fuel st v =
      { tree :=
          if n = 0 then st.tree
          else spliceAfter v.eid (chainStuff cfg st.nextId ms s).1
            (chainStuff cfg st.nextId ms s).2.1 st.tree,
        cits := st.cits ++ (chainStuff cfg st.nextId ms s).2.2,
        nextId := st.nextId + n } := by
  intro n
  induction n with
  | zero =>
    intro ms hms fuel st v s hfind hvtail hv hroot hbound hfuel
    rw [List.length_eq_zero] at hms
    subst hms
    rcases fuel with _ | f
    · omega
    · rw [tailLoop_succ]
      rw [chainStuff_nil]
      by_cases ht : v.tail = ""
      · rw [if_pos ht]
        rcases st with ⟨t, cits, nid⟩
        simp
      · rw [if_neg ht]
        rw [hvtail, ← hfind, wrapFirstValid_nil]
        rcases st with ⟨t, cits, nid⟩
        simp
  | succ k ih =>
    intro ms hms fuel st v s hfind hvtail hv hroot hbound hfuel
    rcases ms with _ | ⟨m, ms'⟩
    · simp at hms
    · rcases fuel with _ | f
      · omega
      · -- facts about the first match
        have hmem : m ∈ cfg.findM s := by
          rw [← hfind]; exact List.mem_cons_self _ _
        obtain ⟨hb0, hb1, hb2, hb3⟩ := (hOk s).1 m hmem
        obtain ⟨h3a, h4⟩ := (hOk s).2 m ms' hfind.symm
        have hsne : s ≠ "" := slen_pos_ne_empty s (by omega)
        have hvalid : cfg.valid m = true := hAV s m hmem
        have hvne : ¬(v.eid = st.tree.eid) := by
          intro he
          have : findById st.tree v.eid = some st.tree := he ▸ findById_root st.tree
          rw [hv] at this
          have hvv : v = st.tree := by
            injection this
          rw [hvv, hroot] at hvtail
          exact hsne hvtail.symm
        have hvmem : v.eid ∈ elemIds st.tree :=
          (findById_isSome_iff st.tree v.eid).mp (by rw [hv]; rfl)
        -- unfold one loop iteration
        rw [tailLoop_succ, if_neg (by rw [hvtail]; exact hsne)]
        rw [hvtail, ← hfind]
        rw [wrapFirstValid_cons]
        -- the first match is valid and wraps
        rw [show handleNodeMatch cfg st v.eid m true =
            some (((Elem.mk st.nextId cfg.markerTag [("href", cfg.makeHref m)]
                m.text [] "").setText
                  (ssub s m.start.toNat m.stop.toNat)).setTail
                  (ssub s m.stop.toNat (slen s)),
              { tree := spliceAfter v.eid (ssub s 0 m.start.toNat)
                  [((Elem.mk st.nextId cfg.markerTag
                    [("href", cfg.makeHref m)] m.text [] "").setText
                      (ssub s m.start.toNat m.stop.toNat)).setTail
                      (ssub s m.stop.toNat (slen s))] st.tree,
                cits := st.cits ++ [⟨m.text, m.start, m.stop, cfg.makeHref m,
                  none, none, none⟩],
                nextId := st.nextId + 1 }) by
          unfold handleNodeMatch
          rw [if_pos hvalid]
          unfold markupNodeMatch
          rw [if_neg ((cfg.valid_iff m).mp hvalid)]
          dsimp only
          rw [wrapText_some st.tree v.eid true _ _ _ v hv]
          simp [hvtail]]
        dsimp only
        have hmid : ssub s m.start.toNat m.stop.toNat = m.text := by
          rw [hb3]; rfl
        have hsuf : ssub s m.stop.toNat (slen s) = ssubI s m.stop (slen s) := by
          simp [ssubI]
        have hpre : ssub s 0 m.start.toNat = ssubI s 0 m.start := by
          simp [ssubI]
        have hEids : elemIds (((Elem.mk st.nextId cfg.markerTag
            [("href", cfg.makeHref m)] m.text [] "").setText
              (ssub s m.start.toNat m.stop.toNat)).setTail
              (ssub s m.stop.toNat (slen s))) = [st.nextId] := by
          rw [elemIds_setTail, elemIds_setText]
          unfold elemIds
          rw [elemIdsL_nil]
        have hEeid : (((Elem.mk st.nextId cfg.markerTag
            [("href", cfg.makeHref m)] m.text [] "").setText
              (ssub s m.start.toNat m.stop.toNat)).setTail
              (ssub s m.stop.toNat (slen s))).eid = st.nextId := by simp
        have hEfresh : st.nextId ∉ elemIds st.tree := fun h =>
          absurd (hbound _ h) (lt_irrefl _)
        have hids3 : ∀ z ∈ elemIds (spliceAfter v.eid (ssub s 0 m.start.toNat)
            [((Elem.mk st.nextId cfg.markerTag [("href", cfg.makeHref m)]
              m.text [] "").setText (ssub s m.start.toNat m.stop.toNat)).setTail
              (ssub s m.stop.toNat (slen s))] st.tree),
            z < st.nextId + 1 := by
          intro z hz
          rcases mem_elemIds_spliceAfter _ _ _ _ z hz with h | h
          · exact Nat.lt_succ_of_lt (hbound z h)
          · rw [elemIdsL_cons, elemIdsL_nil, List.append_nil, hEids] at h
            rcases List.mem_singleton.mp h with rfl
            omega
        have hfind3 : findById (spliceAfter v.eid (ssub s 0 m.start.toNat)
            [((Elem.mk st.nextId cfg.markerTag [("href", cfg.makeHref m)]
              m.text [] "").setText (ssub s m.start.toNat m.stop.toNat)).setTail
              (ssub s m.stop.toNat (slen s))] st.tree)
            (((Elem.mk st.nextId cfg.markerTag [("href", cfg.makeHref m)]
              m.text [] "").setText (ssub s m.start.toNat m.stop.toNat)).setTail
              (ssub s m.stop.toNat (slen s))).eid =
            some (((Elem.mk st.nextId cfg.markerTag [("href", cfg.makeHref m)]
              m.text [] "").setText (ssub s m.start.toNat m.stop.toNat)).setTail
              (ssub s m.stop.toNat (slen s))) := by
          apply findById_spliceAfter_ins st.tree v.eid _ _ hvmem hvne
          rw [hEeid]
          exact hEfresh
        have IH := ih (ms'.map (shiftM m.stop)) (by
            simp only [List.length_cons] at hms
            simpa using hms) f
          ⟨spliceAfter v.eid (ssub s 0 m.start.toNat)
            [((Elem.mk st.nextId cfg.markerTag [("href", cfg.makeHref m)]
              m.text [] "").setText (ssub s m.start.toNat m.stop.toNat)).setTail
              (ssub s m.stop.toNat (slen s))] st.tree,
            st.cits ++ [⟨m.text, m.start, m.stop, cfg.makeHref m, none, none,
              none⟩], st.nextId + 1⟩
          (((Elem.mk st.nextId cfg.markerTag [("href", cfg.makeHref m)]
            m.text [] "").setText (ssub s m.start.toNat m.stop.toNat)).setTail
            (ssub s m.stop.toNat (slen s)))
          (ssubI s m.stop (slen s)) h3a.symm (by simp [hsuf]) hfind3
          (by dsimp only; rw [tail_spliceAfter]; exact hroot) hids3
          (by omega)
        rw [IH]
        dsimp only
        rw [chainStuff_cons]
        dsimp only
        simp only [DomState.mk.injEq]
        refine ⟨?_, ?_, by omega⟩
        · rw [if_neg (by omega : ¬(k + 1 = 0))]
          by_cases hk : k = 0
          · rw [if_pos hk]
            subst hk
            have hms0 : ms' = [] := by
              have h0 : ms'.length = 0 := by
                simp only [List.length_cons] at hms
                omega
              exact List.length_eq_zero.mp h0
            subst hms0
            rw [show (List.map (shiftM m.stop) []) = [] from rfl]
            rw [chainStuff_nil]
            dsimp only
            rw [hpre, hmid, hsuf]
            rfl
          · rw [if_neg hk]
            rw [hEeid]
            rw [spliceAfter_spliceAfter st.tree v.eid st.nextId
              (ssub s 0 m.start.toNat)
              (chainStuff cfg (st.nextId + 1) (ms'.map (shiftM m.stop))
                (ssubI s m.stop (slen s))).1
              (((Elem.mk st.nextId cfg.markerTag [("href", cfg.makeHref m)]
                m.text [] "").setText (ssub s m.start.toNat m.stop.toNat)).setTail
                (ssub s m.stop.toNat (slen s)))
              (chainStuff cfg (st.nextId + 1) (ms'.map (shiftM m.stop))
                (ssubI s m.stop (slen s))).2.1 hEeid hEfresh]
            rw [hpre, hmid]
            rfl
        · rw [List.append_assoc]
          rfl

/-! ## Per-candidate specifications of the engine loop body -/

theorem findM_empty (cfg : CitCfg) (hOk : FindOk cfg.findM) :
    cfg.findM "" = [] := by
  rcases h : cfg.findM "" with _ | ⟨m, ms⟩
  · rfl
  · exfalso
    obtain ⟨h0, h1, h2, _⟩ := (hOk "").1 m (h ▸ List.mem_cons_self m ms)
    have h3 : (slen ("" : String) : Int) = 0 := rfl
    omega

theorem findM_len_le (cfg : CitCfg) (hOk : FindOk cfg.findM) :
    ∀ (n : Nat) (s : String), slen s ≤ n → (cfg.findM s).length ≤ slen s := by
  intro n
  induction n with
  | zero =>
    intro s hs
    rcases h : cfg.findM s with _ | ⟨m, ms⟩
    · simp
    · exfalso
      obtain ⟨h0, h1, h2, _⟩ := (hOk s).1 m (h ▸ List.mem_cons_self m ms)
      omega
  | succ k ih =>
    intro s hs
    rcases h : cfg.findM s with _ | ⟨m, ms⟩
    · simp
    · obtain ⟨h0, h1, h2, _⟩ := (hOk s).1 m (h ▸ List.mem_cons_self m ms)
      obtain ⟨h3, _⟩ := (hOk s).2 m ms h
      have hlen : slen (ssubI s m.stop (slen s)) = slen s - m.stop.toNat := by
        rw [ssubI, slen_ssub, Int.toNat_natCast]
        omega
      have hrec := ih (ssubI s m.stop (slen s)) (by omega)
      rw [h3] at hrec
      simp only [List.length_map] at hrec
      simp only [List.length_cons]
      omega

/-- A tail candidate consumes the holder's current tail in one pass of the
tail-scanning loop. -/
theorem procTail_spec (cfg : CitCfg) (hOk : FindOk cfg.findM)
    (hAV : AllValid cfg) (st : DomState) (x : Nat) (v : Elem)
    (hv : findById st.tree x = some v)
    (hroot : st.tree.tail = "")
    (hbound : ∀ z ∈ elemIds st.tree, z < st.nextId) :
    processCandidate cfg st (x, true) =
      { tree := if (cfg.findM v.tail).length = 0 then st.tree
          else spliceAfter x (chainStuff cfg st.nextId (cfg.findM v.tail) v.tail).1
            (chainStuff cfg st.nextId (cfg.findM v.tail) v.tail).2.1 st.tree,
        cits := st.cits ++ (chainStuff cfg st.nextId (cfg.findM v.tail) v.tail).2.2,
        nextId := st.nextId + (cfg.findM v.tail).length } := by
  have hx : v.eid = x := findById_eid st.tree x v hv
  have h1 : processCandidate cfg st (x, true) =
      tailLoop cfg (slen v.tail + 1) st v := by
    unfold processCandidate
    rw [show findById st.tree (x, true).1 = some v from hv]
    rfl
  rw [h1]
  rw [tailLoop_spec cfg hOk hAV (cfg.findM v.tail).length (cfg.findM v.tail) rfl
    (slen v.tail + 1) st v v.tail rfl rfl (hx ▸ hv) hroot hbound
    (by have := findM_len_le cfg hOk (slen v.tail) v.tail (le_refl _); omega)]
  rw [hx]

/-- An own-text candidate whose text has at least one match: the text is
consumed in one pass; the marker chain becomes the holder's new leading
children, the pre-first-match prefix its new text. The holder's tail is
untouched. -/
theorem procText_spec (cfg : CitCfg) (hOk : FindOk cfg.findM)
    (hAV : AllValid cfg) (st : DomState) (x : Nat) (v : Elem)
    (hv : findById st.tree x = some v)
    (hne : cfg.findM v.text ≠ [])
    (hroot : st.tree.tail = "")
    (hbound : ∀ z ∈ elemIds st.tree, z < st.nextId) :
    processCandidate cfg st (x, false) =
      { tree := mapById (fun y =>
            Elem.setChildren
              (y.setText (chainStuff cfg st.nextId (cfg.findM v.text) v.text).1)
              ((chainStuff cfg st.nextId (cfg.findM v.text) v.text).2.1 ++
                y.children)) st.tree x,
        cits := st.cits ++ (chainStuff cfg st.nextId (cfg.findM v.text) v.text).2.2,
        nextId := st.nextId + (cfg.findM v.text).length } := by
  have hx : v.eid = x := findById_eid st.tree x v hv
  have hxm : x ∈ elemIds st.tree :=
    (findById_isSome_iff st.tree x).mp (by rw [hv]; rfl)
  have h1 : processCandidate cfg st (x, false) =
      match wrapFirstValid cfg st v.eid false (cfg.findM v.text) with
      | some (newE, st') => tailLoop cfg (slen v.text + slen v.tail + 1) st' newE
      | none => tailLoop cfg (slen v.text + slen v.tail + 1) st v := by
    unfold processCandidate
    rw [show findById st.tree (x, false).1 = some v from hv]
    rfl
  rcases h : cfg.findM v.text with _ | ⟨m, ms₁⟩
  · exact absurd h hne
  · have hmem : m ∈ cfg.findM v.text := by
      rw [h]; exact List.mem_cons_self _ _
    obtain ⟨hb0, hb1, hb2, hb3⟩ := (hOk v.text).1 m hmem
    obtain ⟨h3a, h4⟩ := (hOk v.text).2 m ms₁ h
    have hvalid : cfg.valid m = true := hAV v.text m hmem
    have hmid : ssub v.text m.start.toNat m.stop.toNat = m.text := by
      rw [hb3]; rfl
    have hsuf : ssub v.text m.stop.toNat (slen v.text) =
        ssubI v.text m.stop (slen v.text) := by simp [ssubI]
    have hpre : ssub v.text 0 m.start.toNat = ssubI v.text 0 m.start := by
      simp [ssubI]
    have hEids : elemIds (((Elem.mk st.nextId cfg.markerTag
        [("href", cfg.makeHref m)] m.text [] "").setText
          (ssub v.text m.start.toNat m.stop.toNat)).setTail
          (ssub v.text m.stop.toNat (slen v.text))) = [st.nextId] := by
      rw [elemIds_setTail, elemIds_setText]
      unfold elemIds
      rw [elemIdsL_nil]
    have hEeid : (((Elem.mk st.nextId cfg.markerTag
        [("href", cfg.makeHref m)] m.text [] "").setText
          (ssub v.text m.start.toNat m.stop.toNat)).setTail
          (ssub v.text m.stop.toNat (slen v.text))).eid = st.nextId := by simp
    have hEfresh : st.nextId ∉ elemIds st.tree := fun hh =>
      absurd (hbound _ hh) (lt_irrefl _)
    have hW : handleNodeMatch cfg st x m false =
        some (((Elem.mk st.nextId cfg.markerTag [("href", cfg.makeHref m)]
            m.text [] "").setText
              (ssub v.text m.start.toNat m.stop.toNat)).setTail
              (ssub v.text m.stop.toNat (slen v.text)),
          { tree := mapById (fun y =>
              (y.setText (ssub v.text 0 m.start.toNat)).setChildren
                ((((Elem.mk st.nextId cfg.markerTag
                  [("href", cfg.makeHref m)] m.text [] "").setText
                    (ssub v.text m.start.toNat m.stop.toNat)).setTail
                    (ssub v.text m.stop.toNat (slen v.text))) :: y.children))
              st.tree x,
            cits := st.cits ++ [⟨m.text, m.start, m.stop, cfg.makeHref m,
              none, none, none⟩],
            nextId := st.nextId + 1 }) := by
      unfold handleNodeMatch
      rw [if_pos hvalid]
      unfold markupNodeMatch
      rw [if_neg ((cfg.valid_iff m).mp hvalid)]
      dsimp only
      rw [wrapText_some st.tree x false _ _ _ v hv]
      simp
    have hfind3 : findById (mapById (fun y =>
        (y.setText (ssub v.text 0 m.start.toNat)).setChildren
          ((((Elem.mk st.nextId cfg.markerTag
            [("href", cfg.makeHref m)] m.text [] "").setText
              (ssub v.text m.start.toNat m.stop.toNat)).setTail
              (ssub v.text m.stop.toNat (slen v.text))) :: y.children))
        st.tree x)
        (((Elem.mk st.nextId cfg.markerTag [("href", cfg.makeHref m)]
          m.text [] "").setText (ssub v.text m.start.toNat m.stop.toNat)).setTail
          (ssub v.text m.stop.toNat (slen v.text))).eid =
        some (((Elem.mk st.nextId cfg.markerTag [("href", cfg.makeHref m)]
          m.text [] "").setText (ssub v.text m.start.toNat m.stop.toNat)).setTail
          (ssub v.text m.stop.toNat (slen v.text))) := by
      apply findById_mapPrepend_ins st.tree x _ _ hxm
      rw [hEeid]
      exact hEfresh
    have hmemf : ∀ e : Elem, e.eid = x →
        ∀ w ∈ elemIds ((e.setText (ssub v.text 0 m.start.toNat)).setChildren
          ((((Elem.mk st.nextId cfg.markerTag
            [("href", cfg.makeHref m)] m.text [] "").setText
              (ssub v.text m.start.toNat m.stop.toNat)).setTail
              (ssub v.text m.stop.toNat (slen v.text))) :: e.children)),
          w ∈ elemIds e ∨ w ∈ [st.nextId] := by
      intro e he w hw
      rcases e with ⟨j, tg2, a2, tx2, kids2, tl2⟩
      simp only [Elem.setText_mk, Elem.setChildren_mk, Elem.children_mk] at hw
      have hw2 : w = j ∨ w ∈ elemIdsL ((((Elem.mk st.nextId cfg.markerTag
          [("href", cfg.makeHref m)] m.text [] "").setText
            (ssub v.text m.start.toNat m.stop.toNat)).setTail
            (ssub v.text m.stop.toNat (slen v.text))) :: kids2) := by
        unfold elemIds at hw
        exact List.mem_cons.mp hw
      rcases hw2 with h' | h'
      · exact Or.inl (by unfold elemIds; exact List.mem_cons.mpr (Or.inl h'))
      · rw [elemIdsL_cons, hEids] at h'
        rcases List.mem_append.mp h' with h'' | h''
        · exact Or.inr h''
        · exact Or.inl (by unfold elemIds; exact List.mem_cons.mpr (Or.inr h''))
    have hbound3 : ∀ z ∈ elemIds (mapById (fun y =>
        (y.setText (ssub v.text 0 m.start.toNat)).setChildren
          ((((Elem.mk st.nextId cfg.markerTag
            [("href", cfg.makeHref m)] m.text [] "").setText
              (ssub v.text m.start.toNat m.stop.toNat)).setTail
              (ssub v.text m.stop.toNat (slen v.text))) :: y.children))
        st.tree x), z < st.nextId + 1 := by
      intro z hz
      rcases mem_elemIds_mapById st.tree x _ [st.nextId] z hmemf hz with h' | h'
      · exact Nat.lt_succ_of_lt (hbound z h')
      · rcases List.mem_singleton.mp h' with rfl
        omega
    rw [h1, hx, h, wrapFirstValid_cons, hW]
    dsimp only
    have hfuel : ms₁.length + 1 ≤ slen v.text + slen v.tail + 1 := by
      have := findM_len_le cfg hOk (slen v.text) v.text (le_refl _)
      rw [h] at this
      simp only [List.length_cons] at this
      omega
    rw [tailLoop_spec cfg hOk hAV ms₁.length (ms₁.map (shiftM m.stop))
      (by simp) (slen v.text + slen v.tail + 1) _ _
      (ssubI v.text m.stop (slen v.text)) h3a.symm (by simp [hsuf]) hfind3
      (by dsimp only
          rw [tail_mapById st.tree x _ (by intro e he; simp)]
          exact hroot)
      hbound3 hfuel]
    rw [chainStuff_cons]
    dsimp only
    simp only [DomState.mk.injEq]
    refine ⟨?_, ?_, ?_⟩
    · by_cases hk : ms₁.length = 0
      · rw [if_pos hk]
        have hms0 : ms₁ = [] := List.length_eq_zero.mp hk
        subst hms0
        rw [show (List.map (shiftM m.stop) []) = [] from rfl]
        rw [chainStuff_nil]
        dsimp only
        rw [hpre, hmid, hsuf]
        rfl
      · rw [if_neg hk]
        rw [hEeid]
        rw [spliceAfter_mapPrepend st.tree x st.nextId
          (ssub v.text 0 m.start.toNat)
          (chainStuff cfg (st.nextId + 1) (ms₁.map (shiftM m.stop))
            (ssubI v.text m.stop (slen v.text))).1
          (((Elem.mk st.nextId cfg.markerTag [("href", cfg.makeHref m)]
            m.text [] "").setText (ssub v.text m.start.toNat m.stop.toNat)).setTail
            (ssub v.text m.stop.toNat (slen v.text)))
          (chainStuff cfg (st.nextId + 1) (ms₁.map (shiftM m.stop))
            (ssubI v.text m.stop (slen v.text))).2.1 hEeid hEfresh]
        rw [hpre, hmid]
        rfl
    · rw [List.append_assoc]
      rfl
    · show st.nextId + 1 + ms₁.length = st.nextId + (ms₁.length + 1)
      omega

/-- The engine quirk (matchers.py lines 178-189): an own-text candidate with
no match in its text still runs the tail-scanning loop, consuming the
holder's tail ahead of the tail candidate's own turn. -/
theorem procText_quirk_spec (cfg : CitCfg) (hOk : FindOk cfg.findM)
    (hAV : AllValid cfg) (st : DomState) (x : Nat) (v : Elem)
    (hv : findById st.tree x = some v)
    (hq : cfg.findM v.text = [])
    (hroot : st.tree.tail = "")
    (hbound : ∀ z ∈ elemIds st.tree, z < st.nextId) :
    processCandidate cfg st (x, false) =
      { tree := if (cfg.findM v.tail).length = 0 then st.tree
          else spliceAfter x (chainStuff cfg st.nextId (cfg.findM v.tail) v.tail).1
            (chainStuff cfg st.nextId (cfg.findM v.tail) v.tail).2.1 st.tree,
        cits := st.cits ++ (chainStuff cfg st.nextId (cfg.findM v.tail) v.tail).2.2,
        nextId := st.nextId + (cfg.findM v.tail).length } := by
  have hx : v.eid = x := findById_eid st.tree x v hv
  have h1 : processCandidate cfg st (x, false) =
      match wrapFirstValid cfg st v.eid false (cfg.findM v.text) with
      | some (newE, st') => tailLoop cfg (slen v.text + slen v.tail + 1) st' newE
      | none => tailLoop cfg (slen v.text + slen v.tail + 1) st v := by
    unfold processCandidate
    rw [show findById st.tree (x, false).1 = some v from hv]
    rfl
  rw [h1, hq, wrapFirstValid_nil]
  rw [tailLoop_spec cfg hOk hAV (cfg.findM v.tail).length (cfg.findM v.tail) rfl
    (slen v.text + slen v.tail + 1) st v v.tail rfl rfl (hx ▸ hv) hroot hbound
    (by have := findM_len_le cfg hOk (slen v.tail) v.tail (le_refl _); omega)]
  rw [hx]

/-! ## Observation toolbox: the strings held at a node id, across surgery -/

/-- The observable pair at node id `y`: its own text and its tail. -/
def obsAt (t : Elem) (y : Nat) : Option (String × String) :=
  (findById t y).map (fun e => (e.text, e.tail))

def obsAtL (l : List Elem) (y : Nat) : Option (String × String) :=
  (findByIdL l y).map (fun e => (e.text, e.tail))

theorem obsAtL_cons (c : Elem) (cs : List Elem) (y : Nat) :
    obsAtL (c :: cs) y =
      match findById c y with
      | some r => some (r.text, r.tail)
      | none => obsAtL cs y := by
  unfold obsAtL
  rw [findByIdL_cons]
  rcases findById c y with _ | r
  · rfl
  · rfl

mutual
/-- Splicing at `x` does not change the text or tail held at any other
pre-existing id. -/
theorem obsAt_spliceAfter_ne : ∀ (t : Elem) (x y : Nat) (tl' : String)
    (ins : List Elem), y ≠ x → y ∉ elemIdsL ins →
    obsAt (spliceAfter x tl' ins t) y = obsAt t y
  | .mk j tg a tx kids tl, x, y, tl', ins => fun hyx hins => by
    rw [spliceAfter_mk]
    by_cases hj : j = y
    · unfold obsAt findById
      rw [if_pos hj, if_pos hj]
      rfl
    · unfold obsAt findById
      rw [if_neg hj, if_neg hj]
      exact obsAtL_spliceAfterL_ne kids x y tl' ins hyx hins
theorem obsAtL_spliceAfterL_ne : ∀ (l : List Elem) (x y : Nat) (tl' : String)
    (ins : List Elem), y ≠ x → y ∉ elemIdsL ins →
    obsAtL (spliceAfterL x tl' ins l) y = obsAtL l y
  | [], _, _, _, _ => fun _ _ => rfl
  | c :: cs, x, y, tl', ins => fun hyx hins => by
    unfold spliceAfterL
    by_cases hcx : c.eid = x
    · rw [if_pos hcx]
      rw [obsAtL_cons, obsAtL_cons]
      rw [findById_setTail_ne c tl' y (by rw [hcx]; exact fun h => hyx h.symm)]
      rcases ho : findById c y with _ | r
      · unfold obsAtL
        rw [findByIdL_append, findByIdL_eq_none ins y hins]
      · rfl
    · rw [if_neg hcx]
      rw [obsAtL_cons, obsAtL_cons]
      have hrec := obsAt_spliceAfter_ne c x y tl' ins hyx hins
      unfold obsAt at hrec
      rcases ho : findById c y with _ | r
      · rw [ho] at hrec
        rcases ho2 : findById (spliceAfter x tl' ins c) y with _ | r2
        · exact obsAtL_spliceAfterL_ne cs x y tl' ins hyx hins
        · rw [ho2] at hrec
          simp at hrec
      · rw [ho] at hrec
        rcases ho2 : findById (spliceAfter x tl' ins c) y with _ | r2
        · rw [ho2] at hrec
          simp at hrec
        · rw [ho2] at hrec
          exact hrec
end

mutual
/-- Rewriting the node with id `x` does not change the text or tail held at
any other id, as long as the rewrite keeps lookups below itself intact. -/
theorem obsAt_mapById_ne : ∀ (t : Elem) (x y : Nat) (f : Elem → Elem),
    y ≠ x → (∀ e, e.eid = x → findById (f e) y = findById e y) →
    obsAt (mapById f t x) y = obsAt t y
  | .mk j tg a tx kids tl, x, y, f => fun hyx hf => by
    by_cases hj : j = x
    · rw [show mapById f (.mk j tg a tx kids tl) x = f (.mk j tg a tx kids tl) by
        simp [mapById, hj]]
      unfold obsAt
      rw [hf _ (by simpa using hj)]
    · rw [show mapById f (.mk j tg a tx kids tl) x =
          .mk j tg a tx (mapByIdL f kids x) tl by simp [mapById, hj]]
      by_cases hjy : j = y
      · unfold obsAt findById
        rw [if_pos hjy, if_pos hjy]
        rfl
      · unfold obsAt findById
        rw [if_neg hjy, if_neg hjy]
        exact obsAtL_mapByIdL_ne kids x y f hyx hf
theorem obsAtL_mapByIdL_ne : ∀ (l : List Elem) (x y : Nat) (f : Elem → Elem),
    y ≠ x → (∀ e, e.eid = x → findById (f e) y = findById e y) →
    obsAtL (mapByIdL f l x) y = obsAtL l y
  | [], _, _, _ => fun _ _ => rfl
  | c :: cs, x, y, f => fun hyx hf => by
    unfold mapByIdL
    rw [obsAtL_cons, obsAtL_cons]
    have hrec := obsAt_mapById_ne c x y f hyx hf
    unfold obsAt at hrec
    rcases ho : findById c y with _ | r
    · rw [ho] at hrec
      rcases ho2 : findById (mapById f c x) y with _ | r2
      · exact obsAtL_mapByIdL_ne cs x y f hyx hf
      · rw [ho2] at hrec
        simp at hrec
    · rw [ho] at hrec
      rcases ho2 : findById (mapById f c x) y with _ | r2
      · rw [ho2] at hrec
        simp at hrec
      · rw [ho2] at hrec
        exact hrec
end

theorem obsAt_spliceAfter_self (t : Elem) (x : Nat) (tl' : String)
    (ins : List Elem) (hins : x ∉ elemIdsL ins) (hne : t.eid ≠ x) :
    obsAt (spliceAfter x tl' ins t) x =
      (findById t x).map (fun e => (e.text, tl')) := by
  unfold obsAt
  rw [findById_spliceAfter_self t x tl' ins hins hne]
  rcases findById t x with _ | r
  · rfl
  · simp

theorem obsAt_mapById_self (t : Elem) (x : Nat) (f : Elem → Elem)
    (hf : ∀ e, (f e).eid = e.eid) :
    obsAt (mapById f t x) x =
      (findById t x).map (fun e => ((f e).text, (f e).tail)) := by
  unfold obsAt
  rw [findById_mapById_self t x f hf]
  rcases findById t x with _ | r
  · rfl
  · rfl

mutual
/-- Every id in a tree is bounded by `maxId`. -/
theorem mem_le_maxId : ∀ (t : Elem) (z : Nat), z ∈ elemIds t → z ≤ maxId t
  | .mk j tg a tx kids tl, z => fun hz => by
    unfold elemIds at hz
    unfold maxId
    rcases List.mem_cons.mp hz with h | h
    · subst h
      exact le_max_left _ _
    · exact le_trans (memL_le_maxIdL kids z h) (le_max_right _ _)
theorem memL_le_maxIdL : ∀ (l : List Elem) (z : Nat), z ∈ elemIdsL l → z ≤ maxIdL l
  | [], z => fun hz => by rw [elemIdsL_nil] at hz; exact absurd hz (List.not_mem_nil z)
  | c :: cs, z => fun hz => by
    rw [elemIdsL_cons] at hz
    unfold maxIdL
    rcases List.mem_append.mp hz with h | h
    · exact le_trans (mem_le_maxId c z h) (le_max_left _ _)
    · exact le_trans (memL_le_maxIdL cs z h) (le_max_right _ _)
end

mutual
/-- Counting with `p` splits over any secondary test `q`. -/
theorem countNodes_split : ∀ (t : Elem) (p q : Elem → Bool),
    countNodes p t =
      countNodes (fun e => p e && q e) t + countNodes (fun e => p e && !q e) t
  | .mk j tg a tx kids tl, p, q => by
    unfold countNodes
    rw [countNodesL_split kids p q]
    by_cases h : p (.mk j tg a tx kids tl) = true
    · by_cases h2 : q (.mk j tg a tx kids tl) = true
      · rw [if_pos h, if_pos (by rw [h, h2]; rfl),
          if_neg (by rw [h, h2]; simp)]
        omega
      · rw [if_pos h, if_neg (by rw [h]; simpa using h2),
          if_pos (by rw [h]; simp; simpa using h2)]
        omega
    · rw [if_neg h, if_neg (by rw [Bool.and_eq_true]; intro hc; exact h hc.1),
        if_neg (by rw [Bool.and_eq_true]; intro hc; exact h hc.1)]
      omega
theorem countNodesL_split : ∀ (l : List Elem) (p q : Elem → Bool),
    countNodesL p l =
      countNodesL (fun e => p e && q e) l + countNodesL (fun e => p e && !q e) l
  | [], p, q => by rw [countNodesL_nil, countNodesL_nil, countNodesL_nil]
  | c :: cs, p, q => by
    rw [countNodesL_cons, countNodesL_cons, countNodesL_cons]
    rw [countNodes_split c p q, countNodesL_split cs p q]
    omega
end

theorem findByIdL_mem_of_some (l : List Elem) (x : Nat) (e : Elem)
    (he : findByIdL l x = some e) : x ∈ elemIdsL l := by
  by_contra hq
  rw [findByIdL_eq_none l x hq] at he
  exact Option.noConfusion he

theorem findById_mem_of_some (t : Elem) (x : Nat) (e : Elem)
    (he : findById t x = some e) : x ∈ elemIds t :=
  (findById_isSome_iff t x).mp (by rw [he]; rfl)

theorem nodup_elemIds_parts (j : Nat) (tg : String) (a : List (String × String))
    (tx : String) (kids : List Elem) (tl : String)
    (h : List.Nodup (elemIds (.mk j tg a tx kids tl))) :
    j ∉ elemIdsL kids ∧ List.Nodup (elemIdsL kids) := by
  unfold elemIds at h
  exact ⟨(List.nodup_cons.mp h).1, (List.nodup_cons.mp h).2⟩

theorem nodup_elemIdsL_parts (c : Elem) (cs : List Elem)
    (h : List.Nodup (elemIdsL (c :: cs))) :
    List.Nodup (elemIds c) ∧ List.Nodup (elemIdsL cs) ∧
      ∀ z ∈ elemIds c, z ∉ elemIdsL cs := by
  rw [elemIdsL_cons] at h
  rw [List.nodup_append] at h
  exact ⟨h.1, h.2.1, h.2.2⟩

/-- Conditioned tail preservation for `mapById`. -/
theorem tail_mapByIdN (c : Elem) (x : Nat) (f : Elem → Elem)
    (h : ∀ e, findById c x = some e → (f e).tail = e.tail) :
    (mapById f c x).tail = c.tail := by
  rcases c with ⟨j, tg, a, tx, kids, tl⟩
  by_cases hj : j = x
  · rw [show mapById f (.mk j tg a tx kids tl) x = f (.mk j tg a tx kids tl) by
      simp [mapById, hj]]
    rw [h _ (by unfold findById; rw [if_pos hj])]
  · rw [show mapById f (.mk j tg a tx kids tl) x =
        .mk j tg a tx (mapByIdL f kids x) tl by simp [mapById, hj]]
    rfl

mutual
/-- `spliceAfter` preserves the tree's text content when the new tail plus
the inserted chain's content reassembles the found node's old tail. -/
theorem innerText_spliceAfterN : ∀ (t : Elem) (x : Nat) (tl' : String)
    (ins : List Elem), List.Nodup (elemIds t) →
    (∀ e, findById t x = some e → tl' ++ innerTextL ins = e.tail) →
    innerText (spliceAfter x tl' ins t) = innerText t
  | .mk j tg a tx kids tl, x, tl', ins => fun hnd hsp => by
    rw [spliceAfter_mk]
    unfold innerText
    obtain ⟨hjk, hndk⟩ := nodup_elemIds_parts j tg a tx kids tl hnd
    rw [innerTextL_spliceAfterLN kids x tl' ins hndk (fun e he => by
      apply hsp
      unfold findById
      by_cases hj : j = x
      · exfalso
        exact hjk (hj ▸ findByIdL_mem_of_some kids x e he)
      · rw [if_neg hj]
        exact he)]
theorem innerTextL_spliceAfterLN : ∀ (l : List Elem) (x : Nat) (tl' : String)
    (ins : List Elem), List.Nodup (elemIdsL l) →
    (∀ e, findByIdL l x = some e → tl' ++ innerTextL ins = e.tail) →
    innerTextL (spliceAfterL x tl' ins l) = innerTextL l
  | [], _, _, _ => fun _ _ => rfl
  | c :: cs, x, tl', ins => fun hnd hsp => by
    obtain ⟨hndc, hndcs, hdisj⟩ := nodup_elemIdsL_parts c cs hnd
    unfold spliceAfterL
    by_cases hcx : c.eid = x
    · rw [if_pos hcx]
      rw [innerTextL_cons, innerTextL_cons, innerTextL_append, innerText_setTail]
      have hc : findByIdL (c :: cs) x = some c := by
        rw [findByIdL_cons]
        rw [show findById c x = some c from by rw [← hcx]; exact findById_self c]
      have hts := hsp c hc
      rw [show (c.setTail tl').tail = tl' from by simp]
      rw [← hts]
      simp [String.append_assoc]
    · rw [if_neg hcx]
      rw [innerTextL_cons, innerTextL_cons]
      rcases ho : findById c x with _ | r
      · have hnc : x ∉ elemIds c := by
          intro hq
          have := (findById_isSome_iff c x).mpr hq
          rw [ho] at this
          exact Bool.noConfusion this
        rw [spliceAfter_absent c x tl' ins hnc]
        rw [innerTextL_spliceAfterLN cs x tl' ins hndcs (fun e he => by
          apply hsp
          rw [findByIdL_cons, ho]
          exact he)]
      · have hxc : x ∈ elemIds c := findById_mem_of_some c x r ho
        have hncs : x ∉ elemIdsL cs := hdisj x hxc
        rw [spliceAfterL_absent cs x tl' ins hncs]
        rw [innerText_spliceAfterN c x tl' ins hndc (fun e he => by
          apply hsp
          rw [findByIdL_cons, he])]
        rw [tail_spliceAfter x tl' ins c]
end

mutual
/-- `mapById` preserves the tree's text content when the rewrite keeps the
found node's inner text and tail. -/
theorem innerText_mapByIdN : ∀ (t : Elem) (x : Nat) (f : Elem → Elem),
    List.Nodup (elemIds t) →
    (∀ e, findById t x = some e →
      innerText (f e) = innerText e ∧ (f e).tail = e.tail) →
    innerText (mapById f t x) = innerText t
  | .mk j tg a tx kids tl, x, f => fun hnd h1 => by
    by_cases hj : j = x
    · rw [show mapById f (.mk j tg a tx kids tl) x = f (.mk j tg a tx kids tl) by
        simp [mapById, hj]]
      exact (h1 _ (by unfold findById; rw [if_pos hj])).1
    · rw [show mapById f (.mk j tg a tx kids tl) x =
          .mk j tg a tx (mapByIdL f kids x) tl by simp [mapById, hj]]
      unfold innerText
      obtain ⟨hjk, hndk⟩ := nodup_elemIds_parts j tg a tx kids tl hnd
      rw [innerTextL_mapByIdLN kids x f hndk (fun e he => h1 e (by
        unfold findById; rw [if_neg hj]; exact he))]
theorem innerTextL_mapByIdLN : ∀ (l : List Elem) (x : Nat) (f : Elem → Elem),
    List.Nodup (elemIdsL l) →
    (∀ e, findByIdL l x = some e →
      innerText (f e) = innerText e ∧ (f e).tail = e.tail) →
    innerTextL (mapByIdL f l x) = innerTextL l
  | [], _, _ => fun _ _ => rfl
  | c :: cs, x, f => fun hnd h1 => by
    obtain ⟨hndc, hndcs, hdisj⟩ := nodup_elemIdsL_parts c cs hnd
    unfold mapByIdL
    rw [innerTextL_cons, innerTextL_cons]
    rcases ho : findById c x with _ | r
    · have hnc : x ∉ elemIds c := by
        intro hq
        have := (findById_isSome_iff c x).mpr hq
        rw [ho] at this
        exact Bool.noConfusion this
      rw [mapById_absent c x f hnc]
      rw [innerTextL_mapByIdLN cs x f hndcs (fun e he => h1 e (by
        rw [findByIdL_cons, ho]; exact he))]
    · have hxc : x ∈ elemIds c := findById_mem_of_some c x r ho
      have hncs : x ∉ elemIdsL cs := hdisj x hxc
      rw [mapByIdL_absent cs x f hncs]
      rw [innerText_mapByIdN c x f hndc (fun e he => h1 e (by
        rw [findByIdL_cons, he]))]
      rw [tail_mapByIdN c x f (fun e he => (h1 e (by
        rw [findByIdL_cons, he])).2)]
end

/-! ## Marker predicates and candidate strings -/

/-- An annotation element inserted by this run: marker tag, fresh id. -/
def isMarker (cfg : CitCfg) (b : Nat) : Elem → Bool :=
  fun e => e.tag == cfg.markerTag && decide (b ≤ e.eid)

/-- An annotation element inserted by this run carrying text `τ`. -/
def isMarkerTxt (cfg : CitCfg) (b : Nat) (τ : String) : Elem → Bool :=
  fun e => (e.tag == cfg.markerTag && e.text == τ) && decide (b ≤ e.eid)

/-- A marker-tagged element that predates this run (low id). -/
def isOldMarker (cfg : CitCfg) (b : Nat) : Elem → Bool :=
  fun e => e.tag == cfg.markerTag && !decide (b ≤ e.eid)

theorem isMarker_structBlind (cfg : CitCfg) (b : Nat) :
    StructBlind (isMarker cfg b) :=
  ⟨fun e s => by simp [isMarker], fun e k => by simp [isMarker]⟩

theorem isMarkerTxt_structBlind (cfg : CitCfg) (b : Nat) (τ : String) :
    StructBlind (isMarkerTxt cfg b τ) :=
  ⟨fun e s => by simp [isMarkerTxt], fun e k => by simp [isMarkerTxt]⟩

theorem isOldMarker_structBlind (cfg : CitCfg) (b : Nat) :
    StructBlind (isOldMarker cfg b) :=
  ⟨fun e s => by simp [isOldMarker], fun e k => by simp [isOldMarker]⟩

theorem chainStuff_count_ge (cfg : CitCfg) (p : Elem → Bool) :
    ∀ (n : Nat) (ms : List EMatch), ms.length = n → ∀ (nid : Nat) (s : String),
    (∀ i, nid ≤ i → ∀ (atr : List (String × String)) (txt tlx : String),
      p (Elem.mk i cfg.markerTag atr txt [] tlx) = true) →
    countNodesL p (chainStuff cfg nid ms s).2.1 = n := by
  intro n
  induction n with
  | zero =>
    intro ms hms nid s hp
    rw [List.length_eq_zero] at hms
    subst hms
    rw [chainStuff_nil]
    exact countNodesL_nil p
  | succ k ih =>
    intro ms hms nid s hp
    rcases ms with _ | ⟨m, ms'⟩
    · simp at hms
    · rw [chainStuff_cons]
      dsimp only
      rw [countNodesL_cons]
      rw [ih (ms'.map (shiftM m.stop)) (by
        simp only [List.length_cons] at hms
        simpa using hms) (nid + 1) (ssubI s m.stop (slen s))
        (fun i hi => hp i (by omega))]
      rw [show countNodes p (Elem.mk nid cfg.markerTag
          [("href", cfg.makeHref m)] m.text []
          (chainStuff cfg (nid + 1) (ms'.map (shiftM m.stop))
            (ssubI s m.stop (slen s))).1) = 1 by
        unfold countNodes
        rw [hp nid (le_refl _), countNodesL_nil]
        simp]
      omega

theorem chainStuff_count_zero (cfg : CitCfg) (p : Elem → Bool) :
    ∀ (n : Nat) (ms : List EMatch), ms.length = n → ∀ (nid : Nat) (s : String),
    (∀ i, nid ≤ i → ∀ (atr : List (String × String)) (txt tlx : String),
      p (Elem.mk i cfg.markerTag atr txt [] tlx) = false) →
    countNodesL p (chainStuff cfg nid ms s).2.1 = 0 := by
  intro n
  induction n with
  | zero =>
    intro ms hms nid s hp
    rw [List.length_eq_zero] at hms
    subst hms
    rw [chainStuff_nil]
    exact countNodesL_nil p
  | succ k ih =>
    intro ms hms nid s hp
    rcases ms with _ | ⟨m, ms'⟩
    · simp at hms
    · rw [chainStuff_cons]
      dsimp only
      rw [countNodesL_cons]
      rw [ih (ms'.map (shiftM m.stop)) (by
        simp only [List.length_cons] at hms
        simpa using hms) (nid + 1) (ssubI s m.stop (slen s))
        (fun i hi => hp i (by omega))]
      rw [show countNodes p (Elem.mk nid cfg.markerTag
          [("href", cfg.makeHref m)] m.text []
          (chainStuff cfg (nid + 1) (ms'.map (shiftM m.stop))
            (ssubI s m.stop (slen s))).1) = 0 by
        unfold countNodes
        rw [hp nid (le_refl _), countNodesL_nil]
        simp]

theorem chainStuff_present_ge (cfg : CitCfg) (b : Nat) :
    ∀ (n : Nat) (ms : List EMatch), ms.length = n →
    ∀ (nid : Nat), b ≤ nid → ∀ (s τ : String),
    τ ∈ ms.map (fun m => m.text) →
    1 ≤ countNodesL (isMarkerTxt cfg b τ) (chainStuff cfg nid ms s).2.1 := by
  intro n
  induction n with
  | zero =>
    intro ms hms nid hb s τ hτ
    rw [List.length_eq_zero] at hms
    subst hms
    simp at hτ
  | succ k ih =>
    intro ms hms nid hb s τ hτ
    rcases ms with _ | ⟨m, ms'⟩
    · simp at hms
    · rw [chainStuff_cons]
      dsimp only
      rw [countNodesL_cons]
      rcases List.mem_cons.mp (by simpa using hτ :
          τ ∈ m.text :: ms'.map (fun m => m.text)) with h | h
      · have : countNodes (isMarkerTxt cfg b τ)
            (Elem.mk nid cfg.markerTag [("href", cfg.makeHref m)] m.text []
              (chainStuff cfg (nid + 1) (ms'.map (shiftM m.stop))
                (ssubI s m.stop (slen s))).1) = 1 := by
          unfold countNodes
          rw [countNodesL_nil]
          simp [isMarkerTxt, h.symm, hb]
        omega
      · have := ih (ms'.map (shiftM m.stop)) (by
          simp only [List.length_cons] at hms
          simpa using hms) (nid + 1) (by omega) (ssubI s m.stop (slen s)) τ
          (by simpa using h)
        omega

mutual
/-- The candidate strings of the default xpath, in document order, parallel
to `slotsOf`: a node's own text, then per child its candidate strings
followed by its tail. -/
def slotStrings : Elem → List String
  | .mk _ _ _ tx kids _ =>
    (if tx = "" then [] else [tx]) ++ slotStringsKids kids
def slotStringsKids : List Elem → List String
  | [] => []
  | c :: cs =>
    slotStrings c ++ (if c.tail = "" then [] else [c.tail]) ++ slotStringsKids cs
end

/-- Total number of matches over a list of strings, each scanned once. -/
def totalMatches (cfg : CitCfg) (l : List String) : Nat :=
  (l.map (fun s => (cfg.findM s).length)).sum

theorem totalMatches_nil (cfg : CitCfg) : totalMatches cfg [] = 0 := rfl

theorem totalMatches_append (cfg : CitCfg) (l1 l2 : List String) :
    totalMatches cfg (l1 ++ l2) = totalMatches cfg l1 + totalMatches cfg l2 := by
  simp [totalMatches]

theorem totalMatches_one (cfg : CitCfg) (s : String) :
    totalMatches cfg [s] = (cfg.findM s).length := by
  simp [totalMatches]

theorem slotsOf_mk (j : Nat) (tg : String) (a : List (String × String))
    (tx : String) (kids : List Elem) (tl : String) :
    slotsOf (.mk j tg a tx kids tl) =
      (if tx = "" then [] else [(j, false)]) ++ slotsOfKids kids := by
  conv_lhs => unfold slotsOf

theorem slotsOfKids_nil : slotsOfKids [] = [] := by
  unfold slotsOfKids
  rfl

theorem slotsOfKids_cons (c : Elem) (cs : List Elem) :
    slotsOfKids (c :: cs) =
      slotsOf c ++ (if c.tail = "" then [] else [(c.eid, true)]) ++
        slotsOfKids cs := by
  conv_lhs => unfold slotsOfKids

theorem slotStrings_mk (j : Nat) (tg : String) (a : List (String × String))
    (tx : String) (kids : List Elem) (tl : String) :
    slotStrings (.mk j tg a tx kids tl) =
      (if tx = "" then [] else [tx]) ++ slotStringsKids kids := by
  conv_lhs => unfold slotStrings

theorem slotStringsKids_nil : slotStringsKids [] = [] := by
  unfold slotStringsKids
  rfl

theorem slotStringsKids_cons (c : Elem) (cs : List Elem) :
    slotStringsKids (c :: cs) =
      slotStrings c ++ (if c.tail = "" then [] else [c.tail]) ++
        slotStringsKids cs := by
  conv_lhs => unfold slotStringsKids

/-! ## The per-candidate step, packaged -/

/-- Well-formedness of the running DOM state: clean root tail, distinct ids
all below the id counter, counter at or above the run's base `b`. -/
def DomInv (b : Nat) (st : DomState) : Prop :=
  st.tree.tail = "" ∧ List.Nodup (elemIds st.tree) ∧
  (∀ z ∈ elemIds st.tree, z < st.nextId) ∧ b ≤ st.nextId

/-- Net effect of consuming the string `s` held as the tail of node `x`. -/
def chainSplice (cfg : CitCfg) (st : DomState) (x : Nat) (s : String) : DomState :=
  { tree := if (cfg.findM s).length = 0 then st.tree
      else spliceAfter x (chainStuff cfg st.nextId (cfg.findM s) s).1
        (chainStuff cfg st.nextId (cfg.findM s) s).2.1 st.tree,
    cits := st.cits ++ (chainStuff cfg st.nextId (cfg.findM s) s).2.2,
    nextId := st.nextId + (cfg.findM s).length }

/-- Net effect of consuming the string `s` held as the own text of node `x`
(the marker chain becomes the node's new leading children). -/
def textSplice (cfg : CitCfg) (st : DomState) (x : Nat) (s : String) : DomState :=
  { tree := mapById (fun y =>
      Elem.setChildren (y.setText (chainStuff cfg st.nextId (cfg.findM s) s).1)
        ((chainStuff cfg st.nextId (cfg.findM s) s).2.1 ++ y.children))
      st.tree x,
    cits := st.cits ++ (chainStuff cfg st.nextId (cfg.findM s) s).2.2,
    nextId := st.nextId + (cfg.findM s).length }

/-- Bookkeeping common to every engine step: `tot` citations appended, `tot`
fresh markers added, low-id markers and text content untouched, per-text
marker counts monotone, state well-formedness kept. -/
def StepPost (cfg : CitCfg) (b : Nat) (st res : DomState) (tot : Nat) : Prop :=
  res.cits.length = st.cits.length + tot ∧
  countNodes (isMarker cfg b) res.tree =
    countNodes (isMarker cfg b) st.tree + tot ∧
  countNodes (isOldMarker cfg b) res.tree =
    countNodes (isOldMarker cfg b) st.tree ∧
  innerText res.tree = innerText st.tree ∧
  (∀ τ, countNodes (isMarkerTxt cfg b τ) st.tree ≤
    countNodes (isMarkerTxt cfg b τ) res.tree) ∧
  DomInv b res ∧ st.nextId ≤ res.nextId

theorem StepPost_zero (cfg : CitCfg) (b : Nat) (st : DomState)
    (hInv : DomInv b st) : StepPost cfg b st st 0 :=
  ⟨rfl, rfl, rfl, rfl, fun _ => le_refl _, hInv, le_refl _⟩

theorem StepPost_trans (cfg : CitCfg) (b : Nat) (st₁ st₂ st₃ : DomState)
    (t₁ t₂ : Nat) (h1 : StepPost cfg b st₁ st₂ t₁)
    (h2 : StepPost cfg b st₂ st₃ t₂) : StepPost cfg b st₁ st₃ (t₁ + t₂) := by
  obtain ⟨a1, a2, a3, a4, a5, a6, a7⟩ := h1
  obtain ⟨c1, c2, c3, c4, c5, c6, c7⟩ := h2
  refine ⟨by omega, by omega, by omega, a4 ▸ c4, ?_, c6, le_trans a7 c7⟩
  intro τ
  exact le_trans (a5 τ) (c5 τ)

theorem length_eq_zero_findM (cfg : CitCfg) (s : String)
    (h : (cfg.findM s).length = 0) : cfg.findM s = [] :=
  List.length_eq_zero.mp h

/-- Everything the fold needs to know about one tail-consuming step. -/
theorem tailChainPost (cfg : CitCfg) (hOk : FindOk cfg.findM)
    (hAV : AllValid cfg) (b : Nat) (st : DomState) (x : Nat) (v : Elem)
    (hv : findById st.tree x = some v) (hInv : DomInv b st) (hxb : x < b) :
    StepPost cfg b st (chainSplice cfg st x v.tail) (cfg.findM v.tail).length ∧
    (∀ m ∈ cfg.findM v.tail, 1 ≤ countNodes (isMarkerTxt cfg b m.text)
      (chainSplice cfg st x v.tail).tree) ∧
    (∀ y, y < b → y ≠ x →
      obsAt (chainSplice cfg st x v.tail).tree y = obsAt st.tree y) ∧
    (∃ v₂, findById (chainSplice cfg st x v.tail).tree x = some v₂ ∧
      v₂.text = v.text ∧ cfg.findM v₂.tail = []) := by
  obtain ⟨hrt, hnd, hbound, hble⟩ := hInv
  by_cases hzero : (cfg.findM v.tail).length = 0
  · have hnil : cfg.findM v.tail = [] := length_eq_zero_findM cfg v.tail hzero
    have heq : chainSplice cfg st x v.tail = st := by
      rcases st with ⟨t, cits, nid⟩
      simp [chainSplice, hnil, chainStuff_nil]
    rw [heq, hzero]
    refine ⟨StepPost_zero cfg b st ⟨hrt, hnd, hbound, hble⟩, ?_, ?_, ?_⟩
    · intro m hm
      rw [hnil] at hm
      exact absurd hm (List.not_mem_nil m)
    · intro y _ _
      rfl
    · exact ⟨v, hv, rfl, by rw [hnil]⟩
  · have hvx : v.eid = x := findById_eid _ _ _ hv
    have hvne : v.tail ≠ "" := fun he => hzero (by rw [he, findM_empty cfg hOk]; rfl)
    have hxroot : x ≠ st.tree.eid := by
      intro he
      have h2 : findById st.tree x = some st.tree := by
        rw [he]; exact findById_root _
      rw [hv] at h2
      injection h2 with hh
      rw [hh, hrt] at hvne
      exact hvne rfl
    have hxm : x ∈ elemIds st.tree := findById_mem_of_some _ _ _ hv
    have hids : elemIdsL (chainStuff cfg st.nextId (cfg.findM v.tail) v.tail).2.1 =
        List.range' st.nextId (cfg.findM v.tail).length :=
      chainStuff_ids cfg _ _ rfl st.nextId v.tail
    have hfresh : ∀ z ∈ elemIdsL
        (chainStuff cfg st.nextId (cfg.findM v.tail) v.tail).2.1,
        z ∉ elemIds st.tree := by
      intro z hz
      rw [hids] at hz
      have := (List.mem_range'_1.mp hz).1
      intro hq
      exact absurd (hbound z hq) (by omega)
    have htree : (chainSplice cfg st x v.tail).tree =
        spliceAfter x (chainStuff cfg st.nextId (cfg.findM v.tail) v.tail).1
          (chainStuff cfg st.nextId (cfg.findM v.tail) v.tail).2.1 st.tree := by
      unfold chainSplice
      dsimp only
      rw [if_neg hzero]
    have hlen := chainStuff_len cfg (cfg.findM v.tail).length (cfg.findM v.tail)
      rfl st.nextId v.tail
    refine ⟨⟨?_, ?_, ?_, ?_, ?_, ⟨?_, ?_, ?_, ?_⟩, ?_⟩, ?_, ?_, ?_⟩
    · show (st.cits ++ _).length = _
      rw [List.length_append, hlen.2]
    · rw [htree]
      rw [countNodes_spliceAfter st.tree x _ _ _ (isMarker_structBlind cfg b)
        hnd hxm hxroot]
      rw [chainStuff_count_ge cfg _ _ _ rfl st.nextId v.tail
        (fun i hi atr txt tlx => by simp [isMarker]; omega)]
    · rw [htree]
      rw [countNodes_spliceAfter st.tree x _ _ _ (isOldMarker_structBlind cfg b)
        hnd hxm hxroot]
      rw [chainStuff_count_zero cfg _ _ _ rfl st.nextId v.tail
        (fun i hi atr txt tlx => by simp [isOldMarker]; omega)]
      omega
    · rw [htree]
      apply innerText_spliceAfterN st.tree x _ _ hnd
      intro e he
      rw [hv] at he
      injection he with hh
      rw [← hh]
      exact chainStuff_text cfg hOk _ _ rfl st.nextId v.tail rfl
    · intro τ
      rw [htree]
      rw [countNodes_spliceAfter st.tree x _ _ _ (isMarkerTxt_structBlind cfg b τ)
        hnd hxm hxroot]
      omega
    · rw [htree, tail_spliceAfter]
      exact hrt
    · rw [htree]
      apply nodup_elemIds_spliceAfter st.tree x _ _ hnd
      · rw [hids]
        exact List.nodup_range' _ _
      · exact hfresh
    · intro z hz
      rw [htree] at hz
      rcases mem_elemIds_spliceAfter _ _ _ _ z hz with h | h
      · have := hbound z h
        show z < st.nextId + (cfg.findM v.tail).length
        omega
      · rw [hids] at h
        have := (List.mem_range'_1.mp h).2
        show z < st.nextId + (cfg.findM v.tail).length
        omega
    · show b ≤ st.nextId + (cfg.findM v.tail).length
      omega
    · show st.nextId ≤ st.nextId + (cfg.findM v.tail).length
      omega
    · intro m hm
      rw [htree]
      rw [countNodes_spliceAfter st.tree x _ _ _
        (isMarkerTxt_structBlind cfg b m.text) hnd hxm hxroot]
      have := chainStuff_present_ge cfg b _ _ rfl st.nextId hble v.tail m.text
        (List.mem_map_of_mem _ hm)
      omega
    · intro y hyb hyx
      rw [htree]
      apply obsAt_spliceAfter_ne st.tree x y _ _ hyx
      rw [hids]
      intro hq
      have := (List.mem_range'_1.mp hq).1
      omega
    · rw [htree]
      refine ⟨v.setTail (chainStuff cfg st.nextId (cfg.findM v.tail) v.tail).1,
        ?_, by simp, ?_⟩
      · rw [findById_spliceAfter_self st.tree x _ _ ?hins (fun h => hxroot h.symm)]
        · rw [hv]
          rfl
        case hins =>
          rw [hids]
          intro hq
          have := (List.mem_range'_1.mp hq).1
          omega
      · rw [show (v.setTail
            (chainStuff cfg st.nextId (cfg.findM v.tail) v.tail).1).tail =
            (chainStuff cfg st.nextId (cfg.findM v.tail) v.tail).1 from by simp]
        exact chainStuff_remnant cfg hOk _ v.tail rfl st.nextId

mutual
/-- Conditioned variant of `nodup_elemIds_mapById`: the rewrite need only
keep ids distinct at the node actually found. -/
theorem nodup_elemIds_mapByIdN : ∀ (t : Elem) (x : Nat) (f : Elem → Elem)
    (fresh : List Nat),
    (∀ e, e.eid = x → ∀ w ∈ elemIds (f e), w ∈ elemIds e ∨ w ∈ fresh) →
    (∀ e, findById t x = some e →
      List.Nodup (elemIds e) → List.Nodup (elemIds (f e))) →
    List.Nodup (elemIds t) → (∀ z ∈ fresh, z ∉ elemIds t) →
    List.Nodup (elemIds (mapById f t x))
  | .mk j tg a tx kids tl, x, f, fresh => fun hmem hfnd hnd hdisj => by
    by_cases hj : j = x
    · rw [show mapById f (.mk j tg a tx kids tl) x = f (.mk j tg a tx kids tl) by
        simp [mapById, hj]]
      exact hfnd _ (by unfold findById; rw [if_pos hj]) hnd
    · rw [show mapById f (.mk j tg a tx kids tl) x =
          .mk j tg a tx (mapByIdL f kids x) tl by simp [mapById, hj]]
      obtain ⟨hjk, hndk⟩ := nodup_elemIds_parts j tg a tx kids tl hnd
      unfold elemIds
      rw [List.nodup_cons]
      refine ⟨?_, ?_⟩
      · intro hjm
        rcases mem_elemIdsL_mapByIdL kids x f fresh j hmem hjm with h | h
        · exact hjk h
        · exact hdisj j h (by unfold elemIds; exact List.mem_cons_self _ _)
      · exact nodupL_elemIds_mapByIdLN kids x f fresh hmem (fun e he => hfnd e (by
          unfold findById; rw [if_neg hj]; exact he)) hndk
          (fun z hz hzk => hdisj z hz
            (by unfold elemIds; exact List.mem_cons_of_mem _ hzk))
theorem nodupL_elemIds_mapByIdLN : ∀ (l : List Elem) (x : Nat) (f : Elem → Elem)
    (fresh : List Nat),
    (∀ e, e.eid = x → ∀ w ∈ elemIds (f e), w ∈ elemIds e ∨ w ∈ fresh) →
    (∀ e, findByIdL l x = some e →
      List.Nodup (elemIds e) → List.Nodup (elemIds (f e))) →
    List.Nodup (elemIdsL l) → (∀ z ∈ fresh, z ∉ elemIdsL l) →
    List.Nodup (elemIdsL (mapByIdL f l x))
  | [], x, f, fresh => fun _ _ _ _ => by
    rw [show mapByIdL f [] x = [] from rfl, elemIdsL_nil]
    exact List.nodup_nil
  | c :: cs, x, f, fresh => fun hmem hfnd hnd hdisj => by
    obtain ⟨hndc, hndcs, hdj⟩ := nodup_elemIdsL_parts c cs hnd
    unfold mapByIdL
    rw [elemIdsL_cons]
    rcases ho : findById c x with _ | r
    · have hnc : x ∉ elemIds c := by
        intro hq
        have := (findById_isSome_iff c x).mpr hq
        rw [ho] at this
        exact Bool.noConfusion this
      rw [mapById_absent c x f hnc]
      refine List.nodup_append.mpr ⟨hndc, ?_, ?_⟩
      · exact nodupL_elemIds_mapByIdLN cs x f fresh hmem (fun e he =>
          hfnd e (by rw [findByIdL_cons, ho]; exact he)) hndcs
          (fun z hz hzk => hdisj z hz
            (by rw [elemIdsL_cons]; exact List.mem_append.mpr (Or.inr hzk)))
      · intro a ha hamem
        rcases mem_elemIdsL_mapByIdL cs x f fresh a hmem hamem with h | h
        · exact hdj a ha h
        · exact hdisj a h
            (by rw [elemIdsL_cons]; exact List.mem_append.mpr (Or.inl ha))
    · have hxc : x ∈ elemIds c := findById_mem_of_some c x r ho
      have hncs : x ∉ elemIdsL cs := hdj x hxc
      rw [mapByIdL_absent cs x f hncs]
      refine List.nodup_append.mpr ⟨?_, hndcs, ?_⟩
      · exact nodup_elemIds_mapByIdN c x f fresh hmem (fun e he =>
          hfnd e (by rw [findByIdL_cons, he])) hndc
          (fun z hz hzk => hdisj z hz
            (by rw [elemIdsL_cons]; exact List.mem_append.mpr (Or.inl hzk)))
      · intro a ha hamem
        rcases mem_elemIds_mapById c x f fresh a hmem ha with h | h
        · exact hdj a h hamem
        · exact hdisj a h
            (by rw [elemIdsL_cons]; exact List.mem_append.mpr (Or.inr hamem))
end

/-- Counting after prepending a fixed chain to the children of node `x` and
replacing its text: the chain's count is added, provided the predicate
ignores structure and ignores the text change at `x`. -/
theorem countNodes_mapPrepend (t : Elem) (x : Nat) (s0 : String)
    (ch : List Elem) (p : Elem → Bool) (hp : StructBlind p)
    (hp2 : ∀ e, e.eid = x → p (e.setText s0) = p e)
    (hnd : List.Nodup (elemIds t)) (hxm : x ∈ elemIds t) :
    countNodes p (mapById (fun y =>
      Elem.setChildren (y.setText s0) (ch ++ y.children)) t x) =
      countNodes p t + countNodesL p ch := by
  apply countNodes_mapById t x _ p (countNodesL p ch) hp ?_ hnd hxm
  intro e he
  have hhead : p ((e.setText s0).setChildren (ch ++ e.children)) = p e := by
    rw [hp.2, hp2 e he]
  rcases e with ⟨j, tg2, a2, tx2, kids2, tl2⟩
  simp only [Elem.setText_mk, Elem.setChildren_mk, Elem.children_mk] at hhead ⊢
  unfold countNodes
  rw [countNodesL_append, hhead]
  omega

theorem innerText_eq (e : Elem) :
    innerText e = e.text ++ innerTextL e.children := by
  rcases e with ⟨j, tg, a, tx, kids, tl⟩
  unfold innerText
  rfl

theorem innerText_setChildren (e : Elem) (k : List Elem) :
    innerText (e.setChildren k) = e.text ++ innerTextL k := by
  rcases e with ⟨j, tg, a, tx, kids, tl⟩
  unfold innerText
  simp

theorem elemIds_eq (e : Elem) :
    elemIds e = e.eid :: elemIdsL e.children := by
  rcases e with ⟨j, tg, a, tx, kids, tl⟩
  unfold elemIds
  rfl

theorem elemIds_setChildren (e : Elem) (k : List Elem) :
    elemIds (e.setChildren k) = e.eid :: elemIdsL k := by
  rcases e with ⟨j, tg, a, tx, kids, tl⟩
  unfold elemIds
  simp

/-- Everything the fold needs to know about one own-text-consuming step. -/
theorem textChainPost (cfg : CitCfg) (hOk : FindOk cfg.findM)
    (hAV : AllValid cfg) (b : Nat) (st : DomState) (x : Nat) (v : Elem)
    (hv : findById st.tree x = some v) (hInv : DomInv b st) (hxb : x < b) :
    StepPost cfg b st (textSplice cfg st x v.text) (cfg.findM v.text).length ∧
    (∀ m ∈ cfg.findM v.text, 1 ≤ countNodes (isMarkerTxt cfg b m.text)
      (textSplice cfg st x v.text).tree) ∧
    (∀ y, y < b → y ≠ x →
      obsAt (textSplice cfg st x v.text).tree y = obsAt st.tree y) ∧
    (∃ v₂, findById (textSplice cfg st x v.text).tree x = some v₂ ∧
      v₂.tail = v.tail ∧ cfg.findM v₂.text = []) := by
  obtain ⟨hrt, hnd, hbound, hble⟩ := hInv
  have hvx : v.eid = x := findById_eid _ _ _ hv
  have hxm : x ∈ elemIds st.tree := findById_mem_of_some _ _ _ hv
  have hids : elemIdsL (chainStuff cfg st.nextId (cfg.findM v.text) v.text).2.1 =
      List.range' st.nextId (cfg.findM v.text).length :=
    chainStuff_ids cfg _ _ rfl st.nextId v.text
  have htree : (textSplice cfg st x v.text).tree = mapById (fun y =>
      Elem.setChildren
        (y.setText (chainStuff cfg st.nextId (cfg.findM v.text) v.text).1)
        ((chainStuff cfg st.nextId (cfg.findM v.text) v.text).2.1 ++ y.children))
      st.tree x := rfl
  have hlen := chainStuff_len cfg (cfg.findM v.text).length (cfg.findM v.text)
    rfl st.nextId v.text
  have hmemf : ∀ e : Elem, e.eid = x → ∀ w ∈ elemIds (Elem.setChildren
      (e.setText (chainStuff cfg st.nextId (cfg.findM v.text) v.text).1)
      ((chainStuff cfg st.nextId (cfg.findM v.text) v.text).2.1 ++ e.children)),
      w ∈ elemIds e ∨ w ∈ List.range' st.nextId (cfg.findM v.text).length := by
    intro e he w hw
    rcases e with ⟨j, tg2, a2, tx2, kids2, tl2⟩
    simp only [Elem.setText_mk, Elem.setChildren_mk, Elem.children_mk] at hw
    have hw2 : w = j ∨ w ∈ elemIdsL
        ((chainStuff cfg st.nextId (cfg.findM v.text) v.text).2.1 ++ kids2) := by
      unfold elemIds at hw
      exact List.mem_cons.mp hw
    rcases hw2 with h' | h'
    · exact Or.inl (by unfold elemIds; exact List.mem_cons.mpr (Or.inl h'))
    · rw [elemIdsL_append, hids] at h'
      rcases List.mem_append.mp h' with h'' | h''
      · exact Or.inr h''
      · exact Or.inl (by unfold elemIds; exact List.mem_cons.mpr (Or.inr h''))
  have hfne : ∀ (e : Elem) (y : Nat), y < b → y ≠ x → e.eid = x → findById
      (Elem.setChildren
        (e.setText (chainStuff cfg st.nextId (cfg.findM v.text) v.text).1)
        ((chainStuff cfg st.nextId (cfg.findM v.text) v.text).2.1 ++ e.children))
      y = findById e y := by
    intro e y hyb hyx he
    rcases e with ⟨j, tg2, a2, tx2, kids2, tl2⟩
    simp only [Elem.eid_mk] at he
    have hjy : ¬(j = y) := by rw [he]; exact fun h => hyx h.symm
    simp only [Elem.setText_mk, Elem.setChildren_mk, Elem.children_mk]
    unfold findById
    rw [if_neg hjy, if_neg hjy]
    rw [findByIdL_append]
    rw [findByIdL_eq_none _ y (by
      rw [hids]
      intro hq
      have := (List.mem_range'_1.mp hq).1
      omega)]
  refine ⟨⟨?_, ?_, ?_, ?_, ?_, ⟨?_, ?_, ?_, ?_⟩, ?_⟩, ?_, ?_, ?_⟩
  · show (st.cits ++ _).length = _
    rw [List.length_append, hlen.2]
  · rw [htree]
    rw [countNodes_mapPrepend st.tree x _ _ _ (isMarker_structBlind cfg b)
      (fun e he => by simp [isMarker]) hnd hxm]
    rw [chainStuff_count_ge cfg _ _ _ rfl st.nextId v.text
      (fun i hi atr txt tlx => by simp [isMarker]; omega)]
  · rw [htree]
    rw [countNodes_mapPrepend st.tree x _ _ _ (isOldMarker_structBlind cfg b)
      (fun e he => by simp [isOldMarker]) hnd hxm]
    rw [chainStuff_count_zero cfg _ _ _ rfl st.nextId v.text
      (fun i hi atr txt tlx => by simp [isOldMarker]; omega)]
    omega
  · rw [htree]
    refine innerText_mapByIdN st.tree x _ hnd ?_
    intro e he
    rw [hv] at he
    injection he with hh
    subst hh
    constructor
    · rw [innerText_setChildren, Elem.text_setText, innerTextL_append]
      rw [← String.append_assoc]
      rw [chainStuff_text cfg hOk _ _ rfl st.nextId _ rfl]
      rw [innerText_eq]
    · simp
  · intro τ
    rw [htree]
    rw [countNodes_mapPrepend st.tree x _ _ _ (isMarkerTxt_structBlind cfg b τ)
      (fun e he => by
        have hje : ¬ b ≤ e.eid := by rw [he]; omega
        simp [isMarkerTxt, hje]) hnd hxm]
    omega
  · rw [htree]
    rw [tail_mapByIdN st.tree x _ (fun e he => by simp)]
    exact hrt
  · rw [htree]
    apply nodup_elemIds_mapByIdN st.tree x _
      (List.range' st.nextId (cfg.findM v.text).length) hmemf ?_ hnd ?_
    · intro e he hnde
      rw [hv] at he
      injection he with hh
      subst hh
      rw [elemIds_setChildren, Elem.eid_setText, elemIdsL_append, hids]
      rw [elemIds_eq] at hnde
      obtain ⟨hjk, hndk⟩ := List.nodup_cons.mp hnde
      have hsub : ∀ z ∈ elemIdsL v.children, z < st.nextId := by
        intro z hz
        apply hbound
        apply findById_sub_mem st.tree x _ hv
        rw [elemIds_eq]
        exact List.mem_cons_of_mem _ hz
      rw [List.nodup_cons]
      constructor
      · intro hq
        rcases List.mem_append.mp hq with h | h
        · have hj : v.eid < st.nextId := by
            apply hbound
            apply findById_sub_mem st.tree x _ hv
            exact eid_mem_elemIds v
          have := (List.mem_range'_1.mp h).1
          omega
        · exact hjk h
      · refine List.nodup_append.mpr ⟨List.nodup_range' _ _, hndk, ?_⟩
        intro a ha hak
        have ha1 := (List.mem_range'_1.mp ha).1
        have ha2 : a < st.nextId := hsub a hak
        omega
    · intro z hz
      have := (List.mem_range'_1.mp hz).1
      intro hq
      exact absurd (hbound z hq) (by omega)
  · intro z hz
    rw [htree] at hz
    rcases mem_elemIds_mapById st.tree x _
        (List.range' st.nextId (cfg.findM v.text).length) z hmemf hz with h | h
    · have := hbound z h
      show z < st.nextId + (cfg.findM v.text).length
      omega
    · have := (List.mem_range'_1.mp h).2
      show z < st.nextId + (cfg.findM v.text).length
      omega
  · show b ≤ st.nextId + (cfg.findM v.text).length
    omega
  · show st.nextId ≤ st.nextId + (cfg.findM v.text).length
    omega
  · intro m hm
    rw [htree]
    rw [countNodes_mapPrepend st.tree x _ _ _
      (isMarkerTxt_structBlind cfg b m.text)
      (fun e he => by
        have hje : ¬ b ≤ e.eid := by rw [he]; omega
        simp [isMarkerTxt, hje]) hnd hxm]
    have := chainStuff_present_ge cfg b _ _ rfl st.nextId hble v.text m.text
      (List.mem_map_of_mem _ hm)
    omega
  · intro y hyb hyx
    rw [htree]
    apply obsAt_mapById_ne st.tree x y _ hyx
    intro e he
    exact hfne e y hyb hyx he
  · rw [htree]
    have hself := obsAt_mapById_self st.tree x (fun y =>
      Elem.setChildren
        (y.setText (chainStuff cfg st.nextId (cfg.findM v.text) v.text).1)
        ((chainStuff cfg st.nextId (cfg.findM v.text) v.text).2.1 ++ y.children))
      (fun e => by simp)
    unfold obsAt at hself
    rw [hv] at hself
    rcases ho2 : findById (mapById (fun y =>
        Elem.setChildren
          (y.setText (chainStuff cfg st.nextId (cfg.findM v.text) v.text).1)
          ((chainStuff cfg st.nextId (cfg.findM v.text) v.text).2.1 ++
            y.children)) st.tree x) x with _ | v₂
    · rw [ho2] at hself
      simp at hself
    · rw [ho2] at hself
      simp only [Option.map] at hself
      have hh : (v₂.text, v₂.tail) =
          ((Elem.setChildren
            (v.setText (chainStuff cfg st.nextId (cfg.findM v.text) v.text).1)
            ((chainStuff cfg st.nextId (cfg.findM v.text) v.text).2.1 ++
              v.children)).text,
           (Elem.setChildren
            (v.setText (chainStuff cfg st.nextId (cfg.findM v.text) v.text).1)
            ((chainStuff cfg st.nextId (cfg.findM v.text) v.text).2.1 ++
              v.children)).tail) :=
        Option.some.inj hself
      have htx : v₂.text =
          (chainStuff cfg st.nextId (cfg.findM v.text) v.text).1 := by
        have h2 := congrArg Prod.fst hh
        simpa using h2
      have htl : v₂.tail = v.tail := by
        have h2 := congrArg Prod.snd hh
        simpa using h2
      refine ⟨v₂, rfl, htl, ?_⟩
      rw [htx]
      exact chainStuff_remnant cfg hOk _ v.text rfl st.nextId

theorem procTail_eq (cfg : CitCfg) (hOk : FindOk cfg.findM) (hAV : AllValid cfg)
    (st : DomState) (x : Nat) (v : Elem) (hv : findById st.tree x = some v)
    (hroot : st.tree.tail = "") (hbound : ∀ z ∈ elemIds st.tree, z < st.nextId) :
    processCandidate cfg st (x, true) = chainSplice cfg st x v.tail := by
  rw [procTail_spec cfg hOk hAV st x v hv hroot hbound]
  rfl

theorem procQuirk_eq (cfg : CitCfg) (hOk : FindOk cfg.findM) (hAV : AllValid cfg)
    (st : DomState) (x : Nat) (v : Elem) (hv : findById st.tree x = some v)
    (hq : cfg.findM v.text = []) (hroot : st.tree.tail = "")
    (hbound : ∀ z ∈ elemIds st.tree, z < st.nextId) :
    processCandidate cfg st (x, false) = chainSplice cfg st x v.tail := by
  rw [procText_quirk_spec cfg hOk hAV st x v hv hq hroot hbound]
  rfl

theorem procText_eq (cfg : CitCfg) (hOk : FindOk cfg.findM) (hAV : AllValid cfg)
    (st : DomState) (x : Nat) (v : Elem) (hv : findById st.tree x = some v)
    (hne : cfg.findM v.text ≠ []) (hroot : st.tree.tail = "")
    (hbound : ∀ z ∈ elemIds st.tree, z < st.nextId) :
    processCandidate cfg st (x, false) = textSplice cfg st x v.text := by
  rw [procText_spec cfg hOk hAV st x v hv hne hroot hbound]
  rfl

theorem StepPost_cast (cfg : CitCfg) (b : Nat) (st res : DomState)
    (t1 t2 : Nat) (h : t1 = t2) (hp : StepPost cfg b st res t1) :
    StepPost cfg b st res t2 := h ▸ hp

theorem obsAt_ne_eid (e : Elem) (y : Nat) (h : y ≠ e.eid) :
    obsAt e y = obsAtL e.children y := by
  rcases e with ⟨j, tg, a, tx, kids, tl⟩
  simp only [Elem.eid_mk] at h
  unfold obsAt obsAtL findById
  rw [if_neg (fun hh => h hh.symm)]
  rfl

theorem obsAt_self_eid (e : Elem) : obsAt e e.eid = some (e.text, e.tail) := by
  rcases e with ⟨j, tg, a, tx, kids, tl⟩
  unfold obsAt findById
  simp

theorem obsAt_extract (t : Elem) (y : Nat) (p q : String)
    (h : obsAt t y = some (p, q)) :
    ∃ v, findById t y = some v ∧ v.text = p ∧ v.tail = q := by
  unfold obsAt at h
  rcases ho : findById t y with _ | v
  · rw [ho] at h
    exact absurd h (by simp)
  · rw [ho] at h
    simp only [Option.map] at h
    have hh := Option.some.inj h
    exact ⟨v, rfl, congrArg Prod.fst hh, congrArg Prod.snd hh⟩

theorem totalMatches_cons (cfg : CitCfg) (s : String) (l : List String) :
    totalMatches cfg (s :: l) = (cfg.findM s).length + totalMatches cfg l := by
  simp [totalMatches]

mutual
/-- Folding the engine over all candidate slots inside one original subtree.
The subtree's recorded strings are consumed exactly once each; the holder's
tail is either untouched (`tn = 0`) or — when the own text existed but had
no match, so the trailing while-loop ran early — already consumed (`tn`
counts its matches and the leftover has none). -/
theorem domFoldElem : ∀ (c : Elem) (cfg : CitCfg), FindOk cfg.findM →
    AllValid cfg → ∀ (b : Nat) (st : DomState), DomInv b st →
    (∀ y ∈ elemIds c, y < b) → List.Nodup (elemIds c) →
    (∀ y ∈ elemIds c, obsAt st.tree y = obsAt c y) →
    ∀ (res : DomState), res = (slotsOf c).foldl (processCandidate cfg) st →
    ∃ tn v',
      findById res.tree c.eid = some v' ∧
      StepPost cfg b st res (totalMatches cfg (slotStrings c) + tn) ∧
      (∀ s ∈ slotStrings c, ∀ m ∈ cfg.findM s,
        1 ≤ countNodes (isMarkerTxt cfg b m.text) res.tree) ∧
      (∀ y, y < b → y ∉ elemIds c → obsAt res.tree y = obsAt st.tree y) ∧
      ((tn = 0 ∧ v'.tail = c.tail) ∨
       (tn = (cfg.findM c.tail).length ∧ cfg.findM v'.tail = [] ∧
        ∀ m ∈ cfg.findM c.tail,
          1 ≤ countNodes (isMarkerTxt cfg b m.text) res.tree))
  | .mk j tg a tx kids tl, cfg, hOk, hAV, b, st, hInv, hlow, hnd, hobs, res, hres => by
    obtain ⟨hjk, hndk⟩ := nodup_elemIds_parts j tg a tx kids tl hnd
    have hjb : j < b := hlow j (by unfold elemIds; exact List.mem_cons_self _ _)
    have hlowk : ∀ y ∈ elemIdsL kids, y < b := fun y hy =>
      hlow y (by unfold elemIds; exact List.mem_cons_of_mem _ hy)
    have hobsj : obsAt st.tree j = some (tx, tl) := by
      rw [hobs j (by unfold elemIds; exact List.mem_cons_self _ _)]
      exact obsAt_self_eid (Elem.mk j tg a tx kids tl)
    obtain ⟨w, hw, hwtx, hwtl⟩ := obsAt_extract st.tree j tx tl hobsj
    have hobsk : ∀ y ∈ elemIdsL kids, obsAt st.tree y = obsAtL kids y := by
      intro y hy
      rw [hobs y (by unfold elemIds; exact List.mem_cons_of_mem _ hy)]
      have hyj : y ≠ j := fun h => hjk (h ▸ hy)
      rw [show obsAt (Elem.mk j tg a tx kids tl) y = obsAtL kids y from
        obsAt_ne_eid (Elem.mk j tg a tx kids tl) y hyj]
    rw [slotsOf_mk] at hres
    by_cases htx : tx = ""
    · rw [if_pos htx, List.nil_append] at hres
      obtain ⟨hpostK, hpresK, hframeK⟩ :=
        domFoldKids kids cfg hOk hAV b st hInv hlowk hndk hobsk res hres
      have hobsx : obsAt res.tree j = some (tx, tl) := by
        rw [hframeK j hjb hjk, hobsj]
      obtain ⟨v', hv', hvtx', hvtl'⟩ := obsAt_extract res.tree j tx tl hobsx
      refine ⟨0, v', hv', ?_, ?_, ?_, Or.inl ⟨rfl, hvtl'⟩⟩
      · apply StepPost_cast cfg b st res _ _ ?heq1 hpostK
        case heq1 =>
          rw [slotStrings_mk, if_pos htx, List.nil_append]
          omega
      · intro s hs
        rw [slotStrings_mk, if_pos htx, List.nil_append] at hs
        exact hpresK s hs
      · intro y hyb hyc
        apply hframeK y hyb
        intro hq
        exact hyc (by unfold elemIds; exact List.mem_cons_of_mem _ hq)
    · rw [if_neg htx, List.singleton_append, List.foldl_cons] at hres
      by_cases hmt : cfg.findM tx = []
      · have hq : cfg.findM w.text = [] := by rw [hwtx]; exact hmt
        rw [show processCandidate cfg st (j, false) = chainSplice cfg st j w.tail
          from procQuirk_eq cfg hOk hAV st j w hw hq hInv.1 hInv.2.2.1] at hres
        obtain ⟨hpost2, hpres2, hframe2, ⟨v₂, hv₂, hv₂tx, hv₂nil⟩⟩ :=
          tailChainPost cfg hOk hAV b st j w hw hInv hjb
        have hobsk2 : ∀ y ∈ elemIdsL kids,
            obsAt (chainSplice cfg st j w.tail).tree y = obsAtL kids y := by
          intro y hy
          have hyj : y ≠ j := fun h => hjk (h ▸ hy)
          rw [hframe2 y (hlowk y hy) hyj, hobsk y hy]
        obtain ⟨hpostK, hpresK, hframeK⟩ :=
          domFoldKids kids cfg hOk hAV b (chainSplice cfg st j w.tail)
            hpost2.2.2.2.2.2.1 hlowk hndk hobsk2 res hres
        have hobsx : obsAt res.tree j = some (v₂.text, v₂.tail) := by
          rw [hframeK j hjb hjk]
          unfold obsAt
          rw [hv₂]
          rfl
        obtain ⟨v', hv', hvtx', hvtl'⟩ :=
          obsAt_extract res.tree j v₂.text v₂.tail hobsx
        refine ⟨(cfg.findM tl).length, v', hv', ?_, ?_, ?_,
          Or.inr ⟨rfl, ?_, ?_⟩⟩
        · have htr := StepPost_trans cfg b st (chainSplice cfg st j w.tail)
            res _ _ hpost2 hpostK
          apply StepPost_cast cfg b st res _ _ ?heq2 htr
          case heq2 =>
            rw [hwtl]
            rw [slotStrings_mk, if_neg htx, List.singleton_append,
              totalMatches_cons, hmt]
            simp
            omega
        · intro s hs
          rw [slotStrings_mk, if_neg htx, List.singleton_append] at hs
          rcases List.mem_cons.mp hs with h | h
          · intro m hm
            rw [h, hmt] at hm
            exact absurd hm (List.not_mem_nil m)
          · exact hpresK s h
        · intro y hyb hyc
          have hyj : y ≠ j := fun h =>
            hyc (h ▸ (by unfold elemIds; exact List.mem_cons_self _ _))
          rw [hframeK y hyb (fun hq =>
            hyc (by unfold elemIds; exact List.mem_cons_of_mem _ hq))]
          rw [hframe2 y hyb hyj]
        · rw [hvtl']
          exact hv₂nil
        · intro m hm
          have hm' : m ∈ cfg.findM w.tail := by rw [hwtl]; exact hm
          have h1 := hpres2 m hm'
          have h2 := hpostK.2.2.2.2.1 m.text
          omega
      · have hne : cfg.findM w.text ≠ [] := by rw [hwtx]; exact hmt
        rw [show processCandidate cfg st (j, false) = textSplice cfg st j w.text
          from procText_eq cfg hOk hAV st j w hw hne hInv.1 hInv.2.2.1] at hres
        obtain ⟨hpost2, hpres2, hframe2, ⟨v₂, hv₂, hv₂tl, hv₂nil⟩⟩ :=
          textChainPost cfg hOk hAV b st j w hw hInv hjb
        have hobsk2 : ∀ y ∈ elemIdsL kids,
            obsAt (textSplice cfg st j w.text).tree y = obsAtL kids y := by
          intro y hy
          have hyj : y ≠ j := fun h => hjk (h ▸ hy)
          rw [hframe2 y (hlowk y hy) hyj, hobsk y hy]
        obtain ⟨hpostK, hpresK, hframeK⟩ :=
          domFoldKids kids cfg hOk hAV b (textSplice cfg st j w.text)
            hpost2.2.2.2.2.2.1 hlowk hndk hobsk2 res hres
        have hobsx : obsAt res.tree j = some (v₂.text, v₂.tail) := by
          rw [hframeK j hjb hjk]
          unfold obsAt
          rw [hv₂]
          rfl
        obtain ⟨v', hv', hvtx', hvtl'⟩ :=
          obsAt_extract res.tree j v₂.text v₂.tail hobsx
        refine ⟨0, v', hv', ?_, ?_, ?_, Or.inl ⟨rfl, ?_⟩⟩
        · have htr := StepPost_trans cfg b st (textSplice cfg st j w.text)
            res _ _ hpost2 hpostK
          apply StepPost_cast cfg b st res _ _ ?heq3 htr
          case heq3 =>
            rw [hwtx]
            rw [slotStrings_mk, if_neg htx, List.singleton_append,
              totalMatches_cons]
            omega
        · intro s hs
          rw [slotStrings_mk, if_neg htx, List.singleton_append] at hs
          rcases List.mem_cons.mp hs with h | h
          · intro m hm
            have hm' : m ∈ cfg.findM w.text := by rw [hwtx, ← h]; exact hm
            have h1 := hpres2 m hm'
            have h2 := hpostK.2.2.2.2.1 m.text
            omega
          · exact hpresK s h
        · intro y hyb hyc
          have hyj : y ≠ j := fun h =>
            hyc (h ▸ (by unfold elemIds; exact List.mem_cons_self _ _))
          rw [hframeK y hyb (fun hq =>
            hyc (by unfold elemIds; exact List.mem_cons_of_mem _ hq))]
          rw [hframe2 y hyb hyj]
        · rw [hvtl', hv₂tl, hwtl]
          rfl
/-- Folding the engine over the candidate slots of a list of original
subtrees (the per-child units of `slotsOfKids`). -/
theorem domFoldKids : ∀ (l : List Elem) (cfg : CitCfg), FindOk cfg.findM →
    AllValid cfg → ∀ (b : Nat) (st : DomState), DomInv b st →
    (∀ y ∈ elemIdsL l, y < b) → List.Nodup (elemIdsL l) →
    (∀ y ∈ elemIdsL l, obsAt st.tree y = obsAtL l y) →
    ∀ (res : DomState), res = (slotsOfKids l).foldl (processCandidate cfg) st →
    StepPost cfg b st res (totalMatches cfg (slotStringsKids l)) ∧
    (∀ s ∈ slotStringsKids l, ∀ m ∈ cfg.findM s,
      1 ≤ countNodes (isMarkerTxt cfg b m.text) res.tree) ∧
    (∀ y, y < b → y ∉ elemIdsL l → obsAt res.tree y = obsAt st.tree y)
  | [], cfg, hOk, hAV, b, st, hInv, hlow, hnd, hobs, res, hres => by
    rw [slotsOfKids_nil] at hres
    simp only [List.foldl_nil] at hres
    rw [slotStringsKids_nil]
    refine ⟨?_, ?_, ?_⟩
    · rw [totalMatches_nil, hres]
      exact StepPost_zero cfg b st hInv
    · intro s hs
      exact absurd hs (List.not_mem_nil s)
    · intro y _ _
      rw [hres]
  | c :: cs, cfg, hOk, hAV, b, st, hInv, hlow, hnd, hobs, res, hres => by
    obtain ⟨hndc, hndcs, hdj⟩ := nodup_elemIdsL_parts c cs hnd
    have hlowc : ∀ y ∈ elemIds c, y < b := fun y hy =>
      hlow y (by rw [elemIdsL_cons]; exact List.mem_append.mpr (Or.inl hy))
    have hlowcs : ∀ y ∈ elemIdsL cs, y < b := fun y hy =>
      hlow y (by rw [elemIdsL_cons]; exact List.mem_append.mpr (Or.inr hy))
    have hobsc : ∀ y ∈ elemIds c, obsAt st.tree y = obsAt c y := by
      intro y hy
      rw [hobs y (by rw [elemIdsL_cons]; exact List.mem_append.mpr (Or.inl hy))]
      rw [obsAtL_cons]
      rcases ho : findById c y with _ | r
      · exfalso
        have := (findById_isSome_iff c y).mpr hy
        rw [ho] at this
        exact Bool.noConfusion this
      · unfold obsAt
        rw [ho]
        rfl
    rw [slotsOfKids_cons, List.foldl_append, List.foldl_append] at hres
    obtain ⟨tn, v', hv', hpost1, hpres1, hframe1, hcase⟩ :=
      domFoldElem c cfg hOk hAV b st hInv hlowc hndc hobsc
        ((slotsOf c).foldl (processCandidate cfg) st) rfl
    have hceid : c.eid ∈ elemIds c := eid_mem_elemIds c
    have hcb : c.eid < b := hlowc c.eid hceid
    by_cases htl : c.tail = ""
    · rw [if_pos htl, List.foldl_nil] at hres
      have hobscs : ∀ y ∈ elemIdsL cs,
          obsAt ((slotsOf c).foldl (processCandidate cfg) st).tree y =
            obsAtL cs y := by
        intro y hy
        have hync : y ∉ elemIds c := fun hq => hdj y hq hy
        rw [hframe1 y (hlowcs y hy) hync]
        rw [hobs y (by rw [elemIdsL_cons]; exact List.mem_append.mpr (Or.inr hy))]
        rw [obsAtL_cons]
        rw [show findById c y = none from by
          rcases ho : findById c y with _ | r
          · rfl
          · exact absurd (findById_mem_of_some c y r ho) hync]
      obtain ⟨hpostK, hpresK, hframeK⟩ :=
        domFoldKids cs cfg hOk hAV b
          ((slotsOf c).foldl (processCandidate cfg) st)
          hpost1.2.2.2.2.2.1 hlowcs hndcs hobscs res hres
      have htn0 : tn = 0 := by
        rcases hcase with ⟨h1, _⟩ | ⟨h1, _, _⟩
        · exact h1
        · rw [h1, htl, findM_empty cfg hOk]
          rfl
      refine ⟨?_, ?_, ?_⟩
      · have htr := StepPost_trans cfg b st _ res _ _ hpost1 hpostK
        apply StepPost_cast cfg b st res _ _ ?heq4 htr
        case heq4 =>
          rw [slotStringsKids_cons, if_pos htl, totalMatches_append,
            totalMatches_append, totalMatches_nil, htn0]
      · intro s hs
        rw [slotStringsKids_cons, if_pos htl] at hs
        rcases List.mem_append.mp hs with h | h
        · rcases List.mem_append.mp h with h2 | h2
          · intro m hm
            have h1 := hpres1 s h2 m hm
            have h2m := hpostK.2.2.2.2.1 m.text
            omega
          · exact absurd h2 (List.not_mem_nil s)
        · exact hpresK s h
      · intro y hyb hyc
        have hync : y ∉ elemIds c := fun hq =>
          hyc (by rw [elemIdsL_cons]; exact List.mem_append.mpr (Or.inl hq))
        have hyncs : y ∉ elemIdsL cs := fun hq =>
          hyc (by rw [elemIdsL_cons]; exact List.mem_append.mpr (Or.inr hq))
        rw [hframeK y hyb hyncs, hframe1 y hyb hync]
    · rw [if_neg htl, List.foldl_cons, List.foldl_nil] at hres
      rw [show processCandidate cfg ((slotsOf c).foldl (processCandidate cfg) st)
          (c.eid, true) =
          chainSplice cfg ((slotsOf c).foldl (processCandidate cfg) st)
            c.eid v'.tail from
        procTail_eq cfg hOk hAV _ c.eid v' hv'
          hpost1.2.2.2.2.2.1.1 hpost1.2.2.2.2.2.1.2.2.1] at hres
      obtain ⟨hpost2, hpres2, hframe2, ⟨v₂, hv₂, hv₂tx, hv₂nil⟩⟩ :=
        tailChainPost cfg hOk hAV b
          ((slotsOf c).foldl (processCandidate cfg) st) c.eid v' hv'
          hpost1.2.2.2.2.2.1 hcb
      have hobscs : ∀ y ∈ elemIdsL cs,
          obsAt (chainSplice cfg ((slotsOf c).foldl (processCandidate cfg) st)
            c.eid v'.tail).tree y = obsAtL cs y := by
        intro y hy
        have hync : y ∉ elemIds c := fun hq => hdj y hq hy
        have hyce : y ≠ c.eid := fun h => hync (h ▸ hceid)
        rw [hframe2 y (hlowcs y hy) hyce]
        rw [hframe1 y (hlowcs y hy) hync]
        rw [hobs y (by rw [elemIdsL_cons]; exact List.mem_append.mpr (Or.inr hy))]
        rw [obsAtL_cons]
        rw [show findById c y = none from by
          rcases ho : findById c y with _ | r
          · rfl
          · exact absurd (findById_mem_of_some c y r ho) hync]
      obtain ⟨hpostK, hpresK, hframeK⟩ :=
        domFoldKids cs cfg hOk hAV b
          (chainSplice cfg ((slotsOf c).foldl (processCandidate cfg) st)
            c.eid v'.tail)
          hpost2.2.2.2.2.2.1 hlowcs hndcs hobscs res hres
      have hsum : tn + (cfg.findM v'.tail).length = (cfg.findM c.tail).length := by
        rcases hcase with ⟨h1, h2⟩ | ⟨h1, h2, _⟩
        · rw [h1, h2]
          omega
        · rw [h1, h2]
          rfl
      refine ⟨?_, ?_, ?_⟩
      · have htr1 := StepPost_trans cfg b st _ _ _ _ hpost1 hpost2
        have htr2 := StepPost_trans cfg b st _ res _ _ htr1 hpostK
        apply StepPost_cast cfg b st res _ _ ?heq5 htr2
        case heq5 =>
          rw [slotStringsKids_cons, if_neg htl, totalMatches_append,
            totalMatches_append, totalMatches_one]
          omega
      · intro s hs
        rw [slotStringsKids_cons, if_neg htl] at hs
        rcases List.mem_append.mp hs with h | h
        · rcases List.mem_append.mp h with h2 | h2
          · intro m hm
            have h1 := hpres1 s h2 m hm
            have h2m := hpost2.2.2.2.2.1 m.text
            have h3m := hpostK.2.2.2.2.1 m.text
            omega
          · rcases List.mem_singleton.mp h2 with rfl
            intro m hm
            rcases hcase with ⟨h1, h2⟩ | ⟨h1, h2, h3⟩
            · have hm' : m ∈ cfg.findM v'.tail := by rw [h2]; exact hm
              have hp2 := hpres2 m hm'
              have h3m := hpostK.2.2.2.2.1 m.text
              omega
            · have hp1 := h3 m hm
              have h2m := hpost2.2.2.2.2.1 m.text
              have h3m := hpostK.2.2.2.2.1 m.text
              omega
        · exact hpresK s h
      · intro y hyb hyc
        have hync : y ∉ elemIds c := fun hq =>
          hyc (by rw [elemIdsL_cons]; exact List.mem_append.mpr (Or.inl hq))
        have hyncs : y ∉ elemIdsL cs := fun hq =>
          hyc (by rw [elemIdsL_cons]; exact List.mem_append.mpr (Or.inr hq))
        have hyce : y ≠ c.eid := fun h => hync (h ▸ hceid)
        rw [hframeK y hyb hyncs, hframe2 y hyb hyce, hframe1 y hyb hync]
end

/-- Full characterisation of one DOM-matching run, shared by the claims
about it: exactly one citation and one fresh marker per match of each
candidate string, text content preserved, each matched substring present as
some marker's own text. -/
theorem runDomMatching_characterization (cfg : CitCfg) (root : Elem)
    (hOk : FindOk cfg.findM) (hAV : AllValid cfg)
    (hnd : List.Nodup (elemIds root)) (hrt : root.tail = "") :
    (runDomMatching cfg root).cits.length =
      totalMatches cfg (slotStrings root) ∧
    countNodes (fun e => e.tag == cfg.markerTag)
        (runDomMatching cfg root).tree =
      countNodes (fun e => e.tag == cfg.markerTag) root +
        totalMatches cfg (slotStrings root) ∧
    innerText (runDomMatching cfg root).tree = innerText root ∧
    (∀ s ∈ slotStrings root, ∀ m ∈ cfg.findM s,
      1 ≤ countNodes (fun e => e.tag == cfg.markerTag && e.text == m.text)
        (runDomMatching cfg root).tree) := by
  have hInv : DomInv (maxId root + 1) ⟨root, [], maxId root + 1⟩ := by
    refine ⟨hrt, hnd, ?_, le_refl _⟩
    intro z hz
    show z < maxId root + 1
    have := mem_le_maxId root z hz
    omega
  have hlow : ∀ y ∈ elemIds root, y < maxId root + 1 := by
    intro y hy
    have := mem_le_maxId root y hy
    omega
  obtain ⟨tn, v', hv', hpost, hpres, hframe, hcase⟩ :=
    domFoldElem root cfg hOk hAV (maxId root + 1) ⟨root, [], maxId root + 1⟩
      hInv hlow hnd (fun y _ => rfl) (runDomMatching cfg root)
      (by rw [runDomMatching])
  have htn0 : tn = 0 := by
    rcases hcase with ⟨h1, _⟩ | ⟨h1, _, _⟩
    · exact h1
    · rw [h1, hrt, findM_empty cfg hOk]
      rfl
  obtain ⟨p1, p2, p3, p4, p5, p6, p7⟩ := hpost
  refine ⟨?_, ?_, p4, ?_⟩
  · have h0 : ({ tree := root, cits := [], nextId := maxId root + 1 } :
        DomState).cits.length = 0 := rfl
    omega
  · have hsplitR := countNodes_split (runDomMatching cfg root).tree
      (fun e => e.tag == cfg.markerTag) (fun e => decide (maxId root + 1 ≤ e.eid))
    have hsplit0 := countNodes_split root
      (fun e => e.tag == cfg.markerTag) (fun e => decide (maxId root + 1 ≤ e.eid))
    have h2' : countNodes (isMarker cfg (maxId root + 1))
        (runDomMatching cfg root).tree =
        countNodes (isMarker cfg (maxId root + 1)) root +
          (totalMatches cfg (slotStrings root) + tn) := p2
    have h3' : countNodes (isOldMarker cfg (maxId root + 1))
        (runDomMatching cfg root).tree =
        countNodes (isOldMarker cfg (maxId root + 1)) root := p3
    have e1 : countNodes (fun e => (fun e => e.tag == cfg.markerTag) e &&
        (fun e => decide (maxId root + 1 ≤ e.eid)) e)
        (runDomMatching cfg root).tree =
        countNodes (isMarker cfg (maxId root + 1))
          (runDomMatching cfg root).tree := rfl
    have e2 : countNodes (fun e => (fun e => e.tag == cfg.markerTag) e &&
        !(fun e => decide (maxId root + 1 ≤ e.eid)) e)
        (runDomMatching cfg root).tree =
        countNodes (isOldMarker cfg (maxId root + 1))
          (runDomMatching cfg root).tree := rfl
    have e3 : countNodes (fun e => (fun e => e.tag == cfg.markerTag) e &&
        (fun e => decide (maxId root + 1 ≤ e.eid)) e) root =
        countNodes (isMarker cfg (maxId root + 1)) root := rfl
    have e4 : countNodes (fun e => (fun e => e.tag == cfg.markerTag) e &&
        !(fun e => decide (maxId root + 1 ≤ e.eid)) e) root =
        countNodes (isOldMarker cfg (maxId root + 1)) root := rfl
    rw [e1, e2] at hsplitR
    rw [e3, e4] at hsplit0
    omega
  · intro s hs m hm
    have h1 := hpres s hs m hm
    have hsplit := countNodes_split (runDomMatching cfg root).tree
      (fun e => e.tag == cfg.markerTag && e.text == m.text)
      (fun e => decide (maxId root + 1 ≤ e.eid))
    have e1 : countNodes (fun e =>
        (fun e => e.tag == cfg.markerTag && e.text == m.text) e &&
        (fun e => decide (maxId root + 1 ≤ e.eid)) e)
        (runDomMatching cfg root).tree =
        countNodes (isMarkerTxt cfg (maxId root + 1) m.text)
          (runDomMatching cfg root).tree := rfl
    rw [e1] at hsplit
    omega

/-- C1 -- Given a tree whose candidate strings hold N pattern occurrences in
total (pairwise disjoint and position-independent, per `FindOk`; each
individually valid, per `AllValid`), one DOM-matching run appends exactly N
citations, adds exactly N marker-tagged annotation elements, preserves the
concatenated text content, and leaves each matched substring as the own text
of some marker-tagged element. -/
theorem dom_matching_markup_complete (cfg : CitCfg) (root : Elem)
    (hOk : FindOk cfg.findM) (hAV : AllValid cfg)
    (hnd : List.Nodup (elemIds root)) (hrt : root.tail = "") :
    (runDomMatching cfg root).cits.length =
      totalMatches cfg (slotStrings root) ∧
    countNodes (fun e => e.tag == cfg.markerTag)
        (runDomMatching cfg root).tree =
      countNodes (fun e => e.tag == cfg.markerTag) root +
        totalMatches cfg (slotStrings root) ∧
    innerText (runDomMatching cfg root).tree = innerText root ∧
    (∀ s ∈ slotStrings root, ∀ m ∈ cfg.findM s,
      1 ≤ countNodes (fun e => e.tag == cfg.markerTag && e.text == m.text)
        (runDomMatching cfg root).tree) :=
  runDomMatching_characterization cfg root hOk hAV hnd hrt

/-- A concrete single-pattern configuration: the only match is `a` at the
start of the exact string `ab`. -/
def cfgW : CitCfg :=
  { findM := fun s => if s = "ab" then [⟨"a", 0, 1, []⟩] else [],
    makeHref := fun _ => "/akn/act/1",
    workUri := "/akn/act/2",
    markerTag := "ref" }

theorem cfgW_findOk : FindOk cfgW.findM := by
  intro s
  constructor
  · intro m hm
    by_cases h : s = "ab"
    · rw [show cfgW.findM s = [⟨"a", 0, 1, []⟩] from by simp [cfgW, h]] at hm
      rcases List.mem_singleton.mp hm with rfl
      subst h
      refine ⟨by decide, by decide, by decide, by decide⟩
    · rw [show cfgW.findM s = [] from by simp [cfgW, h]] at hm
      exact absurd hm (List.not_mem_nil m)
  · intro m ms hfind
    by_cases h : s = "ab"
    · subst h
      rw [show cfgW.findM "ab" = [⟨"a", 0, 1, []⟩] from by simp [cfgW]] at hfind
      injection hfind with h1 h2
      subst h1
      subst h2
      constructor
      · decide
      · decide
    · rw [show cfgW.findM s = [] from by simp [cfgW, h]] at hfind
      exact List.noConfusion hfind

theorem cfgW_allValid : AllValid cfgW := fun _ _ _ => rfl

def rootW : Elem :=
  .mk 0 "div" [] "" [.mk 1 "p" [] "ab" [] ""] ""

/-- Witness for C1 at a concrete tree: one match in the single candidate
string `ab`. -/
theorem dom_matching_markup_complete_witness :
    (runDomMatching cfgW rootW).cits.length =
      totalMatches cfgW (slotStrings rootW) ∧
    countNodes (fun e => e.tag == cfgW.markerTag)
        (runDomMatching cfgW rootW).tree =
      countNodes (fun e => e.tag == cfgW.markerTag) rootW +
        totalMatches cfgW (slotStrings rootW) ∧
    innerText (runDomMatching cfgW rootW).tree = innerText rootW ∧
    (∀ s ∈ slotStrings rootW, ∀ m ∈ cfgW.findM s,
      1 ≤ countNodes (fun e => e.tag == cfgW.markerTag && e.text == m.text)
        (runDomMatching cfgW rootW).tree) :=
  dom_matching_markup_complete cfgW rootW cfgW_findOk cfgW_allValid
    (by decide) rfl

/-! ## C4: which strings the engine hands to the pattern scanner -/

/-- `tailLoop` instrumented with the scan log: every string the loop passes
to `find_text_matches` (matchers.py line 179), in order. -/
def tailLoopScan (cfg : CitCfg) : Nat → DomState → Elem → DomState × List String
  | 0, st, _ => (st, [])
  | fuel + 1, st, v =>
    if v.tail = "" then (st, [])
    else
      match wrapFirstValid cfg st v.eid true (cfg.findM v.tail) with
      | some (newE, st') =>
        ((tailLoopScan cfg fuel st' newE).1,
          v.tail :: (tailLoopScan cfg fuel st' newE).2)
      | none => (st, [v.tail])

/-- `processCandidate` instrumented with the scan log: an own-text candidate
scans its text (line 169) and then whatever the trailing while-loop scans;
a tail candidate scans through the while-loop only. -/
def processCandidateScan (cfg : CitCfg) (st : DomState) (slot : Nat × Bool) :
    DomState × List String :=
  match findById st.tree slot.1 with
  | none => (st, [])
  | some v =>
    if slot.2 then tailLoopScan cfg (slen v.tail + 1) st v
    else
      match wrapFirstValid cfg st v.eid false (cfg.findM v.text) with
      | some (newE, st') =>
        ((tailLoopScan cfg (slen v.text + slen v.tail + 1) st' newE).1,
          v.text :: (tailLoopScan cfg (slen v.text + slen v.tail + 1) st' newE).2)
      | none =>
        ((tailLoopScan cfg (slen v.text + slen v.tail + 1) st v).1,
          v.text :: (tailLoopScan cfg (slen v.text + slen v.tail + 1) st v).2)

/-- `run_dom_matching` instrumented with the scan log. -/
def runDomScan (cfg : CitCfg) (root : Elem) : DomState × List String :=
  (slotsOf root).foldl
    (fun acc slot =>
      ((processCandidateScan cfg acc.1 slot).1,
        acc.2 ++ (processCandidateScan cfg acc.1 slot).2))
    (⟨root, [], maxId root + 1⟩, [])

theorem tailLoopScan_fst (cfg : CitCfg) :
    ∀ (fuel : Nat) (st : DomState) (v : Elem),
    (tailLoopScan cfg fuel st v).1 = tailLoop cfg fuel st v
  | 0, st, v => rfl
  | fuel + 1, st, v => by
    rw [tailLoop_succ]
    unfold tailLoopScan
    by_cases h : v.tail = ""
    · rw [if_pos h, if_pos h]
    · rw [if_neg h, if_neg h]
      rcases hw : wrapFirstValid cfg st v.eid true (cfg.findM v.tail)
          with _ | ⟨newE, st'⟩
      · rfl
      · exact tailLoopScan_fst cfg fuel st' newE

theorem processCandidateScan_fst (cfg : CitCfg) (st : DomState)
    (slot : Nat × Bool) :
    (processCandidateScan cfg st slot).1 = processCandidate cfg st slot := by
  unfold processCandidateScan processCandidate
  rcases findById st.tree slot.1 with _ | v
  · rfl
  · dsimp only
    by_cases h : slot.2 = true
    · rw [if_pos h, if_pos h]
      exact tailLoopScan_fst cfg _ st v
    · rw [if_neg h, if_neg h]
      rcases wrapFirstValid cfg st v.eid false (cfg.findM v.text)
          with _ | ⟨newE, st'⟩
      · exact tailLoopScan_fst cfg _ st v
      · exact tailLoopScan_fst cfg _ st' newE

theorem foldScan_fst (cfg : CitCfg) :
    ∀ (slots : List (Nat × Bool)) (st : DomState) (g : List String),
    (slots.foldl (fun acc slot =>
      ((processCandidateScan cfg acc.1 slot).1,
        acc.2 ++ (processCandidateScan cfg acc.1 slot).2)) (st, g)).1 =
      slots.foldl (processCandidate cfg) st
  | [], st, g => rfl
  | slot :: rest, st, g => by
    rw [List.foldl_cons, List.foldl_cons]
    rw [show ((processCandidateScan cfg st slot).1,
        g ++ (processCandidateScan cfg st slot).2) =
        ((processCandidate cfg st slot),
          g ++ (processCandidateScan cfg st slot).2) from by
      rw [processCandidateScan_fst]]
    exact foldScan_fst cfg rest (processCandidate cfg st slot) _

/-- The instrumented engine runs the very same state computation. -/
theorem runDomScan_fst (cfg : CitCfg) (root : Elem) :
    (runDomScan cfg root).1 = runDomMatching cfg root := by
  unfold runDomScan runDomMatching
  exact foldScan_fst cfg (slotsOf root) ⟨root, [], maxId root + 1⟩ []

/-- A configuration with no matches at all, and a tree with one candidate
own-text string and one candidate tail string. -/
def cfgC4 : CitCfg :=
  { findM := fun _ => [],
    makeHref := fun _ => "/akn/act/1",
    workUri := "/akn/act/2",
    markerTag := "ref" }

def rootC4 : Elem :=
  .mk 0 "div" [] "" [.mk 1 "p" [] "x" [] "y"] ""

/-- C4 -- counterexample: the run scans the candidate strings `x` and `y`,
but scans `y` twice — once from the trailing while-loop of the own-text
candidate (matchers.py lines 178-189 run even when no match was found in
the text), and once at the tail candidate itself. So the scan log is not
one scan per candidate string. -/
theorem candidate_scanned_once_counterexample :
    ¬((runDomScan cfgC4 rootC4).2 = slotStrings rootC4) := by
  decide

/-- C4 amended -- candidates are visited once each in document order, but an
own-text candidate with no match in its text runs the trailing while-loop
early, consuming the holder's tail; the later tail candidate then rescans
only the left-over remnant, which holds no matches. The net effect is as if
every candidate string were scanned exactly once: the run appends exactly
one citation per match of each original candidate string. -/
theorem candidate_scan_effectively_once (cfg : CitCfg) (root : Elem)
    (hOk : FindOk cfg.findM) (hAV : AllValid cfg)
    (hnd : List.Nodup (elemIds root)) (hrt : root.tail = "") :
    ((runDomScan cfg root).1.cits.length =
      totalMatches cfg (slotStrings root)) := by
  rw [runDomScan_fst]
  exact (runDomMatching_characterization cfg root hOk hAV hnd hrt).1

theorem cfgC4_findOk : FindOk cfgC4.findM := by
  intro s
  constructor
  · intro m hm
    exact absurd hm (List.not_mem_nil m)
  · intro m ms hfind
    exact List.noConfusion hfind

/-- Witness for the amended C4 at a concrete tree. -/
theorem candidate_scan_effectively_once_witness :
    ((runDomScan cfgC4 rootC4).1.cits.length =
      totalMatches cfgC4 (slotStrings rootC4)) :=
  candidate_scan_effectively_once cfgC4 rootC4 cfgC4_findOk
    (fun _ _ _ => rfl) (by decide) rfl

/-! ## C5: the wrap_text splice contract -/

/-- C5 -- Modelled from the spec: the `wrap_text` splice primitive splits the
target string (own text or tail, offsets defaulting to the whole string):
the prefix stays on the holder, `[start, end)` becomes the new element's own
text, the suffix its tail; splicing own text makes the new element the
node's first child with the pre-existing children re-parented after it;
the new element is returned; and any subtree not containing the node —
in particular any sibling subtree, with its tail — is unaltered. -/
theorem wrap_text_contract (t : Elem) (x : Nat) (v : Elem) (inT : Bool)
    (factory : String → Elem) (sp ep : Option Nat) (tgt pre mid suf : String)
    (a bb : Nat)
    (hv : findById t x = some v)
    (htgt : tgt = if inT then v.tail else v.text)
    (ha : a = sp.getD 0) (hb : bb = ep.getD (slen tgt))
    (hpre : pre = ssub tgt 0 a) (hmid : mid = ssub tgt a bb)
    (hsuf : suf = ssub tgt bb (slen tgt)) :
    ∃ E, wrapText t x inT factory sp ep =
        (if inT then spliceAfter x pre [E] t
         else mapById (fun y => (y.setText pre).setChildren (E :: y.children))
           t x,
         some E) ∧
      E.text = mid ∧ E.tail = suf ∧ E.tag = (factory mid).tag ∧
      (inT = false →
        findById (wrapText t x inT factory sp ep).1 x =
          some ((v.setText pre).setChildren (E :: v.children))) ∧
      (∀ y n, findById t y = some n → y ≠ x → x ∉ elemIds n →
        (∀ z ∈ elemIds (factory mid), z ∉ elemIds t) →
        findById (wrapText t x inT factory sp ep).1 y = some n) := by
  subst htgt
  subst ha
  subst hb
  subst hpre
  subst hmid
  subst hsuf
  have hW := wrapText_some t x inT factory sp ep v hv
  have hpair : wrapText t x inT factory sp ep =
      (if inT
        then spliceAfter x
          (ssub (if inT then v.tail else v.text) 0 (sp.getD 0))
          [((factory (ssub (if inT then v.tail else v.text) (sp.getD 0)
              (ep.getD (slen (if inT then v.tail else v.text))))).setText
              (ssub (if inT then v.tail else v.text) (sp.getD 0)
                (ep.getD (slen (if inT then v.tail else v.text))))).setTail
              (ssub (if inT then v.tail else v.text)
                (ep.getD (slen (if inT then v.tail else v.text)))
                (slen (if inT then v.tail else v.text)))] t
        else mapById (fun y => (y.setText
            (ssub (if inT then v.tail else v.text) 0 (sp.getD 0))).setChildren
            (((factory (ssub (if inT then v.tail else v.text) (sp.getD 0)
              (ep.getD (slen (if inT then v.tail else v.text))))).setText
              (ssub (if inT then v.tail else v.text) (sp.getD 0)
                (ep.getD (slen (if inT then v.tail else v.text))))).setTail
              (ssub (if inT then v.tail else v.text)
                (ep.getD (slen (if inT then v.tail else v.text)))
                (slen (if inT then v.tail else v.text))) :: y.children)) t x,
       some (((factory (ssub (if inT then v.tail else v.text) (sp.getD 0)
              (ep.getD (slen (if inT then v.tail else v.text))))).setText
              (ssub (if inT then v.tail else v.text) (sp.getD 0)
                (ep.getD (slen (if inT then v.tail else v.text))))).setTail
              (ssub (if inT then v.tail else v.text)
                (ep.getD (slen (if inT then v.tail else v.text)))
                (slen (if inT then v.tail else v.text))))) := by
    rw [hW]
    rcases inT with _ | _
    · rfl
    · rfl
  refine ⟨_, hpair, by simp, by simp, by simp, ?_, ?_⟩
  · intro hf
    subst hf
    rw [hpair]
    dsimp only
    rw [if_neg (by simp : ¬(false = true))]
    rw [findById_mapById_self t x _ (fun e => by simp)]
    rw [hv]
    rfl
  · intro y n hn hyx hxn hfr
    rw [hpair]
    rcases inT with _ | _
    · dsimp only
      rw [if_neg (by simp : ¬(false = true))]
      rw [show (if false = true then v.tail else v.text) = v.text from rfl]
      apply findById_mapById_disjoint t x y _ hyx ?_ n hn hxn
      intro e he
      rcases e with ⟨j, tg2, a2, tx2, kids2, tl2⟩
      simp only [Elem.eid_mk] at he
      have hjy : ¬(j = y) := by
        rw [he]
        intro hq
        exact hyx hq.symm
      simp only [Elem.setText_mk, Elem.setChildren_mk, Elem.children_mk]
      unfold findById
      rw [if_neg hjy, if_neg hjy]
      rw [findByIdL_cons]
      rw [show findById (((factory (ssub v.text (sp.getD 0)
          (ep.getD (slen v.text)))).setText
          (ssub v.text (sp.getD 0) (ep.getD (slen v.text)))).setTail
          (ssub v.text (ep.getD (slen v.text)) (slen v.text))) y = none from by
        rcases ho : findById _ y with _ | r
        · rfl
        · exfalso
          have hym := findById_mem_of_some _ _ _ ho
          rw [elemIds_setTail, elemIds_setText] at hym
          have hyt : y ∈ elemIds t := findById_mem_of_some t y n hn
          exact hfr y hym hyt]
    · dsimp only
      rw [if_pos rfl]
      apply findById_spliceAfter_disjoint t x y _ _ hyx ?_ n hn hxn
      rw [elemIdsL_cons, elemIdsL_nil, List.append_nil,
        elemIds_setTail, elemIds_setText]
      intro hym
      exact hfr y hym (findById_mem_of_some t y n hn)

def facW : String → Elem := fun _ => .mk 9 "ref" [] "" [] ""

def tW : Elem := .mk 0 "div" [] "" [.mk 1 "p" [] "hello" [] "t1"] ""

def vW : Elem := .mk 1 "p" [] "hello" [] "t1"

/-- Witness for C5 at a concrete tree: splice `[1, 3)` out of the own text
`hello`. -/
theorem wrap_text_contract_witness :
    ∃ E, wrapText tW 1 false facW (some 1) (some 3) =
        (if false then spliceAfter 1 "h" [E] tW
         else mapById (fun y => (y.setText "h").setChildren (E :: y.children))
           tW 1,
         some E) ∧
      E.text = "el" ∧ E.tail = "lo" ∧ E.tag = (facW "el").tag ∧
      (false = false →
        findById (wrapText tW 1 false facW (some 1) (some 3)).1 1 =
          some ((vW.setText "h").setChildren (E :: vW.children))) ∧
      (∀ y n, findById tW y = some n → y ≠ 1 → 1 ∉ elemIds n →
        (∀ z ∈ elemIds (facW "el"), z ∉ elemIds tW) →
        findById (wrapText tW 1 false facW (some 1) (some 3)).1 y = some n) :=
  wrap_text_contract tW 1 vW false facW (some 1) (some 3) "hello" "h" "el" "lo"
    1 3 (by decide) rfl rfl rfl (by decide) (by decide) (by decide)

/-! ## C3: SplitPOnBr (html.py lines 277-349) -/

mutual
/-- Ids of the elements matched by the xpath `.//p//br`: a `br` with a
proper-ancestor `p` inside the searched subtree, in document order. The
flag records whether some proper ancestor visited so far is a `p`. -/
def brIdsE (inP : Bool) : Elem → List Nat
  | .mk i tg _ _ kids _ =>
    (if inP && (tg == "br") then [i] else []) ++
      brIdsL (inP || (tg == "p")) kids
def brIdsL (inP : Bool) : List Elem → List Nat
  | [] => []
  | c :: cs => brIdsE inP c ++ brIdsL inP cs
end

mutual
/-- Id of the parent of node `x` (lxml `getparent`). -/
def parentOf : Elem → Nat → Option Nat
  | .mk i _ _ _ kids _, x =>
    if kids.any (fun c => c.eid == x) then some i else parentOfL kids x
def parentOfL : List Elem → Nat → Option Nat
  | [], _ => none
  | c :: cs, x =>
    match parentOf c x with
    | some r => some r
    | none => parentOfL cs x
end

mutual
/-- Remove the node with id `x` from its parent's child list (lxml
`remove`: the node goes together with its tail). -/
def removeById (x : Nat) : Elem → Elem
  | .mk i tg a tx kids tl => .mk i tg a tx (removeByIdL x kids) tl
def removeByIdL (x : Nat) : List Elem → List Elem
  | [] => []
  | c :: cs => if c.eid = x then cs else removeById x c :: removeByIdL x cs
end

/-- The element immediately following node `x` in a child list (lxml
`getnext`). -/
def nextOf (x : Nat) : List Elem → Option Elem
  | [] => none
  | c :: cs => if c.eid = x then cs.head? else nextOf x cs

/-- Drop node `x` and the element immediately after it from a child list:
the net effect on `br`'s parent of moving `br.getnext()` into the fresh
element (the `while` at lines 317-320 moves exactly one element, because
after `elem.append(sibling)` the moved node has no next sibling) and of
the final `remove(br)` (line 349). -/
def dropBrNext (x : Nat) : List Elem → List Elem
  | [] => []
  | c :: cs => if c.eid = x then cs.drop 1 else c :: dropBrNext x cs

/-- The `while parent.tag != 'p'` walk (lines 298-301): tags of the
ancestors strictly between the `br` and its nearest ancestor `p`,
bottom-up, with that `p`'s id. Starts at the `br`'s parent. -/
def walkToP (t : Elem) : Nat → Nat → Option (List String × Nat)
  | 0, _ => none
  | fuel + 1, x =>
    match findById t x with
    | none => none
    | some e =>
      if e.tag = "p" then some ([], x)
      else
        match parentOf t x with
        | none => none
        | some q =>
          match walkToP t fuel q with
          | none => none
          | some (tags, pid) => some (e.tag :: tags, pid)

/-- Build the chain of fresh ancestors (lines 303-306, 334-336): each tag
wraps the previous element as its only child. -/
def nestChain : Elem → List String → Nat → Elem × Nat
  | inner, [], nid => (inner, nid)
  | inner, tg :: rest, nid =>
    nestChain (.mk nid tg [] "" [inner] "") rest (nid + 1)

/-- One iteration of `SplitPOnBr.__call__`'s loop body (lines 290-349) for
the `br` with id `β`; `nid` supplies fresh ids for the created elements. -/
def splitOneBr (T : Elem) (nid β : Nat) : Elem × Nat :=
  match findById T β with
  | none => (T, nid)
  | some br =>
    match parentOf T β with
    | none => (T, nid)
    | some p0 =>
      match findById T p0 with
      | none => (T, nid)
      | some v0 =>
        match walkToP T ((elemIds T).length + 1) p0 with
        | none => (T, nid)
        | some (tags, pid) =>
          match findById T pid with
          | none => (T, nid)
          | some vp =>
            match tags with
            | [] =>
              let newP := Elem.mk nid "p" [] br.tail
                (match nextOf β v0.children with
                 | some s => [s]
                 | none => []) vp.tail
              let T1 := mapById
                (fun e => e.setChildren (dropBrNext β e.children)) T p0
              (spliceAfter pid "" [newP] T1, nid + 1)
            | tg1 :: rest =>
              let e1 := Elem.mk nid tg1 [] br.tail
                (match nextOf β v0.children with
                 | some s => [s]
                 | none => []) v0.tail
              let r := nestChain e1 rest (nid + 1)
              let sib2 :=
                match parentOf T p0 with
                | none => none
                | some q =>
                  match findById T q with
                  | none => none
                  | some vq => nextOf p0 vq.children
              let newP := Elem.mk r.2 "p" [] ""
                ([r.1] ++ (match sib2 with
                           | some s => [s]
                           | none => [])) vp.tail
              let T1 := mapById (fun e =>
                (e.setChildren (dropBrNext β e.children)).setTail "") T p0
              let T2 := match sib2 with
                | some s => removeById s.eid T1
                | none => T1
              (spliceAfter pid "" [newP] T2, r.2 + 1)

/-- `SplitPOnBr.__call__` (lines 288-349): snapshot the `.//p//br` nodes,
then process them in reverse document order. -/
def splitPOnBr (root : Elem) : Elem :=
  ((brIdsL (root.tag == "p") root.children).reverse.foldl
    (fun acc β => splitOneBr acc.1 acc.2 β) (root, maxId root + 1)).1

/-- C3 -- On a container `<p><b>bold1<br/>bold2</b> tail</p>` (with any
paragraph tail), the split produces two sibling paragraphs: the first holds
`<b>bold1</b>`, the second holds `<b>bold2</b>` followed by the text
` tail`; the fresh paragraph inherits the original paragraph's tail and
the original paragraph's tail is cleared. -/
theorem split_p_on_br_bold_tail (b1 b2 tll ptl : String) :
    splitPOnBr (.mk 0 "div" [] ""
      [.mk 1 "p" [] "" [.mk 2 "b" [] b1 [.mk 3 "br" [] "" [] b2] tll] ptl]
      "") =
    .mk 0 "div" [] ""
      [.mk 1 "p" [] "" [.mk 2 "b" [] b1 [] ""] "",
       .mk 5 "p" [] "" [.mk 4 "b" [] b2 [] tll] ptl]
      "" := by
  rfl

/-! ## C6: RemoveEmptyParagraphs (html.py lines 352-379) -/

/-- Python `not text.strip()`: every character is whitespace. -/
def isWS (s : String) : Bool := s.data.all (fun c => c.isWhitespace)

mutual
/-- Ids matched by the xpath `.//p`: proper-descendant `p` elements in
document order (use `pIdsL` on the root's children). -/
def pIdsE : Elem → List Nat
  | .mk i tg _ _ kids _ => (if tg == "p" then [i] else []) ++ pIdsL kids
def pIdsL : List Elem → List Nat
  | [] => []
  | c :: cs => pIdsE c ++ pIdsL cs
end

/-- The `while p is not None` cascade (html.py lines 374-379): starting at
the removed paragraph's parent, remove the current node exactly when it has
no children left and is not the tree root, then climb to its parent. -/
def cascadeUp (t : Elem) : Nat → Nat → Elem
  | 0, _ => t
  | fuel + 1, x =>
    match findById t x with
    | none => t
    | some v =>
      match parentOf t x with
      | none => t
      | some q =>
        if v.children.isEmpty then cascadeUp (removeById x t) fuel q
        else t

/-- One iteration of `RemoveEmptyParagraphs.__call__`'s loop (lines
365-379): if the paragraph's subtree text strips to nothing and it has no
`img` descendant, remove it and run the ancestor cascade. -/
def pruneStep (root : Elem) (pid : Nat) : Elem :=
  match findById root pid with
  | none => root
  | some v =>
    if isWS (innerText v) && (countTagL "img" v.children == 0) then
      match parentOf root pid with
      | none => root
      | some par => cascadeUp (removeById pid root) ((elemIds root).length + 1) par
    else root

/-- `RemoveEmptyParagraphs.__call__` (lines 362-379): snapshot `.//p` and
process each paragraph in document order. -/
def removeEmptyParagraphs (root : Elem) : Elem :=
  (pIdsL root.children).foldl pruneStep root

mutual
/-- `cur` is `orig` with zero or more child subtrees (recursively) deleted:
surviving nodes keep their id, tag, attributes, text and tail, in order. -/
def reduct : Elem → Elem → Bool
  | .mk i tg a tx kids tl, .mk i2 tg2 a2 tx2 kids2 tl2 =>
    decide (i = i2) && decide (tg = tg2) && decide (a = a2) &&
      decide (tx = tx2) && decide (tl = tl2) && reductL kids kids2
def reductL : List Elem → List Elem → Bool
  | [], l2 => l2.isEmpty
  | c :: cs, l2 =>
    (match l2 with
     | [] => false
     | d :: ds => reduct c d && reductL cs ds) || reductL cs l2
end

theorem reductL_nil (l2 : List Elem) : reductL [] l2 = l2.isEmpty := by
  unfold reductL
  rfl

theorem reductL_cons (c : Elem) (cs l2 : List Elem) :
    reductL (c :: cs) l2 =
      ((match l2 with
        | [] => false
        | d :: ds => reduct c d && reductL cs ds) || reductL cs l2) := by
  conv_lhs => unfold reductL

mutual
theorem reduct_refl : ∀ e, reduct e e = true
  | .mk i tg a tx kids tl => by
    unfold reduct
    simp [reductL_refl kids]
theorem reductL_refl : ∀ l, reductL l l = true
  | [] => by rw [reductL_nil]; rfl
  | c :: cs => by
    rw [reductL_cons]
    rw [Bool.or_eq_true]
    left
    show (reduct c c && reductL cs cs) = true
    rw [reduct_refl c, reductL_refl cs]
    rfl
end

mutual
theorem reduct_removeById : ∀ (t : Elem) (x : Nat),
    reduct t (removeById x t) = true
  | .mk i tg a tx kids tl, x => by
    rw [show removeById x (.mk i tg a tx kids tl) =
      .mk i tg a tx (removeByIdL x kids) tl from rfl]
    unfold reduct
    simp [reductL_removeByIdL kids x]
theorem reductL_removeByIdL : ∀ (l : List Elem) (x : Nat),
    reductL l (removeByIdL x l) = true
  | [], x => by rw [show removeByIdL x [] = [] from rfl, reductL_nil]; rfl
  | c :: cs, x => by
    rw [show removeByIdL x (c :: cs) =
      if c.eid = x then cs else removeById x c :: removeByIdL x cs from rfl]
    by_cases h : c.eid = x
    · rw [if_pos h, reductL_cons]
      rw [reductL_refl cs]
      simp
    · rw [if_neg h, reductL_cons]
      rw [Bool.or_eq_true]
      left
      show (reduct c (removeById x c) && reductL cs (removeByIdL x cs)) = true
      rw [reduct_removeById c x, reductL_removeByIdL cs x]
      rfl
end

theorem reduct_parts : ∀ o c, reduct o c = true →
    c.eid = o.eid ∧ c.tag = o.tag ∧ c.attrs = o.attrs ∧ c.text = o.text ∧
    c.tail = o.tail ∧ reductL o.children c.children = true := by
  intro o c h
  rcases o with ⟨i, tg, a, tx, kids, tl⟩
  rcases c with ⟨i2, tg2, a2, tx2, kids2, tl2⟩
  unfold reduct at h
  simp only [Bool.and_eq_true, decide_eq_true_eq] at h
  obtain ⟨⟨⟨⟨⟨h1, h2⟩, h3⟩, h4⟩, h5⟩, h6⟩ := h
  subst h1; subst h2; subst h3; subst h4; subst h5
  exact ⟨rfl, rfl, rfl, rfl, rfl, h6⟩

mutual
theorem reduct_trans : ∀ a b c, reduct a b = true → reduct b c = true →
    reduct a c = true
  | .mk i tg aa tx kids tl, b, c => fun h1 h2 => by
    obtain ⟨e1, e2, e3, e4, e5, hl1⟩ := reduct_parts _ b h1
    obtain ⟨f1, f2, f3, f4, f5, hl2⟩ := reduct_parts b c h2
    rcases c with ⟨i3, tg3, a3, tx3, kids3, tl3⟩
    simp only [Elem.eid_mk, Elem.tag_mk, Elem.attrs_mk, Elem.text_mk,
      Elem.tail_mk, Elem.children_mk] at e1 e2 e3 e4 e5 f1 f2 f3 f4 f5 hl1 hl2
    unfold reduct
    simp only [Bool.and_eq_true, decide_eq_true_eq]
    exact ⟨⟨⟨⟨⟨by rw [f1, e1], by rw [f2, e2]⟩, by rw [f3, e3]⟩,
      by rw [f4, e4]⟩, by rw [f5, e5]⟩,
      reductL_trans kids b.children kids3 hl1 hl2⟩
theorem reductL_trans : ∀ A B C, reductL A B = true → reductL B C = true →
    reductL A C = true
  | [], B, C => fun h1 h2 => by
    rw [reductL_nil] at h1 ⊢
    have hB : B = [] := by
      rcases B with _ | ⟨b, bs⟩
      · rfl
      · exact absurd h1 (by simp)
    subst hB
    rw [reductL_nil] at h2
    exact h2
  | a :: as, B, C => fun h1 h2 => by
    rw [reductL_cons] at h1 ⊢
    rw [Bool.or_eq_true] at h1
    rcases h1 with hA | hA
    · rcases B with _ | ⟨b, bs⟩
      · exact absurd hA (by simp)
      · simp only [Bool.and_eq_true] at hA
        rw [reductL_cons] at h2
        rw [Bool.or_eq_true] at h2
        rcases h2 with hB | hB
        · rcases C with _ | ⟨c, cs⟩
          · exact absurd hB (by simp)
          · simp only [Bool.and_eq_true] at hB
            rw [Bool.or_eq_true]
            left
            show (reduct a c && reductL as cs) = true
            rw [reduct_trans a b c hA.1 hB.1,
              reductL_trans as bs cs hA.2 hB.2]
            rfl
        · rw [Bool.or_eq_true]
          right
          exact reductL_trans as bs C hA.2 hB
    · rw [Bool.or_eq_true]
      right
      exact reductL_trans as B C hA h2
end

mutual
theorem reduct_sublist : ∀ o c, reduct o c = true →
    List.Sublist (elemIds c) (elemIds o)
  | .mk i tg a tx kids tl, c => fun h => by
    obtain ⟨e1, _, _, _, _, hl⟩ := reduct_parts _ c h
    simp only [Elem.eid_mk, Elem.children_mk] at e1 hl
    rw [elemIds_eq c, e1,
      show elemIds (Elem.mk i tg a tx kids tl) = i :: elemIdsL kids from rfl]
    exact List.Sublist.cons₂ i (reductL_sublist kids c.children hl)
theorem reductL_sublist : ∀ l l2, reductL l l2 = true →
    List.Sublist (elemIdsL l2) (elemIdsL l)
  | [], l2 => fun h => by
    rw [reductL_nil] at h
    have hE : l2 = [] := by
      rcases l2 with _ | ⟨d, ds⟩
      · rfl
      · exact absurd h (by simp)
    subst hE
    exact List.Sublist.refl _
  | c :: cs, l2 => fun h => by
    rw [reductL_cons, Bool.or_eq_true] at h
    rcases h with hA | hA
    · rcases l2 with _ | ⟨d, ds⟩
      · exact absurd hA (by simp)
      · simp only [Bool.and_eq_true] at hA
        rw [elemIdsL_cons, elemIdsL_cons]
        exact List.Sublist.append (reduct_sublist c d hA.1)
          (reductL_sublist cs ds hA.2)
    · rw [elemIdsL_cons]
      exact List.Sublist.trans (reductL_sublist cs l2 hA)
        (List.sublist_append_right _ _)
end

theorem isWS_append (s t : String) : isWS (s ++ t) = (isWS s && isWS t) := by
  show List.all (s.data ++ t.data) _ = _
  rw [List.all_append]
  rfl

mutual
theorem reduct_isWS : ∀ o c, reduct o c = true → isWS (innerText o) = true →
    isWS (innerText c) = true
  | .mk i tg a tx kids tl, c => fun h hw => by
    obtain ⟨_, _, _, e4, _, hl⟩ := reduct_parts _ c h
    simp only [Elem.text_mk, Elem.children_mk] at e4 hl
    rw [innerText_eq c, e4, isWS_append, Bool.and_eq_true]
    rw [show innerText (Elem.mk i tg a tx kids tl) = tx ++ innerTextL kids
        from rfl,
      isWS_append, Bool.and_eq_true] at hw
    exact ⟨hw.1, reductL_isWS kids c.children hl hw.2⟩
theorem reductL_isWS : ∀ l l2, reductL l l2 = true →
    isWS (innerTextL l) = true → isWS (innerTextL l2) = true
  | [], l2 => fun h _ => by
    rw [reductL_nil] at h
    have hE : l2 = [] := by
      rcases l2 with _ | ⟨d, ds⟩
      · rfl
      · exact absurd h (by simp)
    subst hE
    rw [innerTextL_nil]
    rfl
  | c :: cs, l2 => fun h hw => by
    rw [reductL_cons, Bool.or_eq_true] at h
    rw [innerTextL_cons, isWS_append, isWS_append, Bool.and_eq_true,
      Bool.and_eq_true] at hw
    rcases h with hA | hA
    · rcases l2 with _ | ⟨d, ds⟩
      · exact absurd hA (by simp)
      · simp only [Bool.and_eq_true] at hA
        obtain ⟨_, _, _, _, c5, _⟩ := reduct_parts c d hA.1
        rw [innerTextL_cons, isWS_append, isWS_append, Bool.and_eq_true,
          Bool.and_eq_true]
        exact ⟨⟨reduct_isWS c d hA.1 hw.1.1, by rw [c5]; exact hw.1.2⟩,
          reductL_isWS cs ds hA.2 hw.2⟩
    · exact reductL_isWS cs l2 hA hw.2
end

mutual
theorem reduct_countTag0 : ∀ tg o c, reduct o c = true → countTag tg o = 0 →
    countTag tg c = 0
  | tg, .mk i tgo a tx kids tl, c => fun h h0 => by
    obtain ⟨_, e2, _, _, _, hl⟩ := reduct_parts _ c h
    simp only [Elem.tag_mk, Elem.children_mk] at e2 hl
    rcases c with ⟨i2, tg2, a2, tx2, kids2, tl2⟩
    simp only [Elem.tag_mk, Elem.children_mk] at e2 hl
    rw [show countTag tg (Elem.mk i tgo a tx kids tl) =
      (if tgo = tg then 1 else 0) + countTagL tg kids from rfl] at h0
    rw [show countTag tg (Elem.mk i2 tg2 a2 tx2 kids2 tl2) =
      (if tg2 = tg then 1 else 0) + countTagL tg kids2 from rfl]
    by_cases htg : tgo = tg
    · rw [if_pos htg] at h0
      omega
    · rw [if_neg htg] at h0
      have h1 : countTagL tg kids = 0 := by omega
      have htg2 : ¬ tg2 = tg := by rw [e2]; exact htg
      rw [if_neg htg2]
      have h2 := reductL_countTag0 tg kids kids2 hl h1
      omega
theorem reductL_countTag0 : ∀ tg l l2, reductL l l2 = true →
    countTagL tg l = 0 → countTagL tg l2 = 0
  | tg, [], l2 => fun h _ => by
    rw [reductL_nil] at h
    have hE : l2 = [] := by
      rcases l2 with _ | ⟨d, ds⟩
      · rfl
      · exact absurd h (by simp)
    subst hE
    rfl
  | tg, c :: cs, l2 => fun h h0 => by
    rw [reductL_cons, Bool.or_eq_true] at h
    rw [show countTagL tg (c :: cs) = countTag tg c + countTagL tg cs
        from rfl] at h0
    rcases h with hA | hA
    · rcases l2 with _ | ⟨d, ds⟩
      · rfl
      · simp only [Bool.and_eq_true] at hA
        rw [show countTagL tg (d :: ds) = countTag tg d + countTagL tg ds
            from rfl]
        have hc : countTag tg c = 0 := by omega
        have hcs : countTagL tg cs = 0 := by omega
        have hd := reduct_countTag0 tg c d hA.1 hc
        have hds := reductL_countTag0 tg cs ds hA.2 hcs
        omega
    · have hcs : countTagL tg cs = 0 := by omega
      exact reductL_countTag0 tg cs l2 hA hcs
end

mutual
theorem reduct_findById : ∀ o c, reduct o c = true →
    List.Nodup (elemIds o) → ∀ z w, findById c z = some w →
    ∃ w0, findById o z = some w0 ∧ reduct w0 w = true
  | .mk i tg a tx kids tl, c => fun h hnd z w hf => by
    obtain ⟨e1, _, _, _, _, hl⟩ := reduct_parts _ c h
    simp only [Elem.eid_mk, Elem.children_mk] at e1 hl
    rcases c with ⟨i2, tg2, a2, tx2, kids2, tl2⟩
    simp only [Elem.eid_mk, Elem.children_mk] at e1 hl
    rw [show findById (Elem.mk i2 tg2 a2 tx2 kids2 tl2) z =
      (if i2 = z then some (Elem.mk i2 tg2 a2 tx2 kids2 tl2)
       else findByIdL kids2 z) from rfl] at hf
    rw [show findById (Elem.mk i tg a tx kids tl) z =
      (if i = z then some (Elem.mk i tg a tx kids tl)
       else findByIdL kids z) from rfl]
    rw [e1] at hf h
    by_cases hz : i = z
    · rw [if_pos hz] at hf ⊢
      refine ⟨_, rfl, ?_⟩
      have hw : w = Elem.mk i tg2 a2 tx2 kids2 tl2 := (Option.some.inj hf).symm
      subst hw
      exact h
    · rw [if_neg hz] at hf ⊢
      have hndk : List.Nodup (elemIdsL kids) := by
        rw [show elemIds (Elem.mk i tg a tx kids tl) = i :: elemIdsL kids
            from rfl] at hnd
        exact (List.nodup_cons.mp hnd).2
      exact reductL_findById kids kids2 hl hndk z w hf
theorem reductL_findById : ∀ l l2, reductL l l2 = true →
    List.Nodup (elemIdsL l) → ∀ z w, findByIdL l2 z = some w →
    ∃ w0, findByIdL l z = some w0 ∧ reduct w0 w = true
  | [], l2 => fun h _ z w hf => by
    rw [reductL_nil] at h
    have hE : l2 = [] := by
      rcases l2 with _ | ⟨d, ds⟩
      · rfl
      · exact absurd h (by simp)
    subst hE
    rw [show findByIdL ([] : List Elem) z = none from rfl] at hf
    exact absurd hf (by simp)
  | c :: cs, l2 => fun h hnd z w hf => by
    rw [reductL_cons, Bool.or_eq_true] at h
    rw [elemIdsL_cons] at hnd
    have hnd1 : List.Nodup (elemIds c) := hnd.sublist (List.sublist_append_left _ _)
    have hnd2 : List.Nodup (elemIdsL cs) := hnd.sublist (List.sublist_append_right _ _)
    have hdisj : ∀ y, y ∈ elemIdsL cs → y ∉ elemIds c := by
      intro y hy hyc
      exact (List.disjoint_of_nodup_append hnd) hyc hy
    rcases h with hA | hA
    · rcases l2 with _ | ⟨d, ds⟩
      · rw [show findByIdL ([] : List Elem) z = none from rfl] at hf
        exact absurd hf (by simp)
      · simp only [Bool.and_eq_true] at hA
        rw [findByIdL_cons] at hf
        rw [findByIdL_cons]
        rcases hd : findById d z with _ | r
        · rw [hd] at hf
          have hzds : z ∈ elemIdsL ds := findByIdL_mem_of_some ds z w hf
          have hzcs : z ∈ elemIdsL cs :=
            (reductL_sublist cs ds hA.2).subset hzds
          have hcnone : findById c z = none :=
            findById_eq_none c z (hdisj z hzcs)
          rw [hcnone]
          exact reductL_findById cs ds hA.2 hnd2 z w hf
        · rw [hd] at hf
          have hw : r = w := Option.some.inj hf
          subst hw
          obtain ⟨w0, hw0, hred⟩ := reduct_findById c d hA.1 hnd1 z r hd
          rw [hw0]
          exact ⟨w0, rfl, hred⟩
    · have hzl2 : z ∈ elemIdsL l2 := findByIdL_mem_of_some l2 z w hf
      have hzcs : z ∈ elemIdsL cs := (reductL_sublist cs l2 hA).subset hzl2
      have hcnone : findById c z = none := findById_eq_none c z (hdisj z hzcs)
      rw [findByIdL_cons, hcnone]
      exact reductL_findById cs l2 hA hnd2 z w hf
end

theorem reduct_cascadeUp : ∀ (fuel : Nat) (t : Elem) (x : Nat),
    reduct t (cascadeUp t fuel x) = true := by
  intro fuel
  induction fuel with
  | zero => intro t x; exact reduct_refl t
  | succ n ih =>
    intro t x
    rw [show cascadeUp t (n + 1) x =
      (match findById t x with
       | none => t
       | some v =>
         match parentOf t x with
         | none => t
         | some q =>
           if v.children.isEmpty then cascadeUp (removeById x t) n q
           else t) from rfl]
    rcases hf : findById t x with _ | v
    · exact reduct_refl t
    · rcases hp : parentOf t x with _ | q
      · exact reduct_refl t
      · show reduct t
          (if v.children.isEmpty then cascadeUp (removeById x t) n q
           else t) = true
        by_cases hc : v.children.isEmpty
        · rw [if_pos hc]
          exact reduct_trans t (removeById x t) _ (reduct_removeById t x)
            (ih (removeById x t) q)
        · rw [if_neg hc]
          exact reduct_refl t

theorem reduct_pruneStep (root : Elem) (pid : Nat) :
    reduct root (pruneStep root pid) = true := by
  unfold pruneStep
  rcases hf : findById root pid with _ | v
  · exact reduct_refl root
  · show reduct root
      (if isWS (innerText v) && (countTagL "img" v.children == 0) then
        match parentOf root pid with
        | none => root
        | some par =>
          cascadeUp (removeById pid root) ((elemIds root).length + 1) par
       else root) = true
    by_cases hc : (isWS (innerText v) && (countTagL "img" v.children == 0)) = true
    · rw [if_pos hc]
      rcases hp : parentOf root pid with _ | par
      · exact reduct_refl root
      · exact reduct_trans root (removeById pid root) _
          (reduct_removeById root pid)
          (reduct_cascadeUp _ (removeById pid root) par)
    · rw [if_neg hc]
      exact reduct_refl root

theorem reduct_foldl_pruneStep : ∀ (L : List Nat) (cur : Elem),
    reduct cur (L.foldl pruneStep cur) = true
  | [], cur => reduct_refl cur
  | p :: ps, cur => by
    rw [List.foldl_cons]
    exact reduct_trans cur (pruneStep cur p) _ (reduct_pruneStep cur p)
      (reduct_foldl_pruneStep ps (pruneStep cur p))

mutual
theorem not_mem_removeById : ∀ (t : Elem) (y : Nat),
    List.Nodup (elemIds t) → y ≠ t.eid → y ∉ elemIds (removeById y t)
  | .mk i tg a tx kids tl, y => fun hnd hne => by
    simp only [Elem.eid_mk] at hne
    rw [show removeById y (Elem.mk i tg a tx kids tl) =
      Elem.mk i tg a tx (removeByIdL y kids) tl from rfl,
      show elemIds (Elem.mk i tg a tx (removeByIdL y kids) tl) =
        i :: elemIdsL (removeByIdL y kids) from rfl]
    intro hmem
    rcases List.mem_cons.mp hmem with h1 | h1
    · exact hne h1
    · rw [show elemIds (Elem.mk i tg a tx kids tl) = i :: elemIdsL kids
        from rfl] at hnd
      exact not_mem_removeByIdL kids y (List.nodup_cons.mp hnd).2 h1
theorem not_mem_removeByIdL : ∀ (l : List Elem) (y : Nat),
    List.Nodup (elemIdsL l) → y ∉ elemIdsL (removeByIdL y l)
  | [], y => fun _ => by
    rw [show removeByIdL y ([] : List Elem) = [] from rfl, elemIdsL_nil]
    simp
  | c :: cs, y => fun hnd => by
    rw [elemIdsL_cons] at hnd
    have hnd1 : List.Nodup (elemIds c) :=
      hnd.sublist (List.sublist_append_left _ _)
    have hnd2 : List.Nodup (elemIdsL cs) :=
      hnd.sublist (List.sublist_append_right _ _)
    rw [show removeByIdL y (c :: cs) =
      if c.eid = y then cs else removeById y c :: removeByIdL y cs from rfl]
    by_cases he : c.eid = y
    · rw [if_pos he]
      intro hy
      have hyc : y ∈ elemIds c := by
        rw [elemIds_eq c, ← he]
        exact List.mem_cons_self _ _
      exact (List.disjoint_of_nodup_append hnd) hyc hy
    · rw [if_neg he, elemIdsL_cons]
      intro hy
      rcases List.mem_append.mp hy with h1 | h1
      · exact not_mem_removeById c y hnd1 (fun hh => he hh.symm) h1
      · exact not_mem_removeByIdL cs y hnd2 h1
end

mutual
theorem parentOf_isSome : ∀ (t : Elem) (y : Nat), y ∈ elemIds t →
    y ≠ t.eid → (parentOf t y).isSome = true
  | .mk i tg a tx kids tl, y => fun hmem hne => by
    simp only [Elem.eid_mk] at hne
    rw [show elemIds (Elem.mk i tg a tx kids tl) = i :: elemIdsL kids
      from rfl] at hmem
    have hky : y ∈ elemIdsL kids := by
      rcases List.mem_cons.mp hmem with h1 | h1
      · exact absurd h1 hne
      · exact h1
    rw [show parentOf (Elem.mk i tg a tx kids tl) y =
      (if kids.any (fun c => c.eid == y) then some i else parentOfL kids y)
      from rfl]
    by_cases ha : kids.any (fun c => c.eid == y)
    · rw [if_pos ha]
      rfl
    · rw [if_neg ha]
      rcases parentOfL_mem kids y hky with ⟨c, hc, hceq⟩ | hs
      · exfalso
        apply ha
        rw [List.any_eq_true]
        exact ⟨c, hc, by rw [hceq]; simp⟩
      · exact hs
theorem parentOfL_mem : ∀ (l : List Elem) (y : Nat), y ∈ elemIdsL l →
    (∃ c ∈ l, c.eid = y) ∨ (parentOfL l y).isSome = true
  | [], y => fun h => by
    rw [elemIdsL_nil] at h
    exact absurd h (by simp)
  | c :: cs, y => fun h => by
    rw [elemIdsL_cons] at h
    rw [show parentOfL (c :: cs) y =
      (match parentOf c y with
       | some r => some r
       | none => parentOfL cs y) from rfl]
    rcases List.mem_append.mp h with h1 | h1
    · by_cases he : c.eid = y
      · exact Or.inl ⟨c, List.mem_cons_self _ _, he⟩
      · have hps := parentOf_isSome c y h1 (fun hh => he hh.symm)
        right
        rcases hp : parentOf c y with _ | r
        · rw [hp] at hps
          exact absurd hps (by simp)
        · rfl
    · rcases parentOfL_mem cs y h1 with ⟨c', hc', he'⟩ | hs
      · exact Or.inl ⟨c', List.mem_cons_of_mem _ hc', he'⟩
      · right
        rcases hp : parentOf c y with _ | r
        · exact hs
        · rfl
end

mutual
theorem pIds_sub : ∀ (t : Elem) (y : Nat), y ∈ pIdsE t → y ∈ elemIds t
  | .mk i tg a tx kids tl, y => fun h => by
    rw [show pIdsE (Elem.mk i tg a tx kids tl) =
      (if tg == "p" then [i] else []) ++ pIdsL kids from rfl] at h
    rw [show elemIds (Elem.mk i tg a tx kids tl) = i :: elemIdsL kids from rfl]
    rcases List.mem_append.mp h with h1 | h1
    · by_cases htg : (tg == "p") = true
      · rw [if_pos htg] at h1
        have hy : y = i := List.mem_singleton.mp h1
        rw [hy]
        exact List.mem_cons_self _ _
      · rw [if_neg htg] at h1
        exact absurd h1 (by simp)
    · exact List.mem_cons_of_mem _ (pIdsL_sub kids y h1)
theorem pIdsL_sub : ∀ (l : List Elem) (y : Nat), y ∈ pIdsL l → y ∈ elemIdsL l
  | [], y => fun h => by
    rw [show pIdsL ([] : List Elem) = [] from rfl] at h
    exact absurd h (by simp)
  | c :: cs, y => fun h => by
    rw [show pIdsL (c :: cs) = pIdsE c ++ pIdsL cs from rfl] at h
    rw [elemIdsL_cons]
    rcases List.mem_append.mp h with h1 | h1
    · exact List.mem_append.mpr (Or.inl (pIds_sub c y h1))
    · exact List.mem_append.mpr (Or.inr (pIdsL_sub cs y h1))
end

theorem pruneStep_kills (root M : Elem) (y : Nat) (v : Elem)
    (hnd : List.Nodup (elemIds root))
    (hred : reduct root M = true)
    (hv : findById root y = some v)
    (hws : isWS (innerText v) = true)
    (himg : countTagL "img" v.children = 0)
    (hyne : y ≠ root.eid) :
    y ∉ elemIds (pruneStep M y) := by
  have hndM : List.Nodup (elemIds M) := hnd.sublist (reduct_sublist root M hred)
  rcases hfM : findById M y with _ | w
  · have hyM : y ∉ elemIds M := by
      intro hy
      have hq := (findById_isSome_iff M y).mpr hy
      rw [hfM] at hq
      exact absurd hq (by simp)
    unfold pruneStep
    rw [hfM]
    exact hyM
  · obtain ⟨w0, hw0, hredw⟩ := reduct_findById root M hred hnd y w hfM
    have hvw0 : w0 = v := by
      rw [hv] at hw0
      exact (Option.some.inj hw0).symm
    subst hvw0
    have hwsW : isWS (innerText w) = true := reduct_isWS w0 w hredw hws
    have himgW : countTagL "img" w.children = 0 := by
      obtain ⟨_, _, _, _, _, hl⟩ := reduct_parts w0 w hredw
      exact reductL_countTag0 "img" w0.children w.children hl himg
    have hyMne : y ≠ M.eid := by
      obtain ⟨hMe, _⟩ := reduct_parts root M hred
      rw [hMe]
      exact hyne
    have hyM : y ∈ elemIds M := findById_mem_of_some M y w hfM
    have hps := parentOf_isSome M y hyM hyMne
    rcases hpar : parentOf M y with _ | par
    · rw [hpar] at hps
      exact absurd hps (by simp)
    · unfold pruneStep
      rw [hfM]
      show y ∉ elemIds
        (if isWS (innerText w) && (countTagL "img" w.children == 0) then
          match parentOf M y with
          | none => M
          | some par2 =>
            cascadeUp (removeById y M) ((elemIds M).length + 1) par2
         else M)
      have hcond :
          (isWS (innerText w) && (countTagL "img" w.children == 0)) = true := by
        rw [hwsW, himgW]
        rfl
      rw [if_pos hcond, hpar]
      show y ∉ elemIds (cascadeUp (removeById y M) ((elemIds M).length + 1) par)
      intro hy
      have hsub := reduct_sublist (removeById y M) _
        (reduct_cascadeUp ((elemIds M).length + 1) (removeById y M) par)
      exact not_mem_removeById M y hndM hyMne (hsub.subset hy)

def rootC6 : Elem :=
  .mk 0 "div" [] "" [.mk 1 "s" [] "keep" [.mk 2 "p" [] "" [] ""] ""] ""

/-- C6 counterexample: in the tree `<div><s>keep<p/></s></div>` the `s`
node has non-whitespace text content, yet `removeEmptyParagraphs` (the
shallow embedding of `RemoveEmptyParagraphs.__call__`) removes it: after
removing the empty `p`, the upward cascade checks only for remaining
element children (`iterchildren`) and never looks at the ancestor's text,
so the text-bearing `s` is removed as well. This refutes the claim that
the cascade stops at every ancestor that still has content. -/
theorem remove_empty_paragraphs_cascade_counterexample :
    isWS (innerText (Elem.mk 1 "s" [] "keep" [.mk 2 "p" [] "" [] ""] ""))
      = false ∧
    findById rootC6 1
      = some (Elem.mk 1 "s" [] "keep" [.mk 2 "p" [] "" [] ""] "") ∧
    1 ∉ elemIds (removeEmptyParagraphs rootC6) := by decide

/-- C6 (amended): on a tree with distinct node ids, every `p` node whose
text content (own and descendant text and inner tails, as collected by
`.//text()`) is whitespace-only and which has no `img` descendant is
removed by `removeEmptyParagraphs`; and the resulting tree is a reduct of
the original: it arises only by deleting whole child subtrees, every
surviving node keeping its id, tag, attributes, text and tail — so in
particular the root always survives. The cascade, however, checks only
for remaining element children: an ancestor carrying text but no element
children is also removed, so the original claim's "no ancestor that still
has content is removed" holds only for ancestors with element content. -/
theorem remove_empty_paragraphs_amended (root : Elem)
    (hnd : List.Nodup (elemIds root)) :
    (∀ y v, y ∈ pIdsL root.children → findById root y = some v →
      isWS (innerText v) = true → countTagL "img" v.children = 0 →
      y ∉ elemIds (removeEmptyParagraphs root)) ∧
    reduct root (removeEmptyParagraphs root) = true := by
  constructor
  · intro y v hy hv hws himg
    have hyne : y ≠ root.eid := by
      intro he
      have hymem : y ∈ elemIdsL root.children := pIdsL_sub root.children y hy
      rw [elemIds_eq root] at hnd
      exact (List.nodup_cons.mp hnd).1 (he ▸ hymem)
    obtain ⟨L1, L2, hsplit⟩ := List.append_of_mem hy
    unfold removeEmptyParagraphs
    rw [hsplit, List.foldl_append, List.foldl_cons]
    have hM : reduct root (L1.foldl pruneStep root) = true :=
      reduct_foldl_pruneStep L1 root
    have hkill := pruneStep_kills root (L1.foldl pruneStep root) y v hnd hM
      hv hws himg hyne
    intro hy2
    have hsub := reduct_sublist (pruneStep (L1.foldl pruneStep root) y) _
      (reduct_foldl_pruneStep L2 (pruneStep (L1.foldl pruneStep root) y))
    exact hkill (hsub.subset hy2)
  · exact reduct_foldl_pruneStep (pIdsL root.children) root

def rootW6 : Elem := .mk 0 "div" [] "" [.mk 1 "p" [] " " [] ""] ""

theorem remove_empty_paragraphs_amended_witness :
    List.Nodup (elemIds rootW6) ∧
    1 ∉ elemIds (removeEmptyParagraphs rootW6) ∧
    reduct rootW6 (removeEmptyParagraphs rootW6) = true :=
  ⟨by decide,
   (remove_empty_paragraphs_amended rootW6 (by decide)).1 1
     (Elem.mk 1 "p" [] " " [] "") (by decide) (by decide) (by decide)
     (by decide),
   (remove_empty_paragraphs_amended rootW6 (by decide)).2⟩

def inlineTags : List String := ["b", "i", "sup", "sub"]

def isInline (tg : String) : Bool := inlineTags.contains tg

def inlineTagsA : List String := ["a", "b", "i", "sup", "sub"]

def isInlineA (tg : String) : Bool := inlineTagsA.contains tg

mutual
/-- Ids of proper-descendant nodes whose tag satisfies `p`, in document
order (the xpath union `.//t1|.//t2|...`, which libxml2 returns in
document order). -/
def tagIdsE (p : String → Bool) : Elem → List Nat
  | .mk i tg _ _ kids _ => (if p tg then [i] else []) ++ tagIdsL p kids
def tagIdsL (p : String → Bool) : List Elem → List Nat
  | [] => []
  | c :: cs => tagIdsE p c ++ tagIdsL p cs
end

/-- Append `s` to the tail of the last element of `l`. -/
def addTailLast (s : String) : List Elem → List Elem
  | [] => []
  | [c] => [c.setTail (c.tail ++ s)]
  | c :: d :: rest => c :: addTailLast s (d :: rest)

/-- Modelled from the spec: `merge_adjacent(target, second)` makes the
target absorb the second node's text (onto the target's own text, or the
tail of its last child), children and tail; the second node is removed. -/
def mergeAdjacent (c d : Elem) : Elem :=
  if c.children.isEmpty then
    .mk c.eid c.tag c.attrs (c.text ++ d.text) d.children d.tail
  else
    .mk c.eid c.tag c.attrs c.text
      (addTailLast d.text c.children ++ d.children) d.tail

/-- The trailing while-loop of `MergeAdjacentInlines.__call__`: as long as
the node has a next sibling of the same tag and no tail, merge it in. -/
def mergeRun : Nat → Elem → List Elem → Elem × List Elem
  | 0, c, rest => (c, rest)
  | _ + 1, c, [] => (c, [])
  | fuel + 1, c, d :: ds =>
    if d.tag = c.tag ∧ c.tail = "" then mergeRun fuel (mergeAdjacent c d) ds
    else (c, d :: ds)

mutual
/-- Run the merge loop at the node with id `x`, wherever it sits. -/
def mergeFixE (x : Nat) : Elem → Elem
  | .mk i tg a tx kids tl => .mk i tg a tx (mergeFixL x kids) tl
def mergeFixL (x : Nat) : List Elem → List Elem
  | [] => []
  | c :: cs =>
    if c.eid = x then
      (mergeRun (cs.length + 1) c cs).1 :: (mergeRun (cs.length + 1) c cs).2
    else mergeFixE x c :: mergeFixL x cs
end

/-- `MergeAdjacentInlines.__call__`: for each snapshot inline node in
document order, repeatedly merge the next sibling while it has the same
tag and the node has no tail. A node merged away earlier is absent from
the current tree and is skipped. -/
def mergeAdjacentInlines (root : Elem) : Elem :=
  (tagIdsL isInline root.children).foldl (fun cur x => mergeFixE x cur) root

mutual
/-- Modelled from the spec: `unwrap_element` on a childless node removes
it from its parent and reattaches its own text and tail to the preceding
sibling's tail, or to the parent's own text if it was the first child. -/
def unwrapE (x : Nat) : Elem → Elem
  | .mk i tg a tx kids tl =>
    match kids with
    | [] => .mk i tg a tx [] tl
    | c :: cs =>
      if c.eid = x then .mk i tg a (tx ++ c.text ++ c.tail) cs tl
      else .mk i tg a tx (unwrapL x (c :: cs)) tl
def unwrapL (x : Nat) : List Elem → List Elem
  | [] => []
  | [c] => [unwrapE x c]
  | c :: d :: rest =>
    if d.eid = x then c.setTail (c.tail ++ d.text ++ d.tail) :: rest
    else unwrapE x c :: unwrapL x (d :: rest)
end

/-- `RemoveEmptyInlines.__call__`: for each snapshot node with a
configured tag, if at processing time it is childless with empty or
whitespace-only text, unwrap it. -/
def removeEmptyInlines (root : Elem) : Elem :=
  (tagIdsL isInlineA root.children).foldl
    (fun cur x =>
      match findById cur x with
      | none => cur
      | some v =>
        if v.children.isEmpty && isWS v.text then unwrapE x cur else cur)
    root

/-- The inline-normalization sequence of C9: adjacent-merge, then
empty-unwrap, then empty-paragraph pruning. -/
def inlineNormalize (t : Elem) : Elem :=
  removeEmptyParagraphs (removeEmptyInlines (mergeAdjacentInlines t))

mutual
/-- Some child list contains two consecutive elements with equal tags and
an empty intervening tail (a merge trigger). -/
def adjTrigE : Elem → Bool
  | .mk _ _ _ _ kids _ => adjTrigL kids
def adjTrigL : List Elem → Bool
  | [] => false
  | [c] => adjTrigE c
  | c :: d :: rest =>
    (decide (d.tag = c.tag) && decide (c.tail = "")) || adjTrigE c ||
      adjTrigL (d :: rest)
end

theorem mergeRun_stop (fuel : Nat) (c : Elem) :
    mergeRun fuel c [] = (c, []) := by
  cases fuel <;> rfl

theorem mergeRun_neg (fuel : Nat) (c d : Elem) (ds : List Elem)
    (h : ¬(d.tag = c.tag ∧ c.tail = "")) :
    mergeRun fuel c (d :: ds) = (c, d :: ds) := by
  cases fuel with
  | zero => rfl
  | succ n =>
    rw [show mergeRun (n + 1) c (d :: ds) =
      (if d.tag = c.tag ∧ c.tail = "" then mergeRun n (mergeAdjacent c d) ds
       else (c, d :: ds)) from rfl, if_neg h]

theorem foldl_fix {f : Elem → Nat → Elem} : ∀ (L : List Nat) (t : Elem),
    (∀ x, f t x = t) → L.foldl f t = t
  | [], _ => fun _ => rfl
  | x :: xs, t => fun h => by
    rw [List.foldl_cons, h x]
    exact foldl_fix xs t h

mutual
theorem mergeFixE_id : ∀ (t : Elem) (x : Nat), adjTrigE t = false →
    mergeFixE x t = t
  | .mk i tg a tx kids tl, x => fun h => by
    rw [show adjTrigE (Elem.mk i tg a tx kids tl) = adjTrigL kids
      from rfl] at h
    rw [show mergeFixE x (Elem.mk i tg a tx kids tl) =
      Elem.mk i tg a tx (mergeFixL x kids) tl from rfl,
      mergeFixL_id kids x h]
theorem mergeFixL_id : ∀ (l : List Elem) (x : Nat), adjTrigL l = false →
    mergeFixL x l = l
  | [], x => fun _ => rfl
  | [c], x => fun h => by
    rw [show adjTrigL [c] = adjTrigE c from rfl] at h
    rw [show mergeFixL x [c] =
      (if c.eid = x then (mergeRun 1 c []).1 :: (mergeRun 1 c []).2
       else mergeFixE x c :: mergeFixL x []) from rfl]
    by_cases he : c.eid = x
    · rw [if_pos he, mergeRun_stop]
    · rw [if_neg he, mergeFixE_id c x h]
      rfl
  | c :: d :: rest, x => fun h => by
    rw [show adjTrigL (c :: d :: rest) =
      ((decide (d.tag = c.tag) && decide (c.tail = "")) || adjTrigE c ||
        adjTrigL (d :: rest)) from rfl] at h
    simp only [Bool.or_eq_false_iff] at h
    obtain ⟨⟨hpair, hc⟩, hrest⟩ := h
    have hnp : ¬(d.tag = c.tag ∧ c.tail = "") := by
      rintro ⟨p, q⟩
      rw [decide_eq_true p, decide_eq_true q] at hpair
      exact absurd hpair (by simp)
    rw [show mergeFixL x (c :: d :: rest) =
      (if c.eid = x then
        (mergeRun ((d :: rest).length + 1) c (d :: rest)).1 ::
          (mergeRun ((d :: rest).length + 1) c (d :: rest)).2
       else mergeFixE x c :: mergeFixL x (d :: rest)) from rfl]
    by_cases he : c.eid = x
    · rw [if_pos he, mergeRun_neg _ c d rest hnp]
    · rw [if_neg he, mergeFixE_id c x hc, mergeFixL_id (d :: rest) x hrest]
end

theorem mergeAdjacentInlines_id (root : Elem) (h : adjTrigE root = false) :
    mergeAdjacentInlines root = root := by
  unfold mergeAdjacentInlines
  exact foldl_fix _ root (fun x => mergeFixE_id root x h)

theorem bool_not_true {b : Bool} (h : (!b) = true) : b = false := by
  cases b
  · rfl
  · exact absurd h (by simp)

theorem removeEmptyInlines_id (root : Elem)
    (h : ∀ x ∈ elemIds root,
      (match findById root x with
       | none => true
       | some v => !(v.children.isEmpty && isWS v.text)) = true) :
    removeEmptyInlines root = root := by
  unfold removeEmptyInlines
  refine foldl_fix _ root (fun x => ?_)
  show (match findById root x with
    | none => root
    | some v =>
      if v.children.isEmpty && isWS v.text then unwrapE x root
      else root) = root
  rcases hf : findById root x with _ | v
  · rfl
  · have hx := h x (findById_mem_of_some root x v hf)
    rw [hf] at hx
    have hx2 : (!(v.children.isEmpty && isWS v.text)) = true := hx
    have hcond : (v.children.isEmpty && isWS v.text) = false :=
      bool_not_true hx2
    show (if v.children.isEmpty && isWS v.text then unwrapE x root
      else root) = root
    rw [if_neg (by
      intro hh
      rw [hcond] at hh
      exact Bool.false_ne_true hh)]

theorem removeEmptyParagraphs_id (root : Elem)
    (h : ∀ x ∈ elemIds root,
      (match findById root x with
       | none => true
       | some v =>
         !(isWS (innerText v) && (countTagL "img" v.children == 0))) = true) :
    removeEmptyParagraphs root = root := by
  unfold removeEmptyParagraphs
  refine foldl_fix _ root (fun x => ?_)
  unfold pruneStep
  rcases hf : findById root x with _ | v
  · rfl
  · have hx := h x (findById_mem_of_some root x v hf)
    rw [hf] at hx
    have hx2 :
        (!(isWS (innerText v) && (countTagL "img" v.children == 0))) = true :=
      hx
    have hcond :
        (isWS (innerText v) && (countTagL "img" v.children == 0)) = false :=
      bool_not_true hx2
    show (if isWS (innerText v) && (countTagL "img" v.children == 0) then
      match parentOf root x with
      | none => root
      | some par =>
        cascadeUp (removeById x root) ((elemIds root).length + 1) par
     else root) = root
    rw [if_neg (by
      intro hh
      rw [hcond] at hh
      exact Bool.false_ne_true hh)]

def tC9 : Elem :=
  .mk 0 "div" [] ""
    [.mk 1 "p" [] ""
      [.mk 2 "b" [] "x" [] "", .mk 3 "i" [] "" [] "", .mk 4 "b" [] "y" [] ""]
      ""] ""

/-- C9 counterexample: on `<div><p><b>x</b><i/><b>y</b></p></div>` the
first pass of inline normalization (`inlineNormalize`: adjacent-merge,
then empty-unwrap, then empty-paragraph pruning) unwraps the empty `i`,
leaving the two `b` elements newly adjacent with no intervening tail; the
merge pass has already run, so the once-normalized tree keeps both `b`
nodes, while a second application merges them into one. Hence applying
the passes twice does not produce a tree identical to applying them
once. -/
theorem inline_normalization_not_idempotent_counterexample :
    countTag "b" (inlineNormalize tC9) = 2 ∧
    countTag "b" (inlineNormalize (inlineNormalize tC9)) = 1 ∧
    inlineNormalize (inlineNormalize tC9) ≠ inlineNormalize tC9 := by decide

/-- C9 (amended): inline normalization (`inlineNormalize` =
adjacent-merge, empty-unwrap, empty-paragraph pruning in sequence) is not
idempotent in general, because unwrapping an empty inline can create a
new adjacent same-tag pair after the merge pass has already run. It is
idempotent on every tree whose once-normalized form has no remaining
trigger: no two consecutive siblings with equal tags and an empty
intervening tail, no childless node with whitespace-only text, and no
node with whitespace-only text content and no `img` descendant. -/
theorem inline_normalization_conditional_idempotent (t : Elem)
    (hadj : adjTrigE (inlineNormalize t) = false)
    (hemp : ∀ x ∈ elemIds (inlineNormalize t),
      (match findById (inlineNormalize t) x with
       | none => true
       | some v => !(v.children.isEmpty && isWS v.text)) = true)
    (hpar : ∀ x ∈ elemIds (inlineNormalize t),
      (match findById (inlineNormalize t) x with
       | none => true
       | some v =>
         !(isWS (innerText v) && (countTagL "img" v.children == 0))) = true) :
    inlineNormalize (inlineNormalize t) = inlineNormalize t := by
  rw [show inlineNormalize (inlineNormalize t) =
    removeEmptyParagraphs (removeEmptyInlines
      (mergeAdjacentInlines (inlineNormalize t))) from rfl,
    mergeAdjacentInlines_id _ hadj, removeEmptyInlines_id _ hemp,
    removeEmptyParagraphs_id _ hpar]

def tW9 : Elem :=
  .mk 0 "div" [] "" [.mk 1 "p" [] "" [.mk 2 "b" [] "x" [] "q"] ""] ""

theorem inline_normalization_conditional_idempotent_witness :
    adjTrigE (inlineNormalize tW9) = false ∧
    inlineNormalize (inlineNormalize tW9) = inlineNormalize tW9 :=
  ⟨by decide,
   inline_normalization_conditional_idempotent tW9 (by decide) (by decide)
     (by decide)⟩
